import Mathlib

/-!
The cpputil argument framework: embedding and verified properties.

Shallow embedding of `src/include/args/args.h` (the argument object model, the
delimiter based collection readers with range fill, and `Args::read`).

Conventions of the embedding
* a `std::string` / C string is a `List Char` (`Str`);
* `argv` is a `List Str` and `argc` is its length;
* an input stream is the list of characters not yet extracted together with
  the two `iostate` bits the code tests (`eofbit`, `failbit`);
* the element type of the collection readers is `int`, embedded as `Int`;
  the one addition that can leave the range of `int`, the start `l + 1` of a
  fill loop inside the `while` loop of the range readers, is embedded with its
  overflow (`fillStart`);
* `std::set<int>` is a strictly ascending `List Int`;
* a `back()` on an empty `std::vector` and a signed overflow are undefined
  behaviour, an explicit outcome of the embedding.
-/

namespace cpputil

/-- A `std::string`, as its list of characters. -/
abbrev Str := List Char

/-! ## Streams -/

/-- The `iostate` bits tested by the code (`badbit` is never set on the
string and file streams the readers are given). -/
structure IoState where
  eofbit : Bool
  failbit : Bool
deriving DecidableEq

/-- An input stream: characters still to be extracted, and its state. -/
structure IStream where
  buf : Str
  state : IoState
deriving DecidableEq

/-- `std::istringstream iss(text)`: a fresh stream over `text`. -/
def IStream.ofString (text : Str) : IStream :=
  { buf := text, state := { eofbit := false, failbit := false } }

/-- `is.good()`. -/
def IStream.good (is : IStream) : Bool := !is.state.eofbit && !is.state.failbit

/-- `is.fail()`. -/
def IStream.fail (is : IStream) : Bool := is.state.failbit

/-- `is.eof()`. -/
def IStream.eof (is : IStream) : Bool := is.state.eofbit

/-- `is.setstate(std::ios::failbit)`. -/
def IStream.setFail (is : IStream) : IStream :=
  { is with state := { is.state with failbit := true } }

/-- `is.setstate(std::ios::eofbit)`. -/
def IStream.setEof (is : IStream) : IStream :=
  { is with state := { is.state with eofbit := true } }

/-- `is.clear(std::ios::eofbit)`: the state becomes exactly `eofbit`. -/
def IStream.clearToEof (is : IStream) : IStream :=
  { is with state := { eofbit := true, failbit := false } }

/-- Character extraction of `std::getline(is, line, delim)` on a good stream:
characters are appended to the line until end of input is met (third
component `true`, the caller sets `eofbit`) or the next character is the
delimiter, which is extracted and not appended. Returns the line, the
characters left in the stream, and whether end of input was met. -/
def getlineScan (delim : Char) : Str → Str × Str × Bool
  | [] => ([], [], true)
  | c :: cs =>
    if c = delim then ([], cs, false)
    else
      let r := getlineScan delim cs
      (c :: r.1, r.2.1, r.2.2)

/-- `std::getline(is, line, delim)`. When the stream is not good the sentry
fails: `failbit` is set and nothing is extracted. Otherwise characters are
extracted as in `getlineScan`; meeting end of input sets `eofbit`, and
`failbit` is set when no character at all was extracted (not even a
discarded delimiter). Returns the stream and the line read. -/
def getline (is : IStream) (delim : Char) : IStream × Str :=
  if is.good then
    let r := getlineScan delim is.buf
    ({ buf := r.2.1, state := { eofbit := r.2.2, failbit := is.buf.isEmpty } }, r.1)
  else
    (is.setFail, [])

/-! ## The shape shared by the four collection readers

Every collection reader is
`while ( std::getline(is, line, Delim) ) { body }` where the body either
goes on to the next iteration or sets `failbit` and returns. -/

/-- What one execution of a loop body does. -/
inductive Step (σ : Type) where
  /-- The body ran to its end (or hit `continue`) with a new state. -/
  | next (st : σ)
  /-- The element reader failed: `is.setstate(failbit); return;`. -/
  | failed
  /-- The body invoked undefined behaviour. -/
  | undefined

/-- How the `while` loop was left. -/
inductive LoopExit (σ : Type) where
  /-- `getline` returned a failed stream, the loop condition became false. -/
  | finished (is : IStream) (st : σ)
  /-- The body returned from the reader with `failbit` set. -/
  | returned (is : IStream) (st : σ)
  /-- The body invoked undefined behaviour. -/
  | undefined

/-- The `while ( std::getline(is, line, Delim) )` loop. `fuel` bounds the
number of iterations; `none` is returned when it runs out. -/
def getlineLoop {σ : Type} (Delim : Char) (body : Str → σ → Step σ) :
    Nat → IStream → σ → Option (LoopExit σ)
  | 0, _, _ => none
  | fuel + 1, is, st =>
    let r := getline is Delim
    if r.1.fail then some (LoopExit.finished r.1 st)
    else
      match body r.2 st with
      | Step.next st1 => getlineLoop Delim body fuel r.1 st1
      | Step.failed => some (LoopExit.returned r.1.setFail st)
      | Step.undefined => some LoopExit.undefined

/-- The loop `for ( auto i = lo; i < hi; ++i ) st = f(i, st);` with an
iteration budget. -/
def forRange {σ : Type} (f : Int → σ → σ) : Nat → Int → Int → σ → σ
  | 0, _, _, st => st
  | fuel + 1, i, hi, st =>
    if i < hi then forRange f fuel (i + 1) hi (f i st) else st

/-- `for ( auto i = lo; i < hi; ++i ) s.push_back(i);`. The loop makes
`hi - lo` iterations (none when `hi <= lo`). -/
def pushRange (lo hi : Int) (s : List Int) : List Int :=
  forRange (fun i s => s ++ [i]) (hi - lo).toNat lo hi s

/-- `a.insert(v)` on a `std::set<int>` held as a strictly ascending list. -/
def setInsert (v : Int) : List Int → List Int
  | [] => [v]
  | x :: xs =>
    if v < x then v :: x :: xs
    else if v = x then x :: xs
    else x :: setInsert v xs

/-- `for ( auto i = lo; i < hi; ++i ) a.insert(i);`. -/
def insertRange (lo hi : Int) (a : List Int) : List Int :=
  forRange (fun i a => setInsert i a) (hi - lo).toNat lo hi a

/-- The result of a collection reader. -/
inductive ReadOutcome where
  /-- The reader returned, leaving the stream `is` and the collection `s`. -/
  | done (is : IStream) (s : List Int)
  /-- The reader invoked undefined behaviour (`back()` of an empty vector, or
  an `int` addition that overflows). -/
  | undefined
deriving DecidableEq

/-! ## `SequenceArgReader` (args.h 463-483) -/

/-- Body of the loop of `SequenceArgReader::operator()`: parse the line with
the element reader `R` (`none` is `iss.fail()`), and append the value. -/
def SequenceArgReader.body (R : Str → Option Int) (line : Str) (s : List Int) :
    Step (List Int) :=
  match R line with
  | none => Step.failed
  | some v => Step.next (s ++ [v])

/-- `SequenceArgReader<S,Delim,R>::operator()(is, s)`. The previous content of
`s` is cleared, so `s` is not an input. `none` is returned only when the
iteration budget `is.buf.length + 1` does not suffice, which does not happen
(`getlineLoop_isSome`). -/
def SequenceArgReader (Delim : Char) (R : Str → Option Int) (is : IStream) :
    Option ReadOutcome :=
  match getlineLoop Delim (SequenceArgReader.body R) (is.buf.length + 1) is [] with
  | none => none
  | some (LoopExit.returned is1 s) => some (ReadOutcome.done is1 s)
  | some LoopExit.undefined => some ReadOutcome.undefined
  | some (LoopExit.finished is1 s) =>
    some (ReadOutcome.done (if is1.eof then is1.clearToEof else is1) s)

/-! ## `SequenceArgRangeReader` (args.h 485-529) -/

/-- The initial value `l + 1` of the fill loops
`for ( auto i = s.back()+1; i < v; ++i )` (line 511) and
`for ( auto i = last_insert + 1; i < v; ++i )` (line 594), computed in `int`.
The addition overflows, which is undefined behaviour (`none`), when `l` is the
largest `int`, 2147483647. The bound `v` is an `int` as well, so with `l < v`
the sum is at most `v`; the largest `int` can only be met with `v <= l`. -/
def fillStart (l v : Int) : Option Int :=
  if l < v then some (l + 1)
  else if 2147483647 ≤ l then none
  else some (l + 1)

/-- Body of the loop of `SequenceArgRangeReader::operator()`. The state is the
accumulator `s` and the flag `range`. -/
def SequenceArgRangeReader.body (Min : Int) (R : Str → Option Int) (line : Str)
    (st : List Int × Bool) : Step (List Int × Bool) :=
  if line = [] then Step.next (st.1, true)
  else
    match R line with
    | none => Step.failed
    | some v =>
      if st.2 then
        let s1 := if st.1.isEmpty then st.1 ++ [Min] else st.1
        match s1.getLast? with
        | none => Step.undefined
        | some l =>
          match fillStart l v with
          | none => Step.undefined
          | some i => Step.next (pushRange i v s1 ++ [v], false)
      else Step.next (st.1 ++ [v], st.2)

/-- The code after the loop of `SequenceArgRangeReader::operator()`: clear the
state to `eofbit` when at end of input, then fill a trailing open range. The
sum `s.back()+1` is computed only after the test `s.back() >= Max` has failed,
so it is at most `Max`, an `int`. -/
def SequenceArgRangeReader.finish (Max : Int) (is : IStream)
    (st : List Int × Bool) : ReadOutcome :=
  let is1 := if is.eof then is.clearToEof else is
  if st.2 then
    match st.1.getLast? with
    | none => ReadOutcome.undefined
    | some l =>
      if l ≥ Max then ReadOutcome.done is1.setEof st.1
      else ReadOutcome.done is1 (pushRange (l + 1) Max st.1)
  else ReadOutcome.done is1 st.1

/-- `SequenceArgRangeReader<S,Min,Max,Delim,R>::operator()(is, s)`. -/
def SequenceArgRangeReader (Min Max : Int) (Delim : Char) (R : Str → Option Int)
    (is : IStream) : Option ReadOutcome :=
  match getlineLoop Delim (SequenceArgRangeReader.body Min R)
      (is.buf.length + 1) is ([], false) with
  | none => none
  | some (LoopExit.returned is1 st) => some (ReadOutcome.done is1 st.1)
  | some LoopExit.undefined => some ReadOutcome.undefined
  | some (LoopExit.finished is1 st) => some (SequenceArgRangeReader.finish Max is1 st)

/-! ## `AssociativeArgRangeReader` (args.h 567-613) -/

/-- State of the loop of `AssociativeArgRangeReader::operator()`. -/
structure AssocState where
  a : List Int
  last_insert : Int
  range : Bool
deriving DecidableEq

/-- Body of the loop of `AssociativeArgRangeReader::operator()`. -/
def AssociativeArgRangeReader.body (Min : Int) (R : Str → Option Int) (line : Str)
    (st : AssocState) : Step AssocState :=
  if line = [] then Step.next { st with range := true }
  else
    match R line with
    | none => Step.failed
    | some v =>
      if st.range then
        let a1 := if st.a.isEmpty then setInsert Min st.a else st.a
        match fillStart st.last_insert v with
        | none => Step.undefined
        | some i =>
          Step.next { a := setInsert v (insertRange i v a1), last_insert := v, range := false }
      else Step.next { st with a := setInsert v st.a, last_insert := v }

/-- The code after the loop of `AssociativeArgRangeReader::operator()`. The sum
`last_insert + 1` is computed only after the test `last_insert >= Max` has
failed, so it is at most `Max`, an `int`. -/
def AssociativeArgRangeReader.finish (Max : Int) (is : IStream)
    (st : AssocState) : ReadOutcome :=
  let is1 := if is.eof then is.clearToEof else is
  if st.range then
    if st.last_insert ≥ Max then ReadOutcome.done is1.setEof st.a
    else ReadOutcome.done is1 (insertRange (st.last_insert + 1) Max st.a)
  else ReadOutcome.done is1 st.a

/-- `AssociativeArgRangeReader<A,Min,Max,Delim,R>::operator()(is, a)`. -/
def AssociativeArgRangeReader (Min Max : Int) (Delim : Char) (R : Str → Option Int)
    (is : IStream) : Option ReadOutcome :=
  match getlineLoop Delim (AssociativeArgRangeReader.body Min R)
      (is.buf.length + 1) is { a := [], last_insert := Min, range := false } with
  | none => none
  | some (LoopExit.returned is1 st) => some (ReadOutcome.done is1 st.a)
  | some LoopExit.undefined => some ReadOutcome.undefined
  | some (LoopExit.finished is1 st) => some (AssociativeArgRangeReader.finish Max is1 st)

/-! ## `ArgReader<int>` (args.h 453-456): `is >> t` -/

/-- `std::isspace` in the "C" locale. -/
def isSpace (c : Char) : Bool :=
  c = ' ' || c = '\t' || c = '\n' || c = '\x0b' || c = '\x0c' || c = '\r'

/-- Value of a decimal digit character. -/
def digitVal (c : Char) : Nat := c.toNat - '0'.toNat

/-- The maximal run of decimal digits at the front of the text. -/
def takeDigits : Str → Str
  | [] => []
  | c :: cs => if c.isDigit then c :: takeDigits cs else []

/-- Value of a run of decimal digits. -/
def digitsValue (ds : Str) : Nat :=
  ds.foldl (fun n c => 10 * n + digitVal c) 0

/-- Skip leading white space (the sentry of a formatted input function). -/
def skipSpace : Str → Str
  | [] => []
  | c :: cs => if isSpace c then skipSpace cs else c :: cs

/-- `ArgReader<int>` on `std::istringstream iss(line)`: `iss >> v` skips white
space, accepts an optional sign and a non-empty run of decimal digits, and
fails (`none`) when there is no digit or the value does not fit a 32-bit
`int`. Characters after the digits stay in the stream and do not make the
extraction fail. -/
def ArgReader_int (line : Str) : Option Int :=
  let body := skipSpace line
  let neg := body.head? = some '-'
  let rest := if body.head? = some '-' ∨ body.head? = some '+' then body.tail else body
  let ds := takeDigits rest
  if ds = [] then none
  else
    let n : Int := digitsValue ds
    let v : Int := if neg then -n else n
    if -2147483648 ≤ v ∧ v ≤ 2147483647 then some v else none

/-! ## The argument object model (args.h 78-252, 629-958) -/

/-- The state of `class Arg`. `opts_` is a `std::set<std::string>`, held as a
list (its elements are pairwise different). -/
structure Arg where
  appearances_ : List Nat
  opts_ : List Str
  usage_ : Str
  description_ : Str
  error_ : Str

/-- `Arg::reason()`. -/
def Arg.reason (a : Arg) : Str := a.error_

/-- `Arg::error()`: `reason() != ""`. -/
def Arg.error (a : Arg) : Bool := decide (a.reason ≠ [])

/-- `Arg::survivable_error(error)`. -/
def Arg.survivable_error (a : Arg) (error : Str) : Arg := { a with error_ := error }

/-- `argv[i]` for an index inside the token vector. -/
def tokenAt (argv : List Str) (i : Nat) : Str := argv.getD i []

/-- The test `argv[i][0] == '-'` (the first character of an empty C string is
the terminating zero, which is not `'-'`). -/
def startsWithDash (tok : Str) : Bool := decide (tok.head? = some '-')

/-- The two loops of `Arg::get_appearances` from index `i` on: for each token,
for each `o` in `opts_`, push the index when `o == argv[i]`. -/
def appearancesFrom (opts : List Str) : Nat → List Str → List Nat
  | _, [] => []
  | i, tok :: rest =>
    (opts.filter (fun o => decide (o = tok))).map (fun _ => i)
      ++ appearancesFrom opts (i + 1) rest

/-- `Arg::get_appearances(argc, argv)`: the list is cleared and refilled,
scanning from index 1. -/
def Arg.get_appearances (a : Arg) (argv : List Str) : Arg :=
  { a with appearances_ := appearancesFrom a.opts_ 1 argv.tail }

/-- The state of `class FlagArg`. -/
structure FlagArg extends Arg where
  val_ : Bool

/-- `FlagArg::read(argc, argv)`: the updated flag and the returned pair. -/
def FlagArg.read (a : FlagArg) (argv : List Str) : FlagArg × (Nat × Nat) :=
  let a0 : FlagArg := { a with toArg := a.toArg.get_appearances argv }
  match a0.appearances_ with
  | i :: _ => ({ a0 with val_ := true }, (i, i))
  | [] => (a0, (0, 0))

/-- The state of `class ValueArg<T,R,W>`. `reader_` maps the text of the
stream it is given to `none` when the stream is left failed and to the value
left in `temp` otherwise. -/
structure ValueArg (T : Type) extends Arg where
  reader_ : Str → Option T
  val_ : T
  parse_error_ : Str

/-- `ValueArg::read(argc, argv)`. The loop over the appearances returns in
its first iteration. -/
def ValueArg.read {T : Type} (a : ValueArg T) (argv : List Str) :
    ValueArg T × (Nat × Nat) :=
  let a0 : ValueArg T := { a with toArg := a.toArg.get_appearances argv }
  match a0.appearances_ with
  | i :: _ =>
    if i = argv.length - 1 ∨ startsWithDash (tokenAt argv (i + 1)) = true then
      ({ a0 with toArg := a0.toArg.survivable_error a0.parse_error_ }, (i, i))
    else
      match a0.reader_ (tokenAt argv (i + 1)) with
      | none => ({ a0 with toArg := a0.toArg.survivable_error a0.parse_error_ }, (i, i + 1))
      | some temp => ({ a0 with val_ := temp }, (i, i + 1))
  | [] => (a0, (0, 0))

/-- The state of `class FileArg<T,R,W>`. -/
structure FileArg (T : Type) extends Arg where
  reader_ : Str → Option T
  val_ : T
  path_ : Str
  parse_error_ : Str
  file_error_ : Str

/-- Lines 866-881 of `FileArg::read`: open `path_` (`fs` maps a path that can
be opened to the contents of the file), read the contents, store the value. -/
def FileArg.load {T : Type} (fs : Str → Option Str) (a : FileArg T) (res : Nat × Nat) :
    FileArg T × (Nat × Nat) :=
  match fs a.path_ with
  | none => ({ a with toArg := a.toArg.survivable_error a.file_error_ }, res)
  | some contents =>
    match a.reader_ contents with
    | none => ({ a with toArg := a.toArg.survivable_error a.file_error_ }, res)
    | some temp => ({ a with val_ := temp }, res)

/-- `FileArg::read(argc, argv)`. -/
def FileArg.read {T : Type} (fs : Str → Option Str) (a : FileArg T) (argv : List Str) :
    FileArg T × (Nat × Nat) :=
  let a0 : FileArg T := { a with toArg := a.toArg.get_appearances argv }
  match a0.appearances_ with
  | i :: _ =>
    if i = argv.length - 1 ∨ startsWithDash (tokenAt argv (i + 1)) = true then
      ({ a0 with toArg := a0.toArg.survivable_error a0.file_error_ }, (i, i))
    else
      FileArg.load fs { a0 with path_ := tokenAt argv (i + 1) } (i, i + 1)
  | [] => FileArg.load fs a0 (0, 0)

/-- An element of the registry `std::vector<Arg*> args_`: an object of one of
the three classes derived from `Arg`. -/
inductive AnyArg : Type 1 where
  | flag (a : FlagArg)
  | value {T : Type} (a : ValueArg T)
  | file {T : Type} (a : FileArg T)

/-- The `Arg` base of a registered object. -/
def AnyArg.toArg : AnyArg → Arg
  | AnyArg.flag a => a.toArg
  | AnyArg.value a => a.toArg
  | AnyArg.file a => a.toArg

/-- The virtual call `a->read(argc, argv)`. -/
def AnyArg.read (fs : Str → Option Str) : AnyArg → List Str → AnyArg × (Nat × Nat)
  | AnyArg.flag a, argv => (AnyArg.flag (a.read argv).1, (a.read argv).2)
  | AnyArg.value a, argv => (AnyArg.value (a.read argv).1, (a.read argv).2)
  | AnyArg.file a, argv => (AnyArg.file (a.read fs argv).1, (a.read fs argv).2)

/-- `a->error()`. -/
def AnyArg.error (a : AnyArg) : Bool := a.toArg.error

/-! ## `Args` (args.h 35-76, 254-423) -/

/-- The state of the singleton `Args`. `errors_` holds pointers to registered
arguments, embedded as their positions in `args_`. -/
structure Args where
  args_ : List AnyArg
  errors_ : List Nat
  unrecognized_ : List Str
  anonymous_ : List Str

/-- Lines 266-271 of `Args::read`: the loop over `args_`, from the argument at
position `k` on. Returns the arguments after their reads, `errors_` and the
table `used`. -/
def Args.readArgs (fs : Str → Option Str) (argv : List Str) :
    Nat → List AnyArg → List Nat → List Bool → List AnyArg × List Nat × List Bool
  | _, [], errors, used => ([], errors, used)
  | k, a :: rest, errors, used =>
    let r := a.read fs argv
    let errors1 := if r.1.error then errors ++ [k] else errors
    let used1 := (used.set r.2.2 true).set r.2.1 true
    let out := Args.readArgs fs argv (k + 1) rest errors1 used1
    (r.1 :: out.1, out.2.1, out.2.2)

/-- Lines 273-279 of `Args::read`: file every unused index from 1 on as
unrecognized or anonymous. -/
def Args.classify (argv : List Str) (used : List Bool) (unrecognized anonymous : List Str) :
    List Str × List Str :=
  (List.range' 1 (argv.length - 1)).foldl
    (fun acc i =>
      if used.getD i false then acc
      else if startsWithDash (tokenAt argv i) then (acc.1 ++ [tokenAt argv i], acc.2)
      else (acc.1, acc.2 ++ [tokenAt argv i]))
    (unrecognized, anonymous)

/-- The table `used` as it stands after the loop over the arguments. -/
def Args.used (fs : Str → Option Str) (A : Args) (argv : List Str) : List Bool :=
  (Args.readArgs fs argv 0 A.args_ A.errors_ (List.replicate argv.length false)).2.2

/-- Lines 260-279 of `Args::read`: the part after the test for the script
form. -/
def Args.readTokens (fs : Str → Option Str) (A : Args) (argv : List Str) : Args :=
  let out := Args.readArgs fs argv 0 A.args_ A.errors_ (List.replicate argv.length false)
  let cl := Args.classify argv out.2.2 A.unrecognized_ A.anonymous_
  { args_ := out.1, errors_ := out.2.1, unrecognized_ := cl.1, anonymous_ := cl.2 }

/-- The comment stripping loop of `Args::read_from_file` (lines 384-392): a
`'#'` and everything up to and including the next newline is replaced by one
newline. The flag tells whether the scan is inside a comment. -/
def stripComments : Bool → Str → Str
  | _, [] => []
  | false, c :: cs =>
    if c = '#' then '\n' :: stripComments true cs else c :: stripComments false cs
  | true, c :: cs =>
    if c = '\n' then stripComments false cs else stripComments true cs

/-- The token loop of `Args::read_from_file` (lines 397-404):
`while (true) { iss >> s; if ( iss.eof() ) break; argv.push_back(s); }`.
`cur` is the word being extracted. A word is pushed when the extraction
stopped at a white space character; when end of input is met, during the
skipping of white space or during the extraction of a word, `eofbit` is set
and the loop is left before the push. -/
def scriptTokens : Str → Str → List Str
  | _, [] => []
  | cur, c :: cs =>
    if isSpace c then
      if cur = [] then scriptTokens [] cs else cur :: scriptTokens [] cs
    else scriptTokens (cur ++ [c]) cs

/-- The test at the top of `Args::read`:
`argc == 3 && std::string(argv[1]) == ":"`. -/
def isScriptForm (argv : List Str) : Bool :=
  decide (argv.length = 3) && decide (tokenAt argv 1 = [':'])

/-- `Args::read(argc, argv)`. In the script form the file named by `argv[2]`
is read, its comments stripped, its tokens put after the token `<ignore>`
and `read` is called on them; `fuel` bounds the depth of these calls and
`none` is returned when it runs out. -/
def Args.read (fs : Str → Option Str) : Nat → Args → List Str → Option Args
  | fuel, A, argv =>
    if isScriptForm argv then
      match fuel with
      | 0 => none
      | fuel1 + 1 =>
        match fs (tokenAt argv 2) with
        | none => some A
        | some contents =>
          Args.read fs fuel1 A
            ("<ignore>".toList :: scriptTokens [] (stripComments false contents))
    else some (Args.readTokens fs A argv)

/-- `Args::error()`. -/
def Args.error (A : Args) : Bool := !A.errors_.isEmpty

/-- `Args::unrecognized()`. -/
def Args.unrecognized (A : Args) : Bool := !A.unrecognized_.isEmpty

/-- `Args::anonymous()`. -/
def Args.anonymous (A : Args) : Bool := !A.anonymous_.isEmpty

/-- `Args::good()`. -/
def Args.good (A : Args) : Bool := !A.error && !A.unrecognized

/-- `Args::fail()`. -/
def Args.fail (A : Args) : Bool := !A.good

/-! ## Notions used to state the properties -/

/-- The integers `lo, lo+1, ..., hi-1` in ascending order (empty when
`hi <= lo`). -/
def upTo (lo hi : Int) : List Int :=
  (List.range (hi - lo).toNat).map (fun (k : Nat) => lo + (k : Int))

/-- The lines that successive calls of `std::getline(is, line, delim)` extract
from a fresh stream over the text, until it fails: the text is split at the
delimiters, and nothing follows a delimiter that ends the text. -/
def segments (delim : Char) : Str → List Str
  | [] => []
  | c :: cs =>
    if c = delim then [] :: segments delim cs
    else
      match segments delim cs with
      | [] => [[c]]
      | seg :: rest => (c :: seg) :: rest

/-- How running a loop body over a list of lines ends. -/
inductive LinesExit (σ : Type) where
  | finished (st : σ)
  | returned (st : σ)
  | undefined

/-- Run a loop body over the lines, stopping at the first line on which it
does not go on. -/
def foldLines {σ : Type} (body : Str → σ → Step σ) : List Str → σ → LinesExit σ
  | [], st => LinesExit.finished st
  | line :: rest, st =>
    match body line st with
    | Step.next st1 => foldLines body rest st1
    | Step.failed => LinesExit.returned st
    | Step.undefined => LinesExit.undefined

/-- The stream state a reader leaves on success: `eofbit` alone. -/
def atEof : IStream := { buf := [], state := { eofbit := true, failbit := false } }

/-- The loop `getlineLoop` and the run of its body over the lines agree: same
way of leaving, same state, and the stream is at end of input with both bits
set when the loop condition failed, and has `failbit` when the body returned. -/
def LoopAgrees {σ : Type} : LinesExit σ → Option (LoopExit σ) → Prop
  | LinesExit.finished st, some (LoopExit.finished is st1) =>
    st1 = st ∧ is = { buf := [], state := { eofbit := true, failbit := true } }
  | LinesExit.returned st, some (LoopExit.returned is st1) => st1 = st ∧ is.fail = true
  | LinesExit.undefined, some LoopExit.undefined => True
  | _, _ => False

/-- A collection reader used as the `reader_` of a `ValueArg`: the value is
taken when the stream is not left failed (`iss.fail()` is false). -/
def asValueReader (r : IStream → Option ReadOutcome) (text : Str) : Option (List Int) :=
  match r (IStream.ofString text) with
  | some (ReadOutcome.done is s) => if is.fail then none else some s
  | _ => none

/-! ## `AssociativeArgReader` (args.h 545-565) -/

/-- Body of the loop of `AssociativeArgReader::operator()`: parse the line with
the element reader and insert the value. -/
def AssociativeArgReader.body (R : Str → Option Int) (line : Str) (a : List Int) :
    Step (List Int) :=
  match R line with
  | none => Step.failed
  | some v => Step.next (setInsert v a)

/-- `AssociativeArgReader<A,Delim,R>::operator()(is, a)`. -/
def AssociativeArgReader (Delim : Char) (R : Str → Option Int) (is : IStream) :
    Option ReadOutcome :=
  match getlineLoop Delim (AssociativeArgReader.body R) (is.buf.length + 1) is [] with
  | none => none
  | some (LoopExit.returned is1 a) => some (ReadOutcome.done is1 a)
  | some LoopExit.undefined => some ReadOutcome.undefined
  | some (LoopExit.finished is1 a) =>
    some (ReadOutcome.done (if is1.eof then is1.clearToEof else is1) a)

/-! ## Registration: `Arg::Arg`, `Arg::alternate`, the `create` functions
(args.h 412-419, 629-663, 700-702, 744-749, 832-841, 946-958) -/

/-- `Args::exists(opt)`: some registered argument has `opt` in its `opts_`. -/
def Args.exists (A : Args) (opt : Str) : Bool :=
  A.args_.any (fun a => decide (opt ∈ a.toArg.opts_))

/-- The token `alt` computed at the top of `Arg::alternate(a)` (lines 639-653);
`none` when `fatal_error` is called, which ends the process. -/
def aliasToken (a : Str) : Option Str :=
  if a.length = 0 then none
  else if a.length = 1 then
    if a.head? = some '-' then none else some ('-' :: a)
  else if a.length = 2 ∧ a = ['-', '-'] then none
  else some ('-' :: '-' :: a)

/-- `opts_.insert(alt)` on a `std::set<std::string>` held as an ascending list
(`std::string` is ordered lexicographically). -/
def optsInsert (alt : Str) : List Str → List Str
  | [] => [alt]
  | x :: xs =>
    if alt < x then alt :: x :: xs
    else if alt = x then x :: xs
    else x :: optsInsert alt xs

/-- `Arg::alternate(a)` called on the argument `this` while the registry is
`A` (which holds `this` already unless the call comes from the constructor).
`none` is a fatal error: the process has exited. -/
def Arg.alternate (A : Args) (this : Arg) (a : Str) : Option Arg :=
  match aliasToken a with
  | none => none
  | some alt =>
    if A.exists alt then none
    else some { this with opts_ := optsInsert alt this.opts_ }

/-- The constructor `Arg::Arg(opt)` without its last line, the push onto the
registry: `alternate(opt); usage(""); description(""); survivable_error("")`
on an object whose members are default constructed. -/
def Arg.construct (A : Args) (opt : Str) : Option Arg :=
  match Arg.alternate A
      { appearances_ := [], opts_ := [], usage_ := [], description_ := [], error_ := [] }
      opt with
  | none => none
  | some a => some { a with usage_ := [], description_ := [], error_ := [] }

/-- `*(opts_.begin())`, the least alias, used in the default messages. -/
def Arg.firstOpt (a : Arg) : Str := a.opts_.headD []

/-- The object built by `FlagArg::FlagArg(opt)`. -/
def FlagArg.construct (A : Args) (opt : Str) : Option FlagArg :=
  match Arg.construct A opt with
  | none => none
  | some a =>
    some { toArg := { a with usage_ := [], description_ := "Flag Arg".toList }, val_ := false }

/-- `FlagArg::create(opt)`: the registry after the construction; the new flag
is its last element. -/
def FlagArg.create (A : Args) (opt : Str) : Option Args :=
  match FlagArg.construct A opt with
  | none => none
  | some f => some { A with args_ := A.args_ ++ [AnyArg.flag f] }

/-- The object built by `ValueArg<T,R,W>::ValueArg(opt)`. The constructor does
not initialise `val_`; `init` is the value it happens to hold. -/
def ValueArg.construct {T : Type} (A : Args) (opt : Str) (reader : Str → Option T)
    (init : T) : Option (ValueArg T) :=
  match Arg.construct A opt with
  | none => none
  | some a =>
    some { toArg := { a with usage_ := "<arg>".toList, description_ := "Value Arg".toList },
           reader_ := reader, val_ := init,
           parse_error_ :=
             "Error (".toList ++ a.firstOpt ++ ") Unable to parse argument!".toList }

/-- `ValueArg<T,R,W>::create(opt)`. -/
def ValueArg.create {T : Type} (A : Args) (opt : Str) (reader : Str → Option T)
    (init : T) : Option Args :=
  match ValueArg.construct A opt reader init with
  | none => none
  | some v => some { A with args_ := A.args_ ++ [AnyArg.value v] }

/-- The object built by `FileArg<T,R,W>::FileArg(opt)`. -/
def FileArg.construct {T : Type} (A : Args) (opt : Str) (reader : Str → Option T)
    (init : T) : Option (FileArg T) :=
  match Arg.construct A opt with
  | none => none
  | some a =>
    some { toArg := { a with usage_ := "<path>".toList, description_ := "File Arg".toList },
           reader_ := reader, val_ := init, path_ := [],
           parse_error_ := "Error (".toList ++ a.firstOpt ++ ") Unable to parse input!".toList,
           file_error_ :=
             "Error (".toList ++ a.firstOpt ++ ") Unable to read input file!".toList }

/-- `FileArg<T,R,W>::create(opt)`. -/
def FileArg.create {T : Type} (A : Args) (opt : Str) (reader : Str → Option T)
    (init : T) : Option Args :=
  match FileArg.construct A opt reader init with
  | none => none
  | some f => some { A with args_ := A.args_ ++ [AnyArg.file f] }

/-- The registered object with its `Arg` base replaced. -/
def AnyArg.withArg : AnyArg → Arg → AnyArg
  | AnyArg.flag a, b => AnyArg.flag { a with toArg := b }
  | AnyArg.value a, b => AnyArg.value { a with toArg := b }
  | AnyArg.file a, b => AnyArg.file { a with toArg := b }

/-- The call `x.alternate(a)` on the registered object at position `k` of
`args_` (the derived `alternate` functions forward to `Arg::alternate`). A
position outside the registry denotes no object and nothing happens. -/
def Args.alternate (A : Args) (k : Nat) (a : Str) : Option Args :=
  match A.args_[k]? with
  | none => some A
  | some x =>
    match Arg.alternate A x.toArg a with
    | none => none
    | some b => some { A with args_ := A.args_.set k (x.withArg b) }

/-- A declaration step: the construction of an argument or a call of
`alternate` on a registered one. -/
inductive Decl : Type 1 where
  | flag (opt : Str)
  | value {T : Type} (opt : Str) (reader : Str → Option T) (init : T)
  | file {T : Type} (opt : Str) (reader : Str → Option T) (init : T)
  | alternate (k : Nat) (a : Str)

/-- Run one declaration step; `none` is a fatal error. -/
def Args.declare (A : Args) : Decl → Option Args
  | Decl.flag opt => FlagArg.create A opt
  | Decl.value opt reader init => ValueArg.create A opt reader init
  | Decl.file opt reader init => FileArg.create A opt reader init
  | Decl.alternate k a => Args.alternate A k a

/-- Run a sequence of declaration steps, stopping at a fatal error. -/
def Args.declareAll : Args → List Decl → Option Args
  | A, [] => some A
  | A, d :: ds =>
    match Args.declare A d with
    | none => none
    | some A1 => Args.declareAll A1 ds

/-- The alias tokens of all registered arguments, argument after argument. -/
def Args.allOpts (A : Args) : List Str :=
  (A.args_.map (fun a => a.toArg.opts_)).flatten

/-- No alias token belongs to two different registered arguments. -/
def AliasesUnique (A : Args) : Prop :=
  (A.args_.map (fun a => a.toArg.opts_)).Pairwise List.Disjoint

/-! ## `Arg::usage` and `Args::usage` (args.h 297-330, 421-443) -/

/-- The text built by the first loop of `Args::usage` for one argument (and by
`Arg::usage`): every alias followed by a blank, then the usage hint, followed
by a blank when it is not empty. -/
def Arg.usageEntry (a : Arg) : Str :=
  a.opts_.foldl (fun oss opt => oss ++ opt ++ [' ']) []
    ++ a.usage_ ++ (if a.usage_ ≠ [] then [' '] else [])

/-- `Arg::usage(indent)`. -/
def Arg.usage (a : Arg) (indent : Nat) : Str :=
  List.replicate indent ' ' ++ a.usageEntry ++ "... ".toList ++ a.description_

/-- `std::sort(args.begin(), args.end(), LtArgPtr())`: the registry ordered by
the `usage()` strings. `std::sort` leaves the order of arguments with equal
strings unspecified; the embedding keeps them in their previous order. -/
def Args.sortArgs (args : List AnyArg) : List AnyArg :=
  args.insertionSort (fun a1 a2 => ¬ (a2.toArg.usage 0 < a1.toArg.usage 0))

/-- `max_len` of `Args::usage`: the greatest length of an entry. -/
def Args.maxLen (usages : List Str) : Nat :=
  usages.foldl (fun max_len u => max max_len u.length) 0

/-- The last loop of `Args::usage` over the entries and descriptions from
position `i` on: indent, entry, dots up to `max_len`, `"... "`, description,
and a line end when the argument is not the last. -/
def Args.usageLoop (indent max_len : Nat) : List (Str × Str) → Str
  | [] => []
  | (u, d) :: rest =>
    List.replicate indent ' ' ++ u ++ List.replicate (max_len - u.length) '.'
      ++ "... ".toList ++ d
      ++ (if rest = [] then [] else '\n' :: Args.usageLoop indent max_len rest)

/-- `Args::usage(indent)` on a registry already ordered by `std::sort`. -/
def Args.usageOf (indent : Nat) (args : List AnyArg) : Str :=
  Args.usageLoop indent (Args.maxLen (args.map (fun a => a.toArg.usageEntry)))
    (args.map (fun a => (a.toArg.usageEntry, a.toArg.description_)))

/-- `Args::usage(indent)`. -/
def Args.usage (indent : Nat) (A : Args) : Str :=
  Args.usageOf indent (Args.sortArgs A.args_)

/-- One line of the listing, as the property states it. -/
def usageLine (indent max_len : Nat) (a : Arg) : Str :=
  List.replicate indent ' ' ++ a.usageEntry
    ++ List.replicate (max_len - a.usageEntry.length) '.' ++ "... ".toList ++ a.description_

/-! ## The token loop of the script entry point, on streams -/

/-- `iss >> s` for a `std::string`: when the stream is not good, or only white
space is left (the sentry meets end of input), `failbit` is set (and `eofbit`
in the second case) and `s` keeps its value; otherwise the word up to the next
white space is extracted, and `eofbit` is set when the word ends the input. -/
def extractWord (is : IStream) (s : Str) : IStream × Str :=
  if is.good then
    match skipSpace is.buf with
    | [] => ({ buf := [], state := { eofbit := true, failbit := true } }, s)
    | c :: cs =>
      let word := (c :: cs).takeWhile (fun x => !isSpace x)
      let rest := (c :: cs).dropWhile (fun x => !isSpace x)
      ({ buf := rest, state := { eofbit := rest.isEmpty, failbit := false } }, word)
  else (is.setFail, s)

/-- The loop `while (true) { iss >> s; if ( iss.eof() ) break; argv.push_back(s); }`
with an iteration budget (`none` when it runs out). -/
def tokenLoop : Nat → IStream → Str → List Str → Option (List Str)
  | 0, _, _, _ => none
  | fuel + 1, iss, s, argv =>
    let r := extractWord iss s
    if r.1.eof then some argv
    else tokenLoop fuel r.1 r.2 (argv ++ [r.2])

/-- The token vector the script entry points hand to `read(argc, argv)` for
the text of a script: `<ignore>`, then the tokens the loop pushes from the
text stripped of its comments. -/
def scriptArgv (text : Str) : List Str :=
  "<ignore>".toList :: scriptTokens [] (stripComments false text)

/-- All white space delimited tokens of a text, `cur` being the token under
way: what the property expects the token loop to push. -/
def allTokens : Str → Str → List Str
  | cur, [] => if cur = [] then [] else [cur]
  | cur, c :: cs =>
    if isSpace c then
      if cur = [] then allTokens [] cs else cur :: allTokens [] cs
    else allTokens (cur ++ [c]) cs

/-! ## The comment stripping loop, on indices (args.h 384-392,
command_line/args.h 202-210) -/

/-- The inner loop `while ( i < ie && contents.str()[i++] != '\n' );` started
at index `i`: the index after the loop. `none` is a fault (a read at an index
outside the text) or an exhausted iteration budget. -/
def stripWhile (text : Str) (ie : Nat) : Nat → Nat → Option Nat
  | 0, _ => none
  | fuel + 1, i =>
    if i < ie then
      match text[i]? with
      | none => none
      | some c => if c ≠ '\n' then stripWhile text ie fuel (i + 1) else some (i + 1)
    else some i

/-- The loop `for ( size_t i = 0, ie = length; i < ie; ++i )` of the comment
stripping from index `i` on, `stripped` being the output so far. On a `'#'`
the inner loop runs, a line end is written and `--i` is followed by the `++i`
of the `for`. `none` is a fault (a read outside the text, or `--i` at 0) or an
exhausted iteration budget. -/
def stripFor (text : Str) (ie : Nat) : Nat → Nat → Str → Option Str
  | 0, _, _ => none
  | fuel + 1, i, stripped =>
    if i < ie then
      match text[i]? with
      | none => none
      | some c =>
        if c = '#' then
          match stripWhile text ie (ie + 1) i with
          | none => none
          | some j =>
            if j = 0 then none
            else stripFor text ie fuel (j - 1 + 1) (stripped ++ ['\n'])
        else stripFor text ie fuel (i + 1) (stripped ++ [c])
    else some stripped

/-- The comment stripping loop run on a text. -/
def stripLoop (text : Str) : Option Str :=
  stripFor text text.length (text.length + 1) 0 []

/-! ## `ArgWriter<int>` and `SequenceArgWriter` (args.h 458-461, 531-543) -/

/-- The decimal digits of a natural number, most significant first, with an
iteration budget. -/
def natDecimal : Nat → Nat → Str
  | 0, _ => []
  | fuel + 1, n =>
    if n < 10 then [Nat.digitChar n]
    else natDecimal fuel (n / 10) ++ [Nat.digitChar (n % 10)]

/-- `ArgWriter<int>`: `os << t` writes the decimal form, with a leading `-`
for a negative value. -/
def ArgWriter_int (t : Int) : Str :=
  if t < 0 then '-' :: natDecimal ((-t).toNat + 1) (-t).toNat
  else natDecimal (t.toNat + 1) t.toNat

/-- `SequenceArgWriter<S,Delim,W>::operator()(os, s)`: the text written to
`os`. Nothing for an empty sequence; else the first element, then every
further element preceded by the delimiter. -/
def SequenceArgWriter (Delim : Char) (W : Int → Str) : List Int → Str
  | [] => []
  | x :: rest => rest.foldl (fun os v => os ++ [Delim] ++ W v) (W x)

/-! ## The extended variant of `Args::read` (command_line/args.h 159-195) -/

namespace CommandLine

/-- The members of the extended `Arg` class that `Args::read` calls. The class
(include/command_line/arg.h) is not among the sources, so its member functions
are parameters: `read` gives the argument after the call and the returned pair,
`appearances` is the range `appearance_begin() .. appearance_end()`. -/
structure ArgInterface (α : Type) where
  read : α → List Str → α × (Nat × Nat)
  appearances : α → List Nat
  duplicated : α → Bool
  good : α → Bool

/-- The POD `Parse`. `errors` and `duplicates` hold pointers to registered
arguments, embedded as their positions in the registry. -/
structure Parse where
  errors : List Nat
  duplicates : List Nat
  unrecognized : List Str
  anonymous : List Str
deriving DecidableEq

/-- `for (auto i = res.first; i <= res.second; ++i) used[i] = true;`. -/
def markRange (used : List Bool) (first second : Nat) : List Bool :=
  (List.range' first (second + 1 - first)).foldl (fun u i => u.set i true) used

/-- `for (auto i = appearance_begin(); i != appearance_end(); ++i) used[*i] = true;`. -/
def markAppearances (used : List Bool) (appearances : List Nat) : List Bool :=
  appearances.foldl (fun u i => u.set i true) used

/-- The loop over the registered arguments (lines 168-184), from the argument
at position `k` on. -/
def readArgs {α : Type} (ops : ArgInterface α) (argv : List Str) :
    Nat → List α → Parse → List Bool → List α × Parse × List Bool
  | _, [], parse, used => ([], parse, used)
  | k, a :: rest, parse, used =>
    let r := ops.read a argv
    let used1 := markRange used r.2.1 r.2.2
    let used2 := markAppearances used1 (ops.appearances r.1)
    let parse1 :=
      if ops.duplicated r.1 then { parse with duplicates := parse.duplicates ++ [k] }
      else parse
    let parse2 :=
      if !ops.good r.1 then { parse1 with errors := parse1.errors ++ [k] } else parse1
    let out := readArgs ops argv (k + 1) rest parse2 used2
    (r.1 :: out.1, out.2.1, out.2.2)

/-- The table `used` after the loop over the arguments. -/
def usedTable {α : Type} (ops : ArgInterface α) (args : List α) (argv : List Str) :
    List Bool :=
  (readArgs ops argv 0 args
    { errors := [], duplicates := [], unrecognized := [], anonymous := [] }
    (List.replicate argv.length false)).2.2

/-- `Args::read(argc, argv)` of the extended variant: the four collections are
cleared, every argument is read and its range and appearances are marked, and
the unused indices from 1 on are classified. -/
def read {α : Type} (ops : ArgInterface α) (args : List α) (_parse : Parse)
    (argv : List Str) : List α × Parse :=
  let out := readArgs ops argv 0 args
    { errors := [], duplicates := [], unrecognized := [], anonymous := [] }
    (List.replicate argv.length false)
  let cl := Args.classify argv out.2.2 [] []
  (out.1, { out.2.1 with unrecognized := cl.1, anonymous := cl.2 })

end CommandLine

/-- The positions, counted from `k`, of the elements that satisfy `p`. -/
def positionsFrom {α : Type} (p : α → Bool) : Nat → List α → List Nat
  | _, [] => []
  | k, a :: rest =>
    if p a then k :: positionsFrom p (k + 1) rest else positionsFrom p (k + 1) rest

/-! ## Concrete objects used in the examples -/

/-- A registry with no argument and empty diagnostic collections. -/
def emptyRegistry : Args :=
  { args_ := [], errors_ := [], unrecognized_ := [], anonymous_ := [] }

/-- A file system in which no path can be opened. -/
def noFiles : Str → Option Str := fun _ => none

/-- The flag declared by `FlagArg::create("h")`. -/
def flag_h : FlagArg :=
  { appearances_ := [], opts_ := ["-h".toList], usage_ := [],
    description_ := "Flag Arg".toList, error_ := [], val_ := false }

/-- The argument declared by `ValueArg<int>::create("i").default_val(10)`. -/
def value_i : ValueArg Int :=
  { appearances_ := [], opts_ := ["-i".toList], usage_ := "<arg>".toList,
    description_ := "Value Arg".toList, error_ := [],
    reader_ := ArgReader_int, val_ := 10,
    parse_error_ := "Error (-i) Unable to parse argument!".toList }

/-- A `ValueArg<std::vector<int>, SequenceArgReader<std::vector<int>>>` named
`"s"` whose default value is `[9]`. -/
def value_s : ValueArg (List Int) :=
  { appearances_ := [], opts_ := ["-s".toList], usage_ := "<arg>".toList,
    description_ := "Value Arg".toList, error_ := [],
    reader_ := asValueReader (SequenceArgReader '.' ArgReader_int), val_ := [9],
    parse_error_ := "Error (-s) Unable to parse argument!".toList }

/-- The registry holding `flag_h` alone. -/
def registry_h : Args :=
  { args_ := [AnyArg.flag flag_h], errors_ := [], unrecognized_ := [], anonymous_ := [] }

/-- An instance of the interface of the extended `Arg`, used in examples: the
flags of args.h, taken as duplicated when their alias appeared more than once
and as good when they hold no error message. -/
def flagInterface : CommandLine.ArgInterface FlagArg :=
  { read := fun a argv => a.read argv,
    appearances := fun a => a.appearances_,
    duplicated := fun a => decide (1 < a.appearances_.length),
    good := fun a => !a.toArg.error }

/-- The registry holding `value_i` alone. -/
def registry_i : Args :=
  { args_ := [AnyArg.value value_i], errors_ := [], unrecognized_ := [], anonymous_ := [] }

/-- A `FileArg<int>` named `"f"` with default value 7 and default path `cfg`,
as `FileArg<int>::create("f").default_val(7).default_path("cfg")` leaves it. -/
def file_f : FileArg Int :=
  { appearances_ := [], opts_ := ["-f".toList], usage_ := "<path>".toList,
    description_ := "File Arg".toList, error_ := [],
    reader_ := ArgReader_int, val_ := 7, path_ := "cfg".toList,
    parse_error_ := "Error (-f) Unable to parse input!".toList,
    file_error_ := "Error (-f) Unable to read input file!".toList }

/-- A file system whose only file is `cfg`, with the contents `abc`. -/
def fs_cfg : Str → Option Str :=
  fun path => if path = "cfg".toList then some "abc".toList else none

/-! ## Lemmas: counted loops -/

theorem upTo_of_le {lo hi : Int} (h : hi ≤ lo) : upTo lo hi = [] := by
  have h0 : (hi - lo).toNat = 0 := by omega
  simp [upTo, h0]

theorem upTo_cons {lo hi : Int} (h : lo < hi) : upTo lo hi = lo :: upTo (lo + 1) hi := by
  have h0 : (hi - lo).toNat = (hi - (lo + 1)).toNat + 1 := by omega
  unfold upTo
  rw [h0, List.range_succ_eq_map]
  simp only [List.map_cons, List.map_map, Nat.cast_zero, add_zero]
  congr 1
  apply List.map_congr_left
  intro k _
  simp only [Function.comp, Nat.cast_succ]
  ring

theorem mem_upTo {lo hi x : Int} : x ∈ upTo lo hi ↔ lo ≤ x ∧ x < hi := by
  unfold upTo
  simp only [List.mem_map, List.mem_range]
  constructor
  · rintro ⟨k, hk, rfl⟩
    omega
  · rintro ⟨h1, h2⟩
    refine ⟨(x - lo).toNat, ?_, ?_⟩ <;> omega

theorem upTo_sorted (lo hi : Int) : (upTo lo hi).Sorted (· < ·) := by
  unfold upTo
  generalize (hi - lo).toNat = n
  unfold List.Sorted
  rw [List.pairwise_map]
  refine List.Pairwise.imp ?_ (List.pairwise_lt_range n)
  intro a b hab
  omega

theorem upTo_snoc {lo hi : Int} (h : lo ≤ hi) : upTo lo (hi + 1) = upTo lo hi ++ [hi] := by
  have h0 : (hi + 1 - lo).toNat = (hi - lo).toNat + 1 := by omega
  unfold upTo
  rw [h0, List.range_succ, List.map_append]
  simp only [List.map_cons, List.map_nil, List.append_cancel_left_eq, List.cons.injEq, and_true]
  omega

theorem forRange_eq {σ : Type} (f : Int → σ → σ) :
    ∀ (n : Nat) (lo hi : Int) (st : σ), (hi - lo).toNat ≤ n →
      forRange f n lo hi st = (upTo lo hi).foldl (fun st x => f x st) st := by
  intro n
  induction n with
  | zero =>
    intro lo hi st h
    have : hi ≤ lo := by omega
    simp [forRange, upTo_of_le this]
  | succ n ih =>
    intro lo hi st h
    by_cases hlt : lo < hi
    · have h1 : (hi - (lo + 1)).toNat ≤ n := by omega
      simp only [forRange, hlt, if_true]
      rw [ih (lo + 1) hi (f lo st) h1, upTo_cons hlt]
      rfl
    · have : hi ≤ lo := by omega
      simp [forRange, hlt, upTo_of_le this]

theorem foldl_push (l s : List Int) : l.foldl (fun s x => s ++ [x]) s = s ++ l := by
  induction l generalizing s with
  | nil => simp
  | cons x xs ih => simp [ih]

theorem pushRange_eq (lo hi : Int) (s : List Int) : pushRange lo hi s = s ++ upTo lo hi := by
  unfold pushRange
  rw [forRange_eq _ _ lo hi s (le_refl _), foldl_push]

theorem getlineScan_length (d : Char) (buf : Str) :
    (getlineScan d buf).2.1.length ≤ buf.length := by
  induction buf with
  | nil => simp [getlineScan]
  | cons c cs ih =>
    by_cases h : c = d
    · simp [getlineScan, h]
    · simp only [getlineScan, h, if_false, List.length_cons]
      omega

theorem getlineScan_length_lt (d : Char) (c : Char) (cs : Str) :
    (getlineScan d (c :: cs)).2.1.length < (c :: cs).length := by
  by_cases h : c = d
  · simp [getlineScan, h]
  · have := getlineScan_length d cs
    simp only [getlineScan, h, if_false, List.length_cons]
    omega

theorem getlineScan_eof (d : Char) (buf : Str) :
    (getlineScan d buf).2.2 = true → (getlineScan d buf).2.1 = [] := by
  induction buf with
  | nil => simp [getlineScan]
  | cons c cs ih =>
    by_cases h : c = d
    · simp [getlineScan, h]
    · simpa [getlineScan, h] using ih

theorem segments_eq_scan (d : Char) (c : Char) (cs : Str) :
    segments d (c :: cs) = (getlineScan d (c :: cs)).1 ::
      (if (getlineScan d (c :: cs)).2.2 then [] else segments d (getlineScan d (c :: cs)).2.1) := by
  induction cs generalizing c with
  | nil =>
    by_cases h : c = d
    · simp [segments, getlineScan, h]
    · simp [segments, getlineScan, h]
  | cons c1 cs ih =>
    by_cases h : c = d
    · simp [segments, getlineScan, h]
    · have e := ih c1
      rw [segments, if_neg h, e]
      simp [getlineScan, h]

theorem getlineLoop_at_eof {σ : Type} (d : Char) (body : Str → σ → Step σ) (fuel : Nat)
    (buf : Str) (st : σ) :
    getlineLoop d body (fuel + 1) { buf := buf, state := { eofbit := true, failbit := false } } st
      = some (LoopExit.finished
          { buf := buf, state := { eofbit := true, failbit := true } } st) := by
  simp [getlineLoop, getline, IStream.good, IStream.setFail, IStream.fail]

theorem getlineLoop_agrees {σ : Type} (d : Char) (body : Str → σ → Step σ) :
    ∀ (fuel : Nat) (buf : Str) (st : σ), buf.length + 1 ≤ fuel →
      LoopAgrees (foldLines body (segments d buf) st)
        (getlineLoop d body fuel (IStream.ofString buf) st) := by
  intro fuel
  induction fuel with
  | zero => intro buf st h; omega
  | succ fuel ih =>
    intro buf st h
    cases buf with
    | nil =>
      simp [segments, foldLines, getlineLoop, getline, IStream.good, IStream.ofString,
        IStream.fail, getlineScan, LoopAgrees]
    | cons c cs =>
      have hlen := getlineScan_length_lt d c cs
      have heof := getlineScan_eof d (c :: cs)
      rw [segments_eq_scan]
      simp only [getlineLoop, getline, IStream.good, IStream.ofString, IStream.fail,
        Bool.not_false, Bool.and_self, if_true, List.isEmpty_cons, Bool.false_eq_true,
        if_false, foldLines]
      cases hb : body (getlineScan d (c :: cs)).1 st with
      | next st1 =>
        simp only []
        cases he : (getlineScan d (c :: cs)).2.2 with
        | true =>
          have hrest := heof he
          rw [hrest]
          obtain ⟨f1, rfl⟩ : ∃ f1, fuel = f1 + 1 := ⟨fuel - 1, by simp only [List.length_cons] at h; omega⟩
          rw [getlineLoop_at_eof]
          simp [foldLines, LoopAgrees]
        | false =>
          have := ih (getlineScan d (c :: cs)).2.1 st1 (by simp only [List.length_cons] at h hlen; omega)
          simpa [IStream.ofString] using this
      | failed => simp [LoopAgrees, IStream.setFail, IStream.fail]
      | undefined => simp [LoopAgrees]

theorem getlineLoop_of_finished {σ : Type} (d : Char) (body : Str → σ → Step σ)
    (buf : Str) (st st1 : σ)
    (h : foldLines body (segments d buf) st = LinesExit.finished st1) :
    getlineLoop d body (buf.length + 1) (IStream.ofString buf) st
      = some (LoopExit.finished
          { buf := [], state := { eofbit := true, failbit := true } } st1) := by
  have hag := getlineLoop_agrees d body (buf.length + 1) buf st (le_refl _)
  rw [h] at hag
  cases hl : getlineLoop d body (buf.length + 1) (IStream.ofString buf) st with
  | none => rw [hl] at hag; simp [LoopAgrees] at hag
  | some e =>
    rw [hl] at hag
    cases e with
    | finished is st2 =>
      simp only [LoopAgrees] at hag
      rw [hag.1, hag.2]
    | returned is st2 => simp [LoopAgrees] at hag
    | undefined => simp [LoopAgrees] at hag

theorem finished_of_getlineLoop {σ : Type} (d : Char) (body : Str → σ → Step σ)
    (buf : Str) (st st1 : σ) (is : IStream)
    (h : getlineLoop d body (buf.length + 1) (IStream.ofString buf) st
      = some (LoopExit.finished is st1)) :
    is = { buf := [], state := { eofbit := true, failbit := true } } := by
  have hag := getlineLoop_agrees d body (buf.length + 1) buf st (le_refl _)
  rw [h] at hag
  cases hf : foldLines body (segments d buf) st with
  | finished st2 =>
    rw [hf] at hag
    simp only [LoopAgrees] at hag
    exact hag.2
  | returned st2 => rw [hf] at hag; simp [LoopAgrees] at hag
  | undefined => rw [hf] at hag; simp [LoopAgrees] at hag

theorem getlineLoop_isSome {σ : Type} (d : Char) (body : Str → σ → Step σ)
    (buf : Str) (st : σ) :
    (getlineLoop d body (buf.length + 1) (IStream.ofString buf) st).isSome = true := by
  have hag := getlineLoop_agrees d body (buf.length + 1) buf st (le_refl _)
  cases hl : getlineLoop d body (buf.length + 1) (IStream.ofString buf) st with
  | none =>
    rw [hl] at hag
    cases hf : foldLines body (segments d buf) st <;> rw [hf] at hag <;>
      simp [LoopAgrees] at hag
  | some e => rfl

theorem segments_append_delim (d : Char) (seg rest : Str) (h : d ∉ seg) :
    segments d (seg ++ d :: rest) = seg :: segments d rest := by
  induction seg with
  | nil => simp [segments]
  | cons c cs ih =>
    have hc : c ≠ d := fun e => h (by simp [e])
    have hcs : d ∉ cs := fun e => h (by simp [e])
    simp [segments, hc, ih hcs]

theorem segments_single (d : Char) (seg : Str) (h : d ∉ seg) (hne : seg ≠ []) :
    segments d seg = [seg] := by
  induction seg with
  | nil => exact absurd rfl hne
  | cons c cs ih =>
    have hc : c ≠ d := fun e => h (by simp [e])
    have hcs : d ∉ cs := fun e => h (by simp [e])
    cases cs with
    | nil => simp [segments, hc]
    | cons c1 cs1 =>
      have := ih hcs (by simp)
      rw [segments, if_neg hc, this]

/-! ## Lemmas: `SequenceArgRangeReader` -/

theorem SequenceArgRangeReader_of_lines (Min Max : Int) (d : Char) (R : Str → Option Int)
    (input : Str) (st : List Int × Bool)
    (h : foldLines (SequenceArgRangeReader.body Min R) (segments d input) ([], false)
      = LinesExit.finished st) :
    SequenceArgRangeReader Min Max d R (IStream.ofString input)
      = some (SequenceArgRangeReader.finish Max
          { buf := [], state := { eofbit := true, failbit := true } } st) := by
  have hl := getlineLoop_of_finished d (SequenceArgRangeReader.body Min R) input _ _ h
  unfold SequenceArgRangeReader
  simp only [IStream.ofString] at hl ⊢
  rw [hl]

theorem SequenceArgRangeReader_body_empty (Min : Int) (R : Str → Option Int)
    (st : List Int × Bool) :
    SequenceArgRangeReader.body Min R [] st = Step.next (st.1, true) := by
  simp [SequenceArgRangeReader.body]

theorem SequenceArgRangeReader_body_plain (Min : Int) (R : Str → Option Int)
    (line : Str) (s : List Int) (v : Int) (hline : line ≠ []) (hR : R line = some v) :
    SequenceArgRangeReader.body Min R line (s, false) = Step.next (s ++ [v], false) := by
  simp [SequenceArgRangeReader.body, hline, hR]

theorem fillStart_some (l v : Int) (h : l < v ∨ l < 2147483647) :
    fillStart l v = some (l + 1) := by
  unfold fillStart
  by_cases h1 : l < v
  · simp [h1]
  · have h2 : ¬ (2147483647 : Int) ≤ l := by omega
    simp [h1, h2]

theorem SequenceArgRangeReader_body_fill (Min : Int) (R : Str → Option Int)
    (line : Str) (s : List Int) (l v : Int) (hline : line ≠ []) (hR : R line = some v)
    (hl : s.getLast? = some l) (hint : l < v ∨ l < 2147483647) :
    SequenceArgRangeReader.body Min R line (s, true)
      = Step.next (s ++ upTo (l + 1) v ++ [v], false) := by
  have hs : s.isEmpty = false := by
    cases s with
    | nil => simp at hl
    | cons x xs => rfl
  simp [SequenceArgRangeReader.body, hline, hR, hs, hl, fillStart_some l v hint, pushRange_eq]

theorem SequenceArgRangeReader_body_seed (Min : Int) (R : Str → Option Int)
    (line : Str) (v : Int) (hline : line ≠ []) (hR : R line = some v)
    (hint : Min < v ∨ Min < 2147483647) :
    SequenceArgRangeReader.body Min R line ([], true)
      = Step.next ([Min] ++ upTo (Min + 1) v ++ [v], false) := by
  simp [SequenceArgRangeReader.body, hline, hR, fillStart_some Min v hint, pushRange_eq]

theorem segments_replicate (d : Char) (n : Nat) (rest : Str) :
    segments d (List.replicate n d ++ rest) = List.replicate n [] ++ segments d rest := by
  induction n with
  | zero => simp
  | succ n ih => simp [List.replicate_succ, segments, ih]

theorem foldLines_empties (Min : Int) (R : Str → Option Int) (n : Nat) (lines : List Str)
    (s : List Int) (r : Bool) :
    foldLines (SequenceArgRangeReader.body Min R) (List.replicate (n + 1) [] ++ lines) (s, r)
      = foldLines (SequenceArgRangeReader.body Min R) lines (s, true) := by
  induction n generalizing r with
  | zero => simp [foldLines, SequenceArgRangeReader.body]
  | succ n ih =>
    rw [List.replicate_succ, List.cons_append, foldLines, SequenceArgRangeReader_body_empty]
    exact ih true

theorem SequenceArgRangeReader_finish_plain (Max : Int) (s : List Int) :
    SequenceArgRangeReader.finish Max
        { buf := [], state := { eofbit := true, failbit := true } } (s, false)
      = ReadOutcome.done atEof s := by
  simp [SequenceArgRangeReader.finish, IStream.eof, IStream.clearToEof, atEof]

theorem upTo_closed {lo hi : Int} (h : lo < hi) :
    upTo lo (hi + 1) = lo :: (upTo (lo + 1) hi ++ [hi]) := by
  rw [upTo_snoc (le_of_lt h), upTo_cons h]
  rfl

/-! ## Properties of the range aware readers -/

/-- Counterexample to C2: with `Min` 1, `Max` 5 the input `"3."` yields `[3]`,
not `[3,4]`: `getline` reports no empty segment after a delimiter that ends
the input, so no trailing range is pending. -/
theorem SequenceArgRangeReader_one_trailing_delimiter :
    SequenceArgRangeReader 1 5 '.' ArgReader_int (IStream.ofString "3.".toList)
        = some (ReadOutcome.done atEof [3])
    ∧ ¬ ∃ is, SequenceArgRangeReader 1 5 '.' ArgReader_int (IStream.ofString "3.".toList)
        = some (ReadOutcome.done is [3, 4]) := by
  have h : SequenceArgRangeReader 1 5 '.' ArgReader_int (IStream.ofString "3.".toList)
      = some (ReadOutcome.done atEof [3]) := by decide
  refine ⟨h, ?_⟩
  rintro ⟨is, his⟩
  rw [h] at his
  simp at his

/-- C2 (amended): for a value `v < Max` written as a segment, the input made of
that segment and TWO trailing delimiters (`"3.."`) yields `v, v+1, ..., Max-1`,
the stream at end of input and not failed; with ONE trailing delimiter
(`"3."`) the reader yields just `[v]`. -/
theorem SequenceArgRangeReader_trailing_range (Min Max : Int) (Delim : Char)
    (R : Str → Option Int) (seg : Str) (v : Int)
    (hseg : Delim ∉ seg) (hne : seg ≠ []) (hR : R seg = some v) (hv : v < Max) :
    SequenceArgRangeReader Min Max Delim R (IStream.ofString (seg ++ [Delim, Delim]))
        = some (ReadOutcome.done atEof (v :: upTo (v + 1) Max))
    ∧ v :: upTo (v + 1) Max = upTo v Max
    ∧ SequenceArgRangeReader Min Max Delim R (IStream.ofString (seg ++ [Delim]))
        = some (ReadOutcome.done atEof [v]) := by
  refine ⟨?_, (upTo_cons hv).symm, ?_⟩
  · have hfold : foldLines (SequenceArgRangeReader.body Min R)
        (segments Delim (seg ++ [Delim, Delim])) ([], false)
        = LinesExit.finished ([v], true) := by
      rw [segments_append_delim Delim seg _ hseg]
      simp [segments, foldLines, SequenceArgRangeReader_body_plain Min R seg [] v hne hR,
        SequenceArgRangeReader_body_empty]
    rw [SequenceArgRangeReader_of_lines Min Max Delim R _ _ hfold]
    have hnot : ¬ Max ≤ v := not_le.mpr hv
    simp [SequenceArgRangeReader.finish, IStream.eof, IStream.clearToEof, atEof, hnot,
      pushRange_eq]
  · have hfold : foldLines (SequenceArgRangeReader.body Min R)
        (segments Delim (seg ++ [Delim])) ([], false)
        = LinesExit.finished ([v], false) := by
      rw [segments_append_delim Delim seg _ hseg]
      simp [segments, foldLines, SequenceArgRangeReader_body_plain Min R seg [] v hne hR]
    rw [SequenceArgRangeReader_of_lines Min Max Delim R _ _ hfold,
      SequenceArgRangeReader_finish_plain]

/-- Witness of C2 (amended): `"3.."` with `Min` 1, `Max` 5 yields `[3,4]`. -/
theorem SequenceArgRangeReader_trailing_range_witness :
    SequenceArgRangeReader 1 5 '.' ArgReader_int (IStream.ofString "3..".toList)
        = some (ReadOutcome.done atEof (3 :: upTo (3 + 1) 5))
    ∧ 3 :: upTo (3 + 1) 5 = [3, 4] :=
  ⟨(SequenceArgRangeReader_trailing_range 1 5 '.' ArgReader_int "3".toList 3
      (by decide) (by decide) (by decide) (by decide)).1, by decide⟩

/-- C3: for every `Min` and every `v > Min`, an input whose first segment is
empty and whose next segment parses to `v` makes `SequenceArgRangeReader` seed
the empty accumulator with `Min` and yield exactly `Min, Min+1, ..., v`, the
stream at end of input and not failed. -/
theorem SequenceArgRangeReader_leading_range (Min Max : Int) (Delim : Char)
    (R : Str → Option Int) (seg : Str) (v : Int)
    (hseg : Delim ∉ seg) (hne : seg ≠ []) (hR : R seg = some v) (hv : Min < v) :
    SequenceArgRangeReader.body Min R seg ([], true)
        = Step.next (Min :: (upTo (Min + 1) v ++ [v]), false)
    ∧ SequenceArgRangeReader Min Max Delim R (IStream.ofString (Delim :: seg))
        = some (ReadOutcome.done atEof (upTo Min (v + 1)))
    ∧ upTo Min (v + 1) = Min :: (upTo (Min + 1) v ++ [v]) := by
  have hbody := SequenceArgRangeReader_body_seed Min R seg v hne hR (Or.inl hv)
  refine ⟨by simpa using hbody, ?_, upTo_closed hv⟩
  have hfold : foldLines (SequenceArgRangeReader.body Min R)
      (segments Delim (Delim :: seg)) ([], false)
      = LinesExit.finished (upTo Min (v + 1), false) := by
    rw [upTo_closed hv]
    simp [segments, segments_single Delim seg hseg hne, foldLines,
      SequenceArgRangeReader_body_empty, hbody]
  rw [SequenceArgRangeReader_of_lines Min Max Delim R _ _ hfold,
    SequenceArgRangeReader_finish_plain]

/-- Witness of C3: `".4"` with `Min` 0 yields `[0,1,2,3,4]`. -/
theorem SequenceArgRangeReader_leading_range_witness :
    SequenceArgRangeReader 0 10 '.' ArgReader_int (IStream.ofString ".4".toList)
        = some (ReadOutcome.done atEof (upTo 0 (4 + 1)))
    ∧ upTo 0 (4 + 1) = [0, 1, 2, 3, 4] :=
  ⟨(SequenceArgRangeReader_leading_range 0 10 '.' ArgReader_int "4".toList 4
      (by decide) (by decide) (by decide) (by decide)).2.1, by decide⟩

theorem AssociativeArgRangeReader_of_lines (Min Max : Int) (d : Char)
    (R : Str → Option Int) (input : Str) (st : AssocState)
    (h : foldLines (AssociativeArgRangeReader.body Min R) (segments d input)
        { a := [], last_insert := Min, range := false }
      = LinesExit.finished st) :
    AssociativeArgRangeReader Min Max d R (IStream.ofString input)
      = some (AssociativeArgRangeReader.finish Max
          { buf := [], state := { eofbit := true, failbit := true } } st) := by
  have hl := getlineLoop_of_finished d (AssociativeArgRangeReader.body Min R) input _ _ h
  unfold AssociativeArgRangeReader
  simp only [IStream.ofString] at hl ⊢
  rw [hl]

theorem foldLines_assoc_empties (Min : Int) (R : Str → Option Int) (n : Nat)
    (a : List Int) (l : Int) (r : Bool) :
    foldLines (AssociativeArgRangeReader.body Min R) (List.replicate (n + 1) [])
        { a := a, last_insert := l, range := r }
      = LinesExit.finished { a := a, last_insert := l, range := true } := by
  induction n generalizing r with
  | zero => simp [foldLines, AssociativeArgRangeReader.body]
  | succ n ih =>
    rw [List.replicate_succ, foldLines]
    simp only [AssociativeArgRangeReader.body, if_true]
    exact ih true

theorem segments_trailing (d : Char) (seg : Str) (k : Nat) (h : d ∉ seg) :
    segments d (seg ++ List.replicate (k + 2) d) = seg :: List.replicate (k + 1) [] := by
  have := segments_replicate d (k + 1) []
  rw [List.replicate_succ, segments_append_delim d seg _ h]
  simpa [segments] using this

/-- C4: when the loop of `SequenceArgRangeReader` (resp.
`AssociativeArgRangeReader`) is left with the pending marker set and the last
committed value `l` (`s.back()`, resp. `last_insert`) is at or past `Max`, the
reader returns the collection as the loop left it and the stream has `eofbit`
alone: it is not failed. In particular an input made of one segment parsing
to `l >= Max` and two or more trailing delimiters yields `[l]`. -/
theorem range_readers_trailing_at_max (Min Max : Int) (Delim : Char)
    (R : Str → Option Int) (input : Str) (l : Int) (hl : l ≥ Max) :
    (∀ (is1 : IStream) (s : List Int),
      getlineLoop Delim (SequenceArgRangeReader.body Min R) (input.length + 1)
          (IStream.ofString input) ([], false) = some (LoopExit.finished is1 (s, true)) →
      s.getLast? = some l →
      SequenceArgRangeReader Min Max Delim R (IStream.ofString input)
          = some (ReadOutcome.done atEof s)
        ∧ atEof.fail = false)
    ∧ (∀ (is1 : IStream) (a : List Int),
      getlineLoop Delim (AssociativeArgRangeReader.body Min R) (input.length + 1)
          (IStream.ofString input) { a := [], last_insert := Min, range := false }
        = some (LoopExit.finished is1 { a := a, last_insert := l, range := true }) →
      AssociativeArgRangeReader Min Max Delim R (IStream.ofString input)
          = some (ReadOutcome.done atEof a)
        ∧ atEof.fail = false)
    ∧ (∀ (seg : Str) (k : Nat), Delim ∉ seg → seg ≠ [] → R seg = some l →
      SequenceArgRangeReader Min Max Delim R
          (IStream.ofString (seg ++ List.replicate (k + 2) Delim))
        = some (ReadOutcome.done atEof [l])
      ∧ AssociativeArgRangeReader Min Max Delim R
          (IStream.ofString (seg ++ List.replicate (k + 2) Delim))
        = some (ReadOutcome.done atEof [l])) := by
  refine ⟨?_, ?_, ?_⟩
  · intro is1 s hloop hlast
    have his := finished_of_getlineLoop _ _ _ _ _ _ hloop
    subst his
    refine ⟨?_, rfl⟩
    unfold SequenceArgRangeReader
    simp only [IStream.ofString] at hloop ⊢
    rw [hloop]
    simp [SequenceArgRangeReader.finish, IStream.eof, IStream.clearToEof, IStream.setEof,
      atEof, hlast, hl]
  · intro is1 a hloop
    have his := finished_of_getlineLoop _ _ _ _ _ _ hloop
    subst his
    refine ⟨?_, rfl⟩
    unfold AssociativeArgRangeReader
    simp only [IStream.ofString] at hloop ⊢
    rw [hloop]
    simp [AssociativeArgRangeReader.finish, IStream.eof, IStream.clearToEof, IStream.setEof,
      atEof, hl]
  · intro seg k hseg hne hR
    constructor
    · have hfold : foldLines (SequenceArgRangeReader.body Min R)
          (segments Delim (seg ++ List.replicate (k + 2) Delim)) ([], false)
          = LinesExit.finished ([l], true) := by
        rw [segments_trailing Delim seg k hseg, foldLines,
          SequenceArgRangeReader_body_plain Min R seg [] l hne hR]
        have := foldLines_empties Min R k [] ([] ++ [l]) false
        simpa [foldLines] using this
      rw [SequenceArgRangeReader_of_lines Min Max Delim R _ _ hfold]
      simp [SequenceArgRangeReader.finish, IStream.eof, IStream.clearToEof, IStream.setEof,
        atEof, hl]
    · have hfold : foldLines (AssociativeArgRangeReader.body Min R)
          (segments Delim (seg ++ List.replicate (k + 2) Delim))
          { a := [], last_insert := Min, range := false }
          = LinesExit.finished { a := [l], last_insert := l, range := true } := by
        rw [segments_trailing Delim seg k hseg, foldLines]
        simp only [AssociativeArgRangeReader.body, hne, if_false, hR, Bool.false_eq_true,
          setInsert]
        exact foldLines_assoc_empties Min R k [l] l false
      rw [AssociativeArgRangeReader_of_lines Min Max Delim R _ _ hfold]
      simp [AssociativeArgRangeReader.finish, IStream.eof, IStream.clearToEof,
        IStream.setEof, atEof, hl]

/-- Witness of C4: `"7.."` with `Max` 5 leaves `[7]` in both readers. -/
theorem range_readers_trailing_at_max_witness :
    SequenceArgRangeReader 1 5 '.' ArgReader_int (IStream.ofString "7..".toList)
        = some (ReadOutcome.done atEof [7])
    ∧ AssociativeArgRangeReader 1 5 '.' ArgReader_int (IStream.ofString "7..".toList)
        = some (ReadOutcome.done atEof [7]) :=
  have h := range_readers_trailing_at_max 1 5 '.' ArgReader_int "7..".toList 7 (by decide)
  ⟨(h.1 { buf := [], state := { eofbit := true, failbit := true } } [7] rfl rfl).1,
   (h.2.1 { buf := [], state := { eofbit := true, failbit := true } } [7] rfl).1⟩

/-! ## Lemmas: the argument object model -/

theorem filter_eq_tok_of_not_mem (opts : List Str) (tok : Str) (h : tok ∉ opts) :
    opts.filter (fun o => decide (o = tok)) = [] := by
  rw [List.filter_eq_nil_iff]
  intro o ho
  simp only [decide_eq_true_eq]
  intro e
  exact h (e ▸ ho)

theorem filter_eq_tok_of_mem (opts : List Str) (tok : Str) (h : tok ∈ opts) :
    ∃ o rest, opts.filter (fun o => decide (o = tok)) = o :: rest := by
  cases hf : opts.filter (fun o => decide (o = tok)) with
  | nil =>
    rw [List.filter_eq_nil_iff] at hf
    exact absurd (by simp) (hf tok h)
  | cons o rest => exact ⟨o, rest, rfl⟩

theorem appearancesFrom_first (opts : List Str) :
    ∀ (toks : List Str) (base k : Nat), k < toks.length → toks.getD k [] ∈ opts →
      (∀ j, j < k → toks.getD j [] ∉ opts) →
      ∃ rest, appearancesFrom opts base toks = (base + k) :: rest := by
  intro toks
  induction toks with
  | nil => intro base k hk; simp at hk
  | cons tok rest ih =>
    intro base k hk hmem hbefore
    cases k with
    | zero =>
      obtain ⟨o, more, ho⟩ := filter_eq_tok_of_mem opts tok (by simpa using hmem)
      exact ⟨more.map (fun _ => base) ++ appearancesFrom opts (base + 1) rest, by
        simp [appearancesFrom, ho]⟩
    | succ k =>
      have h0 : tok ∉ opts := by simpa using hbefore 0 (Nat.succ_pos k)
      obtain ⟨more, hmore⟩ := ih (base + 1) k (by simpa using hk) (by simpa using hmem)
        (fun j hj => by simpa using hbefore (j + 1) (Nat.succ_lt_succ hj))
      exact ⟨more, by
        simp [appearancesFrom, filter_eq_tok_of_not_mem opts tok h0, hmore]; omega⟩

theorem appearancesFrom_nil (opts : List Str) :
    ∀ (toks : List Str) (base : Nat), (∀ j, j < toks.length → toks.getD j [] ∉ opts) →
      appearancesFrom opts base toks = [] := by
  intro toks
  induction toks with
  | nil => intro base _; rfl
  | cons tok rest ih =>
    intro base h
    have h0 : tok ∉ opts := by simpa using h 0 (Nat.succ_pos _)
    have := ih (base + 1) (fun j hj => by simpa using h (j + 1) (Nat.succ_lt_succ hj))
    simp [appearancesFrom, filter_eq_tok_of_not_mem opts tok h0, this]

theorem tokenAt_succ_tail (argv : List Str) (j : Nat) :
    argv.tail.getD j [] = tokenAt argv (j + 1) := by
  cases argv with
  | nil => simp [tokenAt]
  | cons t ts => simp [tokenAt]

theorem get_appearances_first (a : Arg) (argv : List Str) (i : Nat)
    (hi1 : 1 ≤ i) (hi : i < argv.length) (hmem : tokenAt argv i ∈ a.opts_)
    (hfirst : ∀ j, 1 ≤ j → j < i → tokenAt argv j ∉ a.opts_) :
    ∃ rest, (a.get_appearances argv).appearances_ = i :: rest := by
  obtain ⟨k, rfl⟩ : ∃ k, i = k + 1 := ⟨i - 1, by omega⟩
  obtain ⟨rest, h⟩ := appearancesFrom_first a.opts_ argv.tail 1 k
    (by simp; omega) (by rw [tokenAt_succ_tail]; exact hmem)
    (fun j hj => by rw [tokenAt_succ_tail]; exact hfirst (j + 1) (by omega) (by omega))
  exact ⟨rest, by simp [Arg.get_appearances, h]; omega⟩

theorem get_appearances_nil (a : Arg) (argv : List Str)
    (h : ∀ j, 1 ≤ j → j < argv.length → tokenAt argv j ∉ a.opts_) :
    (a.get_appearances argv).appearances_ = [] := by
  have := appearancesFrom_nil a.opts_ argv.tail 1
    (fun j hj => by
      rw [tokenAt_succ_tail]
      exact h (j + 1) (by omega) (by simp at hj; omega))
  simp [Arg.get_appearances, this]


theorem ValueArg_read_cases {T : Type} (a : ValueArg T) (argv : List Str) (i : Nat)
    (rest : List Nat) (happ : (a.toArg.get_appearances argv).appearances_ = i :: rest) :
    a.read argv =
      if i = argv.length - 1 ∨ startsWithDash (tokenAt argv (i + 1)) = true then
        ({ a with toArg := (a.toArg.get_appearances argv).survivable_error a.parse_error_ },
          (i, i))
      else
        match a.reader_ (tokenAt argv (i + 1)) with
        | none =>
          ({ a with toArg := (a.toArg.get_appearances argv).survivable_error a.parse_error_ },
            (i, i + 1))
        | some temp =>
          ({ a with toArg := a.toArg.get_appearances argv, val_ := temp }, (i, i + 1)) := by
  unfold ValueArg.read
  simp only [happ]

theorem getD_set_true (used : List Bool) (p j : Nat) :
    (used.set p true).getD j false = true ↔
      used.getD j false = true ∨ (j = p ∧ p < used.length) := by
  simp only [List.getD_eq_getElem?_getD, List.getElem?_set]
  by_cases hjp : p = j
  · subst hjp
    by_cases hp : p < used.length
    · simp [hp]
    · simp [hp, List.getElem?_eq_none (not_lt.mp hp)]
  · have : ¬ j = p := fun e => hjp e.symm
    simp [hjp, this]

theorem readArgs_args (fs : Str → Option Str) (argv : List Str) :
    ∀ (args : List AnyArg) (k : Nat) (errors : List Nat) (used : List Bool),
      (Args.readArgs fs argv k args errors used).1 = args.map (fun a => (a.read fs argv).1) := by
  intro args
  induction args with
  | nil => intro k errors used; rfl
  | cons a rest ih => intro k errors used; simp [Args.readArgs, ih]

theorem readArgs_errors_nil (fs : Str → Option Str) (argv : List Str) :
    ∀ (args : List AnyArg) (k : Nat) (errors : List Nat) (used : List Bool),
      (Args.readArgs fs argv k args errors used).2.1 = [] ↔
        errors = [] ∧ ∀ a ∈ args, (a.read fs argv).1.error = false := by
  intro args
  induction args with
  | nil => intro k errors used; simp [Args.readArgs]
  | cons a rest ih =>
    intro k errors used
    simp only [Args.readArgs, ih, List.mem_cons, forall_eq_or_imp]
    cases he : (a.read fs argv).1.error with
    | true => simp
    | false => simp

theorem readArgs_used_length (fs : Str → Option Str) (argv : List Str) :
    ∀ (args : List AnyArg) (k : Nat) (errors : List Nat) (used : List Bool),
      (Args.readArgs fs argv k args errors used).2.2.length = used.length := by
  intro args
  induction args with
  | nil => intro k errors used; rfl
  | cons a rest ih => intro k errors used; simp [Args.readArgs, ih]

theorem readArgs_used (fs : Str → Option Str) (argv : List Str) :
    ∀ (args : List AnyArg) (k : Nat) (errors : List Nat) (used : List Bool) (j : Nat),
      (Args.readArgs fs argv k args errors used).2.2.getD j false = true ↔
        used.getD j false = true ∨
          (j < used.length ∧
            ∃ a ∈ args, (a.read fs argv).2.1 = j ∨ (a.read fs argv).2.2 = j) := by
  intro args
  induction args with
  | nil => intro k errors used j; simp [Args.readArgs]
  | cons a rest ih =>
    intro k errors used j
    simp only [Args.readArgs, ih, getD_set_true, List.length_set, List.mem_cons,
      exists_eq_or_imp]
    constructor
    · rintro (((h | ⟨h1, h2⟩) | ⟨h1, h2⟩) | ⟨h1, h2⟩)
      · exact Or.inl h
      · exact Or.inr ⟨by omega, Or.inl (Or.inr h1.symm)⟩
      · exact Or.inr ⟨by omega, Or.inl (Or.inl h1.symm)⟩
      · exact Or.inr ⟨h1, Or.inr h2⟩
    · rintro (h | ⟨h1, (h2 | h2) | h2⟩)
      · exact Or.inl (Or.inl (Or.inl h))
      · exact Or.inl (Or.inr ⟨h2.symm, by omega⟩)
      · exact Or.inl (Or.inl (Or.inr ⟨h2.symm, by omega⟩))
      · exact Or.inr ⟨h1, h2⟩

theorem getD_replicate_false (n j : Nat) : (List.replicate n false).getD j false = false := by
  simp only [List.getD_eq_getElem?_getD, List.getElem?_replicate]
  split <;> rfl

theorem Args_used_iff (fs : Str → Option Str) (A : Args) (argv : List Str) (j : Nat) :
    (Args.used fs A argv).getD j false = true ↔
      j < argv.length ∧ ∃ a ∈ A.args_, (a.read fs argv).2.1 = j ∨ (a.read fs argv).2.2 = j := by
  unfold Args.used
  rw [readArgs_used, getD_replicate_false]
  simp

theorem classify_fold (argv : List Str) (used : List Bool) :
    ∀ (L : List Nat) (u an : List Str),
      L.foldl
        (fun acc i =>
          if used.getD i false then acc
          else if startsWithDash (tokenAt argv i) then (acc.1 ++ [tokenAt argv i], acc.2)
          else (acc.1, acc.2 ++ [tokenAt argv i]))
        (u, an)
      = (u ++ (L.filter (fun i => !used.getD i false && startsWithDash (tokenAt argv i))).map
            (tokenAt argv),
         an ++ (L.filter (fun i => !used.getD i false && !startsWithDash (tokenAt argv i))).map
            (tokenAt argv)) := by
  intro L
  induction L with
  | nil => intro u an; simp
  | cons i rest ih =>
    intro u an
    rw [List.foldl_cons]
    cases hu : used.getD i false with
    | true =>
      simp only [List.getD_eq_getElem?_getD] at ih hu ⊢
      simp [ih, hu]
    | false =>
      cases hd : startsWithDash (tokenAt argv i) with
      | true =>
        simp only [List.getD_eq_getElem?_getD] at ih hu ⊢
        simp [ih, hu, hd]
      | false =>
        simp only [List.getD_eq_getElem?_getD] at ih hu ⊢
        simp [ih, hu, hd]

/-! ## Properties of `ValueArg::read` -/

/-- C5: when the first occurrence of an alias of a `ValueArg` is the last
token, or is followed by a token starting with `'-'`, or is followed by a
token on which the reader fails, `ValueArg::read` sets the error to the
declared parse-error message and leaves the stored value as it was. -/
theorem ValueArg_read_failure_keeps_value {T : Type} (a : ValueArg T) (argv : List Str)
    (i : Nat) (hi1 : 1 ≤ i) (hi : i < argv.length) (hmem : tokenAt argv i ∈ a.opts_)
    (hfirst : ∀ j, 1 ≤ j → j < i → tokenAt argv j ∉ a.opts_)
    (hbad : i = argv.length - 1 ∨ startsWithDash (tokenAt argv (i + 1)) = true
      ∨ a.reader_ (tokenAt argv (i + 1)) = none) :
    (a.read argv).1.error_ = a.parse_error_ ∧ (a.read argv).1.val_ = a.val_ := by
  obtain ⟨rest, happ⟩ := get_appearances_first a.toArg argv i hi1 hi hmem hfirst
  rw [ValueArg_read_cases a argv i rest happ]
  by_cases hc : i = argv.length - 1 ∨ startsWithDash (tokenAt argv (i + 1)) = true
  · rw [if_pos hc]
    exact ⟨rfl, rfl⟩
  · have hr : a.reader_ (tokenAt argv (i + 1)) = none := by
      rcases hbad with h | h | h
      · exact absurd (Or.inl h) hc
      · exact absurd (Or.inr h) hc
      · exact h
    rw [if_neg hc, hr]
    exact ⟨rfl, rfl⟩

/-- Witness of C5: a sequence argument with value `[9]` read from `-s 1.x.3`.
The sequence reader fails at the segment `x` having pushed `1`; the argument
keeps `[9]` and gets its parse-error message. -/
theorem ValueArg_read_failure_keeps_value_witness :
    SequenceArgReader '.' ArgReader_int (IStream.ofString "1.x.3".toList)
        = some (ReadOutcome.done
            { buf := "3".toList, state := { eofbit := false, failbit := true } } [1])
    ∧ (value_s.read ["prog".toList, "-s".toList, "1.x.3".toList]).1.error_
        = "Error (-s) Unable to parse argument!".toList
    ∧ (value_s.read ["prog".toList, "-s".toList, "1.x.3".toList]).1.val_ = [9] :=
  have h := ValueArg_read_failure_keeps_value value_s
    ["prog".toList, "-s".toList, "1.x.3".toList] 1 (by decide) (by decide) (by decide)
    (fun j h1 h2 => absurd h1 (by omega)) (Or.inr (Or.inr (by decide)))
  ⟨by decide, h.1, h.2⟩

/-- C6: for a `ValueArg` without error whose first alias occurrence is at index
`i >= 1`, followed by a token that does not start with `'-'` and that the
reader parses to `t`: `ValueArg::read` stores `t`, leaves the argument without
error and returns `(i, i+1)`, and `Args::read` marks `i` and `i+1` used for
every registry holding the argument. -/
theorem ValueArg_read_success {T : Type} (a : ValueArg T) (argv : List Str)
    (i : Nat) (t : T) (hi1 : 1 ≤ i) (hmem : tokenAt argv i ∈ a.opts_)
    (hfirst : ∀ j, 1 ≤ j → j < i → tokenAt argv j ∉ a.opts_)
    (hnext : i + 1 < argv.length)
    (hdash : startsWithDash (tokenAt argv (i + 1)) = false)
    (hread : a.reader_ (tokenAt argv (i + 1)) = some t)
    (hfresh : a.error_ = []) :
    (a.read argv).1.val_ = t
    ∧ (a.read argv).1.toArg.error = false
    ∧ (a.read argv).2 = (i, i + 1)
    ∧ ∀ (fs : Str → Option Str) (A : Args), AnyArg.value a ∈ A.args_ →
        (Args.used fs A argv).getD i false = true
        ∧ (Args.used fs A argv).getD (i + 1) false = true := by
  obtain ⟨rest, happ⟩ := get_appearances_first a.toArg argv i hi1 (by omega) hmem hfirst
  have hc : ¬ (i = argv.length - 1 ∨ startsWithDash (tokenAt argv (i + 1)) = true) := by
    rw [hdash]
    rintro (h | h)
    · omega
    · exact Bool.false_ne_true h
  have hrd : a.read argv
      = ({ a with toArg := a.toArg.get_appearances argv, val_ := t }, (i, i + 1)) := by
    rw [ValueArg_read_cases a argv i rest happ, if_neg hc, hread]
  refine ⟨by rw [hrd], ?_, by rw [hrd], ?_⟩
  · rw [hrd]
    simp [Arg.error, Arg.reason, Arg.get_appearances, hfresh]
  · intro fs A hA
    have hres : ((AnyArg.value a).read fs argv).2 = (i, i + 1) := by
      simp [AnyArg.read, hrd]
    constructor
    · rw [Args_used_iff]
      exact ⟨by omega, AnyArg.value a, hA, Or.inl (by rw [hres])⟩
    · rw [Args_used_iff]
      exact ⟨hnext, AnyArg.value a, hA, Or.inr (by rw [hres])⟩

/-- Witness of C6: `-i 5` read by the integer argument `value_i`. -/
theorem ValueArg_read_success_witness :
    (value_i.read ["prog".toList, "-i".toList, "5".toList]).1.val_ = 5
    ∧ (value_i.read ["prog".toList, "-i".toList, "5".toList]).2 = (1, 2) :=
  have h := ValueArg_read_success value_i ["prog".toList, "-i".toList, "5".toList] 1 5
    (by decide) (by decide) (fun j h1 h2 => absurd h1 (by omega)) (by decide) (by decide)
    (by decide) (by decide)
  ⟨h.1, h.2.2.1⟩

/-- Counterexample to C7: in `-i 5 -i 7` both occurrences of the alias are
followed by a token the reader parses, the last one by `7`, and the value
held after the read is `5`. -/
theorem ValueArg_read_keeps_first_occurrence :
    tokenAt ["prog".toList, "-i".toList, "5".toList, "-i".toList, "7".toList] 1
        ∈ value_i.opts_
    ∧ value_i.reader_
        (tokenAt ["prog".toList, "-i".toList, "5".toList, "-i".toList, "7".toList] 2)
        = some 5
    ∧ tokenAt ["prog".toList, "-i".toList, "5".toList, "-i".toList, "7".toList] 3
        ∈ value_i.opts_
    ∧ value_i.reader_
        (tokenAt ["prog".toList, "-i".toList, "5".toList, "-i".toList, "7".toList] 4)
        = some 7
    ∧ (value_i.read
        ["prog".toList, "-i".toList, "5".toList, "-i".toList, "7".toList]).1.val_ = 5
    ∧ (value_i.read
        ["prog".toList, "-i".toList, "5".toList, "-i".toList, "7".toList]).1.val_ ≠ 7 := by
  decide

/-- C7 (amended): when the alias of a `ValueArg` occurs at several positions,
the value held after the read is the one parsed from the token following the
FIRST occurrence (a token that does not start with `'-'`); the tokens
following later occurrences are not read. -/
theorem ValueArg_read_first_occurrence_wins {T : Type} (a : ValueArg T) (argv : List Str)
    (i : Nat) (t : T) (hi1 : 1 ≤ i) (hmem : tokenAt argv i ∈ a.opts_)
    (hfirst : ∀ j, 1 ≤ j → j < i → tokenAt argv j ∉ a.opts_)
    (hnext : i + 1 < argv.length)
    (hdash : startsWithDash (tokenAt argv (i + 1)) = false)
    (hread : a.reader_ (tokenAt argv (i + 1)) = some t) :
    (a.read argv).1.val_ = t := by
  obtain ⟨rest, happ⟩ := get_appearances_first a.toArg argv i hi1 (by omega) hmem hfirst
  have hc : ¬ (i = argv.length - 1 ∨ startsWithDash (tokenAt argv (i + 1)) = true) := by
    rw [hdash]
    rintro (h | h)
    · omega
    · exact Bool.false_ne_true h
  rw [ValueArg_read_cases a argv i rest happ, if_neg hc, hread]

/-- Witness of C7 (amended): `-i 5 -i 7` leaves `5`. -/
theorem ValueArg_read_first_occurrence_wins_witness :
    (value_i.read
      ["prog".toList, "-i".toList, "5".toList, "-i".toList, "7".toList]).1.val_ = 5 :=
  ValueArg_read_first_occurrence_wins value_i
    ["prog".toList, "-i".toList, "5".toList, "-i".toList, "7".toList] 1 5
    (by decide) (by decide) (fun j h1 h2 => absurd h1 (by omega)) (by decide) (by decide)
    (by decide)

/-! ## Properties of `FlagArg::read` and `Args::read` -/

theorem get_appearances_ne_nil_iff (a : Arg) (argv : List Str) :
    (a.get_appearances argv).appearances_ ≠ [] ↔
      ∃ i, 1 ≤ i ∧ i < argv.length ∧ tokenAt argv i ∈ a.opts_ := by
  constructor
  · intro hne
    by_contra hno
    apply hne
    apply get_appearances_nil
    intro j hj1 hj2 hj3
    exact hno ⟨j, hj1, hj2, hj3⟩
  · intro hex
    classical
    obtain ⟨m1, m2, m3⟩ := Nat.find_spec hex
    have hmin : ∀ j, 1 ≤ j → j < Nat.find hex → tokenAt argv j ∉ a.opts_ :=
      fun j hj1 hj2 hj3 => Nat.find_min hex hj2 ⟨hj1, by omega, hj3⟩
    obtain ⟨rest, hr⟩ := get_appearances_first a argv _ m1 m2 m3 hmin
    rw [hr]
    simp

theorem FlagArg_read_cons (a : FlagArg) (argv : List Str) (i : Nat) (rest : List Nat)
    (happ : (a.toArg.get_appearances argv).appearances_ = i :: rest) :
    a.read argv = ({ toArg := a.toArg.get_appearances argv, val_ := true }, (i, i)) := by
  unfold FlagArg.read
  simp only [happ]

theorem FlagArg_read_nil (a : FlagArg) (argv : List Str)
    (happ : (a.toArg.get_appearances argv).appearances_ = []) :
    a.read argv = ({ toArg := a.toArg.get_appearances argv, val_ := a.val_ }, (0, 0)) := by
  unfold FlagArg.read
  simp only [happ]

theorem FlagArg_read_error (a : FlagArg) (argv : List Str) :
    (a.read argv).1.error_ = a.error_ := by
  cases happ : (a.toArg.get_appearances argv).appearances_ with
  | nil => rw [FlagArg_read_nil a argv happ]; rfl
  | cons i rest => rw [FlagArg_read_cons a argv i rest happ]; rfl

/-- Counterexample to C8: the flag `-h`, set by a read of `prog -h`, is still
true after a read of `prog`, in which no token equals its alias. -/
theorem FlagArg_read_keeps_true :
    ((flag_h.read ["prog".toList, "-h".toList]).1.read ["prog".toList]).1.val_ = true
    ∧ ¬ ∃ i, 1 ≤ i ∧ i < ["prog".toList].length
        ∧ tokenAt ["prog".toList] i ∈ (flag_h.read ["prog".toList, "-h".toList]).1.opts_ := by
  refine ⟨by decide, ?_⟩
  rintro ⟨i, h1, h2, _⟩
  simp at h2
  omega

/-- C8 (amended): after `FlagArg::read` the value is true when one of the
aliases equals a token at an index `>= 1`, and is otherwise the value held
before the read (false for a flag that was false, as `FlagArg::create` leaves
it); the read never changes the error message, so a flag that had no error
reports none. -/
theorem FlagArg_read_value (a : FlagArg) (argv : List Str) :
    ((a.read argv).1.val_ = true ↔
      (a.val_ = true ∨ ∃ i, 1 ≤ i ∧ i < argv.length ∧ tokenAt argv i ∈ a.opts_))
    ∧ (a.read argv).1.error_ = a.error_
    ∧ (a.read argv).1.toArg.error = a.toArg.error := by
  refine ⟨?_, FlagArg_read_error a argv, ?_⟩
  · have hiff := get_appearances_ne_nil_iff a.toArg argv
    cases happ : (a.toArg.get_appearances argv).appearances_ with
    | nil =>
      rw [FlagArg_read_nil a argv happ]
      have hno : ¬ ∃ i, 1 ≤ i ∧ i < argv.length ∧ tokenAt argv i ∈ a.opts_ :=
        fun hex => (hiff.mpr hex) happ
      simp [hno]
    | cons i rest =>
      rw [FlagArg_read_cons a argv i rest happ]
      have hex : ∃ i, 1 ≤ i ∧ i < argv.length ∧ tokenAt argv i ∈ a.opts_ :=
        hiff.mp (by rw [happ]; simp)
      simp [hex]
  · simp [Arg.error, Arg.reason, FlagArg_read_error a argv]

/-- Counterexample to C9: with the flag `-h` registered, `prog -h -h` has the
alias at the indices 1 and 2; only index 1 is marked used and the second `-h`
is filed as unrecognized. -/
theorem Args_read_second_occurrence_unrecognized :
    Args.used noFiles registry_h ["prog".toList, "-h".toList, "-h".toList]
        = [false, true, false]
    ∧ (Args.read noFiles 0 registry_h ["prog".toList, "-h".toList, "-h".toList]).map
        (fun A => (A.unrecognized_, A.anonymous_, A.good))
        = some (["-h".toList], [], false) := by
  decide

/-- C9 (amended): for a registered `FlagArg` without error and a token vector,
not of the script form, whose first occurrence of an alias of the flag is at
index `i >= 1`: `Args::read` returns, the flag as read is in the registry and
reports no error, and position `i` is marked used, so the classification loop
skips it. -/
theorem Args_read_flag_first_occurrence (fs : Str → Option Str) (fuel : Nat) (A : Args)
    (argv : List Str) (a : FlagArg) (i : Nat)
    (hA : AnyArg.flag a ∈ A.args_) (herr : a.error_ = [])
    (hi1 : 1 ≤ i) (hi : i < argv.length) (hmem : tokenAt argv i ∈ a.opts_)
    (hfirst : ∀ j, 1 ≤ j → j < i → tokenAt argv j ∉ a.opts_)
    (hscript : isScriptForm argv = false) :
    ∃ A1, Args.read fs fuel A argv = some A1
      ∧ AnyArg.flag (a.read argv).1 ∈ A1.args_
      ∧ (a.read argv).1.toArg.error = false
      ∧ (a.read argv).1.val_ = true
      ∧ (a.read argv).2 = (i, i)
      ∧ (Args.used fs A argv).getD i false = true := by
  obtain ⟨rest, happ⟩ := get_appearances_first a.toArg argv i hi1 hi hmem hfirst
  have hrd := FlagArg_read_cons a argv i rest happ
  refine ⟨Args.readTokens fs A argv, ?_, ?_, ?_, by rw [hrd], by rw [hrd], ?_⟩
  · unfold Args.read
    simp [hscript]
  · simp only [Args.readTokens, readArgs_args, List.mem_map]
    exact ⟨AnyArg.flag a, hA, rfl⟩
  · simp [Arg.error, Arg.reason, FlagArg_read_error a argv, herr]
  · rw [Args_used_iff]
    exact ⟨hi, AnyArg.flag a, hA, Or.inl (by simp [AnyArg.read, hrd])⟩

/-- Witness of C9 (amended): `prog -h -h` with the flag `-h` registered. -/
theorem Args_read_flag_first_occurrence_witness :
    ∃ A1, Args.read noFiles 0 registry_h ["prog".toList, "-h".toList, "-h".toList] = some A1
      ∧ (Args.used noFiles registry_h ["prog".toList, "-h".toList, "-h".toList]).getD 1 false
        = true :=
  have h := Args_read_flag_first_occurrence noFiles 0 registry_h
    ["prog".toList, "-h".toList, "-h".toList] flag_h 1 (by simp [registry_h]) rfl
    (by decide) (by decide) (by decide) (fun j h1 h2 => absurd h1 (by omega)) (by decide)
  h.elim fun A1 hA1 => ⟨A1, hA1.1, hA1.2.2.2.2.2⟩

/-- C10: `Args::read` on a token vector of length `N >= 1` that is not of the
script form, started with empty diagnostic collections, returns with: the
unrecognized list equal to the tokens at the indices `1..N-1` not marked used
that begin with `'-'`, the anonymous list equal to the other tokens at unused
indices `1..N-1`, both in ascending index order (index 0 is not visited); an
index is marked used exactly when it is a component of the pair returned by
the read of some registered argument; and `good()` is true exactly when no
argument reports an error after its read and the unrecognized list is
empty. -/
theorem Args_read_classification (fs : Str → Option Str) (fuel : Nat) (A : Args)
    (argv : List Str) (_hN : 1 ≤ argv.length) (hscript : isScriptForm argv = false)
    (he : A.errors_ = []) (hu : A.unrecognized_ = []) (ha : A.anonymous_ = []) :
    ∃ A1, Args.read fs fuel A argv = some A1
      ∧ A1.unrecognized_
          = ((List.range' 1 (argv.length - 1)).filter
              (fun i => !(Args.used fs A argv).getD i false
                && startsWithDash (tokenAt argv i))).map (tokenAt argv)
      ∧ A1.anonymous_
          = ((List.range' 1 (argv.length - 1)).filter
              (fun i => !(Args.used fs A argv).getD i false
                && !startsWithDash (tokenAt argv i))).map (tokenAt argv)
      ∧ (∀ i, (Args.used fs A argv).getD i false = true ↔
          i < argv.length ∧
            ∃ a ∈ A.args_, (a.read fs argv).2.1 = i ∨ (a.read fs argv).2.2 = i)
      ∧ (A1.good = true ↔
          (∀ a ∈ A.args_, (a.read fs argv).1.error = false) ∧ A1.unrecognized_ = [])
      ∧ (A1.anonymous_ ≠ [] → A1.unrecognized_ = [] →
          (∀ a ∈ A.args_, (a.read fs argv).1.error = false) → A1.good = true) := by
  have hgood : (Args.readTokens fs A argv).good = true ↔
      (∀ a ∈ A.args_, (a.read fs argv).1.error = false)
        ∧ (Args.readTokens fs A argv).unrecognized_ = [] := by
    have herrs := readArgs_errors_nil fs argv A.args_ 0 A.errors_
      (List.replicate argv.length false)
    simp only [Args.good, Args.error, Args.unrecognized, Bool.not_not, Bool.and_eq_true,
      List.isEmpty_iff, Args.readTokens]
    rw [herrs]
    simp [he]
  refine ⟨Args.readTokens fs A argv, ?_, ?_, ?_, fun i => Args_used_iff fs A argv i,
    hgood, fun _ h1 h2 => hgood.mpr ⟨h2, h1⟩⟩
  · unfold Args.read
    simp [hscript]
  · simp only [Args.readTokens, Args.classify, classify_fold, hu, List.nil_append]
    rfl
  · simp only [Args.readTokens, Args.classify, classify_fold, ha, List.nil_append]
    rfl

/-- Witness of C10: `["prog", "--unknownflag", "positional1"]` with an empty
registry gives unrecognized `["--unknownflag"]`, anonymous `["positional1"]`
and `good()` false. -/
theorem Args_read_classification_witness :
    ∃ A1, Args.read noFiles 0 emptyRegistry
        ["prog".toList, "--unknownflag".toList, "positional1".toList] = some A1
      ∧ A1.unrecognized_ = ["--unknownflag".toList]
      ∧ A1.anonymous_ = ["positional1".toList]
      ∧ A1.good = false :=
  have h := Args_read_classification noFiles 0 emptyRegistry
    ["prog".toList, "--unknownflag".toList, "positional1".toList]
    (by decide) (by decide) rfl rfl rfl
  h.elim fun A1 hA1 =>
    have hun : A1.unrecognized_ = ["--unknownflag".toList] := hA1.2.1.trans (by decide)
    ⟨A1, hA1.1, hun, hA1.2.2.1.trans (by decide),
      Bool.eq_false_iff.mpr fun hg => by
        have := (hA1.2.2.2.2.1.mp hg).2
        rw [hun] at this
        exact absurd this (by simp)⟩

/-! ## Properties of the error state and of `FileArg::read` -/

/-- Counterexample to C12: the integer argument `-i`, after a failed read of
`-i x`, is read from `-i 5`: the value becomes 5 and `error()` is still true. -/
theorem ValueArg_read_success_keeps_error :
    (value_i.read ["prog".toList, "-i".toList, "x".toList]).1.toArg.error = true
    ∧ ((value_i.read ["prog".toList, "-i".toList, "x".toList]).1.read
        ["prog".toList, "-i".toList, "5".toList]).1.val_ = 5
    ∧ ((value_i.read ["prog".toList, "-i".toList, "x".toList]).1.read
        ["prog".toList, "-i".toList, "5".toList]).1.toArg.error = true := by
  decide

/-- C12 (amended): a read of a `ValueArg` over a token vector in which the first
occurrence of its alias is followed by a token (not starting with `'-'`) that
the reader parses stores the value and leaves the error message exactly as it
was: `error()` is false afterwards when the argument had no error, and is
still true when it held a message from an earlier read. -/
theorem ValueArg_read_success_error_unchanged {T : Type} (a : ValueArg T)
    (argv : List Str) (i : Nat) (t : T) (hi1 : 1 ≤ i) (hmem : tokenAt argv i ∈ a.opts_)
    (hfirst : ∀ j, 1 ≤ j → j < i → tokenAt argv j ∉ a.opts_)
    (hnext : i + 1 < argv.length)
    (hdash : startsWithDash (tokenAt argv (i + 1)) = false)
    (hread : a.reader_ (tokenAt argv (i + 1)) = some t) :
    (a.read argv).1.val_ = t
    ∧ (a.read argv).1.error_ = a.error_
    ∧ (a.read argv).1.toArg.error = a.toArg.error
    ∧ (a.error_ = [] → (a.read argv).1.toArg.error = false) := by
  obtain ⟨rest, happ⟩ := get_appearances_first a.toArg argv i hi1 (by omega) hmem hfirst
  have hc : ¬ (i = argv.length - 1 ∨ startsWithDash (tokenAt argv (i + 1)) = true) := by
    rw [hdash]
    rintro (h | h)
    · omega
    · exact Bool.false_ne_true h
  have hrd : a.read argv
      = ({ a with toArg := a.toArg.get_appearances argv, val_ := t }, (i, i + 1)) := by
    rw [ValueArg_read_cases a argv i rest happ, if_neg hc, hread]
  rw [hrd]
  refine ⟨rfl, rfl, rfl, ?_⟩
  intro h
  simp [Arg.error, Arg.reason, Arg.get_appearances, h]

/-- Witness of C12 (amended): `-i 5` read by `value_i`, which has no error. -/
theorem ValueArg_read_success_error_unchanged_witness :
    (value_i.read ["prog".toList, "-i".toList, "5".toList]).1.val_ = 5
    ∧ (value_i.read ["prog".toList, "-i".toList, "5".toList]).1.toArg.error = false :=
  have h := ValueArg_read_success_error_unchanged value_i
    ["prog".toList, "-i".toList, "5".toList] 1 5
    (by decide) (by decide) (fun j h1 h2 => absurd h1 (by omega)) (by decide) (by decide)
    (by decide)
  ⟨h.1, h.2.2.2 rfl⟩

theorem FileArg_read_nil {T : Type} (fs : Str → Option Str) (a : FileArg T)
    (argv : List Str) (happ : (a.toArg.get_appearances argv).appearances_ = []) :
    a.read fs argv
      = FileArg.load fs { a with toArg := a.toArg.get_appearances argv } (0, 0) := by
  unfold FileArg.read
  simp only [happ]

/-- C15: a `FileArg` whose alias occurs nowhere in the token vector and whose
path (the declared default) cannot be opened gets its file-error message,
keeps its value and returns `(0,0)`. -/
theorem FileArg_read_default_path_missing {T : Type} (fs : Str → Option Str)
    (a : FileArg T) (argv : List Str)
    (habsent : ∀ j, 1 ≤ j → j < argv.length → tokenAt argv j ∉ a.opts_)
    (hpath : fs a.path_ = none) :
    (a.read fs argv).1.error_ = a.file_error_
    ∧ (a.read fs argv).1.val_ = a.val_
    ∧ (a.read fs argv).2 = (0, 0) := by
  have happ := get_appearances_nil a.toArg argv habsent
  rw [FileArg_read_nil fs a argv happ]
  simp [FileArg.load, hpath, Arg.survivable_error]

/-- Witness of C15: `file_f` with no file system entry, read from `prog`. -/
theorem FileArg_read_default_path_missing_witness :
    (file_f.read noFiles ["prog".toList]).1.error_
        = "Error (-f) Unable to read input file!".toList
    ∧ (file_f.read noFiles ["prog".toList]).1.val_ = 7
    ∧ (file_f.read noFiles ["prog".toList]).2 = (0, 0) :=
  FileArg_read_default_path_missing noFiles file_f ["prog".toList]
    (fun j h1 h2 => absurd h1 (by simp at h2; omega)) rfl

/-- C16 (the code at the failing input): the file `cfg` opens and holds
`abc`, on which the integer reader fails; `FileArg::read` sets the error to
the file-error message, not to the parse-error message. The value is kept. -/
theorem FileArg_read_parse_failure_sets_file_error :
    fs_cfg file_f.path_ = some "abc".toList
    ∧ file_f.reader_ "abc".toList = none
    ∧ (file_f.read fs_cfg ["prog".toList]).1.error_
        = "Error (-f) Unable to read input file!".toList
    ∧ (file_f.read fs_cfg ["prog".toList]).1.error_ ≠ file_f.parse_error_
    ∧ (file_f.read fs_cfg ["prog".toList]).1.val_ = 7 := by
  decide

/-! ## Properties of the registration -/

theorem mem_optsInsert (alt x : Str) (opts : List Str) :
    x ∈ optsInsert alt opts ↔ x = alt ∨ x ∈ opts := by
  induction opts with
  | nil => simp [optsInsert]
  | cons y ys ih =>
    unfold optsInsert
    by_cases h1 : alt < y
    · simp [h1]
    · by_cases h2 : alt = y
      · subst h2
        simp [h1]
      · simp only [h1, h2, if_false, List.mem_cons, ih]
        tauto

theorem optsInsert_perm (alt : Str) (opts : List Str) (h : alt ∉ opts) :
    (optsInsert alt opts).Perm (alt :: opts) := by
  induction opts with
  | nil => simp [optsInsert]
  | cons y ys ih =>
    have hy : alt ≠ y := fun e => h (by simp [e])
    have hys : alt ∉ ys := fun e => h (by simp [e])
    unfold optsInsert
    by_cases h1 : alt < y
    · simp [h1]
    · simp only [h1, hy, if_false]
      exact ((ih hys).cons y).trans (List.Perm.swap alt y ys)

theorem Arg_alternate_some (A : Args) (this b : Arg) (a : Str)
    (h : Arg.alternate A this a = some b) :
    ∃ alt, aliasToken a = some alt ∧ A.exists alt = false
      ∧ b = { this with opts_ := optsInsert alt this.opts_ } := by
  unfold Arg.alternate at h
  cases ha : aliasToken a with
  | none => rw [ha] at h; simp at h
  | some alt =>
    rw [ha] at h
    cases he : A.exists alt with
    | true => simp [he] at h
    | false =>
      simp only [he, Bool.false_eq_true, if_false, Option.some.injEq] at h
      exact ⟨alt, rfl, he, h.symm⟩

theorem Arg_alternate_registered (A : Args) (this : Arg) (a alt : Str)
    (ha : aliasToken a = some alt) (he : A.exists alt = true) :
    Arg.alternate A this a = none := by
  simp [Arg.alternate, ha, he]

/-- C13: `Arg::alternate` registers a one-character name other than `-` as
`-` followed by the name and a name of two or more characters other than `--`
as `--` followed by the name, when that token is not yet registered (the token
joins the aliases the argument had); the names `""`, `-` and `--` are fatal
errors, also in the `create` functions, and nothing is registered. -/
theorem Arg_alternate_normalises (A : Args) (this : Arg) (a : Str) :
    (a.length = 1 → a ≠ ['-'] → A.exists ('-' :: a) = false →
      Arg.alternate A this a = some { this with opts_ := optsInsert ('-' :: a) this.opts_ })
    ∧ (2 ≤ a.length → a ≠ ['-', '-'] → A.exists ('-' :: '-' :: a) = false →
      Arg.alternate A this a
        = some { this with opts_ := optsInsert ('-' :: '-' :: a) this.opts_ })
    ∧ (∀ alt x : Str, x ∈ optsInsert alt this.opts_ ↔ x = alt ∨ x ∈ this.opts_)
    ∧ (a = [] ∨ a = ['-'] ∨ a = ['-', '-'] →
      Arg.alternate A this a = none
      ∧ FlagArg.create A a = none
      ∧ (∀ (T : Type) (reader : Str → Option T) (init : T),
          ValueArg.create A a reader init = none ∧ FileArg.create A a reader init = none)) := by
  refine ⟨?_, ?_, fun alt x => mem_optsInsert alt x this.opts_, ?_⟩
  · intro h1 h2 h3
    have hh : a.head? ≠ some '-' := by
      intro hd
      apply h2
      cases a with
      | nil => simp at h1
      | cons c cs =>
        cases cs with
        | nil => simpa using hd
        | cons c1 cs1 => simp at h1
    simp [Arg.alternate, aliasToken, h1, hh, h3]
  · intro h1 h2 h3
    have h0 : a.length ≠ 0 := by omega
    have h01 : a.length ≠ 1 := by omega
    simp [Arg.alternate, aliasToken, h0, h01, h2, h3]
  · intro h
    have htok : aliasToken a = none := by
      rcases h with h | h | h <;> subst h <;> rfl
    have halt : ∀ x : Arg, Arg.alternate A x a = none := by
      intro x
      simp [Arg.alternate, htok]
    have hcon : Arg.construct A a = none := by
      simp [Arg.construct, halt]
    refine ⟨halt this, by simp [FlagArg.create, FlagArg.construct, hcon], ?_⟩
    intro T reader init
    constructor
    · simp [ValueArg.create, ValueArg.construct, hcon]
    · simp [FileArg.create, FileArg.construct, hcon]

/-- Witness of C13: `h` becomes `-h`, `help` becomes `--help`, `-` is fatal. -/
theorem Arg_alternate_normalises_witness :
    Arg.alternate emptyRegistry flag_h.toArg "help".toList
        = some { flag_h.toArg with opts_ := ["--help".toList, "-h".toList] }
    ∧ FlagArg.create emptyRegistry "h".toList = some registry_h
    ∧ FlagArg.create emptyRegistry "-".toList = none :=
  ⟨(Arg_alternate_normalises emptyRegistry flag_h.toArg "help".toList).2.1
      (by decide) (by decide) (by decide),
    by rfl,
    ((Arg_alternate_normalises emptyRegistry flag_h.toArg "-".toList).2.2.2
      (Or.inr (Or.inl rfl))).2.1⟩

theorem Args_exists_iff (A : Args) (alt : Str) :
    A.exists alt = true ↔ alt ∈ A.allOpts := by
  simp only [Args.exists, Args.allOpts, List.any_eq_true, decide_eq_true_eq,
    List.mem_flatten, List.mem_map]
  constructor
  · rintro ⟨a, ha, hmem⟩
    exact ⟨a.toArg.opts_, ⟨a, ha, rfl⟩, hmem⟩
  · rintro ⟨l, ⟨a, ha, rfl⟩, hmem⟩
    exact ⟨a, ha, hmem⟩

theorem Arg_construct_some (A : Args) (opt : Str) (a : Arg)
    (h : Arg.construct A opt = some a) :
    ∃ alt, aliasToken opt = some alt ∧ A.exists alt = false ∧ a.opts_ = [alt] := by
  unfold Arg.construct at h
  cases hb : Arg.alternate A
      { appearances_ := [], opts_ := [], usage_ := [], description_ := [], error_ := [] }
      opt with
  | none => simp [hb] at h
  | some b =>
    obtain ⟨alt, h1, h2, h3⟩ := Arg_alternate_some A _ b opt hb
    simp only [hb, Option.some.injEq] at h
    refine ⟨alt, h1, h2, ?_⟩
    rw [← h, h3]
    rfl

theorem allOpts_push (A : Args) (x : AnyArg) :
    Args.allOpts { A with args_ := A.args_ ++ [x] } = A.allOpts ++ x.toArg.opts_ := by
  simp [Args.allOpts]

theorem nodup_push (A : Args) (x : AnyArg) (alt : Str) (hx : x.toArg.opts_ = [alt])
    (he : A.exists alt = false) (hA : A.allOpts.Nodup) :
    (Args.allOpts { A with args_ := A.args_ ++ [x] }).Nodup := by
  have hnot : alt ∉ A.allOpts := by
    intro hmem
    rw [(Args_exists_iff A alt).mpr hmem] at he
    exact Bool.noConfusion he
  rw [allOpts_push, hx]
  exact List.Nodup.append hA (List.nodup_singleton alt) (by simpa using hnot)

theorem FlagArg_create_nodup (A A1 : Args) (opt : Str) (h : FlagArg.create A opt = some A1)
    (hA : A.allOpts.Nodup) : A1.allOpts.Nodup := by
  unfold FlagArg.create FlagArg.construct at h
  cases hc : Arg.construct A opt with
  | none => simp [hc] at h
  | some a =>
    obtain ⟨alt, _, h2, h3⟩ := Arg_construct_some A opt a hc
    simp only [hc, Option.some.injEq] at h
    rw [← h]
    exact nodup_push A _ alt (by simpa [AnyArg.toArg] using h3) h2 hA

theorem ValueArg_create_nodup {T : Type} (A A1 : Args) (opt : Str) (reader : Str → Option T)
    (init : T) (h : ValueArg.create A opt reader init = some A1)
    (hA : A.allOpts.Nodup) : A1.allOpts.Nodup := by
  unfold ValueArg.create ValueArg.construct at h
  cases hc : Arg.construct A opt with
  | none => simp [hc] at h
  | some a =>
    obtain ⟨alt, _, h2, h3⟩ := Arg_construct_some A opt a hc
    simp only [hc, Option.some.injEq] at h
    rw [← h]
    exact nodup_push A _ alt (by simpa [AnyArg.toArg] using h3) h2 hA

theorem FileArg_create_nodup {T : Type} (A A1 : Args) (opt : Str) (reader : Str → Option T)
    (init : T) (h : FileArg.create A opt reader init = some A1)
    (hA : A.allOpts.Nodup) : A1.allOpts.Nodup := by
  unfold FileArg.create FileArg.construct at h
  cases hc : Arg.construct A opt with
  | none => simp [hc] at h
  | some a =>
    obtain ⟨alt, _, h2, h3⟩ := Arg_construct_some A opt a hc
    simp only [hc, Option.some.injEq] at h
    rw [← h]
    exact nodup_push A _ alt (by simpa [AnyArg.toArg] using h3) h2 hA

theorem AnyArg_withArg_toArg (x : AnyArg) (b : Arg) : (x.withArg b).toArg = b := by
  cases x <;> rfl

theorem Args_alternate_nodup (A A1 : Args) (k : Nat) (a : Str)
    (h : Args.alternate A k a = some A1) (hA : A.allOpts.Nodup) : A1.allOpts.Nodup := by
  unfold Args.alternate at h
  cases hx : A.args_[k]? with
  | none =>
    simp only [hx, Option.some.injEq] at h
    rw [← h]
    exact hA
  | some x =>
    cases hb : Arg.alternate A x.toArg a with
    | none => simp [hx, hb] at h
    | some b =>
      obtain ⟨alt, _, h2, h3⟩ := Arg_alternate_some A x.toArg b a hb
      simp only [hx, hb, Option.some.injEq] at h
      have hnot : alt ∉ A.allOpts := by
        intro hmem
        rw [(Args_exists_iff A alt).mpr hmem] at h2
        exact Bool.noConfusion h2
      obtain ⟨hk, hxk⟩ := List.getElem?_eq_some.mp hx
      have hsplit : A.args_ = A.args_.take k ++ x :: A.args_.drop (k + 1) := by
        rw [← hxk, ← List.drop_eq_getElem_cons hk, List.take_append_drop]
      have hset : A.args_.set k (x.withArg b)
          = A.args_.take k ++ x.withArg b :: A.args_.drop (k + 1) := by
        rw [List.set_eq_take_append_cons_drop, if_pos hk]
      have hold : A.allOpts
          = ((A.args_.take k).map (fun a => a.toArg.opts_)).flatten
            ++ (x.toArg.opts_
              ++ ((A.args_.drop (k + 1)).map (fun a => a.toArg.opts_)).flatten) := by
        conv_lhs => rw [Args.allOpts, hsplit]
        simp
      have hnew : A1.allOpts
          = ((A.args_.take k).map (fun a => a.toArg.opts_)).flatten
            ++ (optsInsert alt x.toArg.opts_
              ++ ((A.args_.drop (k + 1)).map (fun a => a.toArg.opts_)).flatten) := by
        rw [← h, Args.allOpts]
        simp only [hset]
        simp [AnyArg_withArg_toArg, h3]
      have hnotx : alt ∉ x.toArg.opts_ := by
        intro hm
        apply hnot
        rw [hold]
        simp [hm]
      have hperm : A1.allOpts.Perm (alt :: A.allOpts) := by
        rw [hnew, hold]
        refine List.Perm.trans ?_ List.perm_middle
        apply List.Perm.append_left
        exact List.Perm.append_right _ (optsInsert_perm alt _ hnotx)
      rw [hperm.nodup_iff]
      exact List.nodup_cons.mpr ⟨hnot, hA⟩

theorem Args_declareAll_nodup (decls : List Decl) :
    ∀ (A A1 : Args), Args.declareAll A decls = some A1 → A.allOpts.Nodup →
      A1.allOpts.Nodup := by
  induction decls with
  | nil =>
    intro A A1 h hA
    simp only [Args.declareAll, Option.some.injEq] at h
    rw [← h]
    exact hA
  | cons d ds ih =>
    intro A A1 h hA
    unfold Args.declareAll at h
    cases hd : Args.declare A d with
    | none => simp [hd] at h
    | some A2 =>
      simp only [hd] at h
      apply ih A2 A1 h
      cases d with
      | flag opt => exact FlagArg_create_nodup A A2 opt hd hA
      | value opt reader init => exact ValueArg_create_nodup A A2 opt reader init hd hA
      | file opt reader init => exact FileArg_create_nodup A A2 opt reader init hd hA
      | alternate k a => exact Args_alternate_nodup A A2 k a hd hA

/-- C14: every sequence of argument constructions and `alternate` calls that
starts from the empty registry and meets no fatal error leaves a registry in
which no alias token belongs to two different arguments (and none is held
twice by one argument); and in any registry, constructing an argument with,
or adding through `alternate`, a name whose token belongs to a registered
argument is a fatal error. -/
theorem registry_aliases_unique (decls : List Decl) (A : Args)
    (h : Args.declareAll emptyRegistry decls = some A) :
    AliasesUnique A
    ∧ (∀ x ∈ A.args_, x.toArg.opts_.Nodup)
    ∧ (∀ (B : Args) (a alt : Str), aliasToken a = some alt → B.exists alt = true →
        FlagArg.create B a = none
        ∧ (∀ (T : Type) (reader : Str → Option T) (init : T),
            ValueArg.create B a reader init = none ∧ FileArg.create B a reader init = none)
        ∧ (∀ k, k < B.args_.length → Args.alternate B k a = none)) := by
  have hnodup := Args_declareAll_nodup decls emptyRegistry A h (by simp [Args.allOpts, emptyRegistry])
  rw [Args.allOpts, List.nodup_flatten] at hnodup
  refine ⟨hnodup.2, ?_, ?_⟩
  · intro x hx
    exact hnodup.1 _ (List.mem_map.mpr ⟨x, hx, rfl⟩)
  · intro B a alt ha he
    have halt : ∀ x : Arg, Arg.alternate B x a = none :=
      fun x => Arg_alternate_registered B x a alt ha he
    have hcon : Arg.construct B a = none := by
      simp [Arg.construct, halt]
    refine ⟨by simp [FlagArg.create, FlagArg.construct, hcon], ?_, ?_⟩
    · intro T reader init
      constructor
      · simp [ValueArg.create, ValueArg.construct, hcon]
      · simp [FileArg.create, FileArg.construct, hcon]
    · intro k hk
      unfold Args.alternate
      rw [List.getElem?_eq_getElem hk]
      simp [halt]

/-- Witness of C14: `-h` with the alternate `--help`, then `-i`; a further
argument named `help` is a fatal error. -/
theorem registry_aliases_unique_witness :
    (∃ A, Args.declareAll emptyRegistry
        [Decl.flag "h".toList, Decl.alternate 0 "help".toList,
          Decl.value "i".toList ArgReader_int 0] = some A
      ∧ A.allOpts = ["--help".toList, "-h".toList, "-i".toList]
      ∧ AliasesUnique A)
    ∧ Args.declareAll emptyRegistry
        [Decl.flag "h".toList, Decl.alternate 0 "help".toList,
          Decl.flag "help".toList] = none :=
  ⟨⟨_, rfl, rfl, (registry_aliases_unique
      [Decl.flag "h".toList, Decl.alternate 0 "help".toList,
        Decl.value "i".toList ArgReader_int 0] _ rfl).1⟩, rfl⟩

/-! ## Properties of the script entry point -/

theorem scriptTokens_skipSpace (buf : Str) :
    scriptTokens [] (skipSpace buf) = scriptTokens [] buf := by
  induction buf with
  | nil => rfl
  | cons c cs ih =>
    by_cases hc : isSpace c = true
    · simp [skipSpace, scriptTokens, hc, ih]
    · simp [skipSpace, hc]

theorem scriptTokens_word (cur buf : Str) :
    scriptTokens cur buf =
      match buf.dropWhile (fun x => !isSpace x) with
      | [] => []
      | _ :: rest =>
        if cur ++ buf.takeWhile (fun x => !isSpace x) = [] then scriptTokens [] rest
        else (cur ++ buf.takeWhile (fun x => !isSpace x)) :: scriptTokens [] rest := by
  induction buf generalizing cur with
  | nil => simp [scriptTokens]
  | cons c cs ih =>
    by_cases hc : isSpace c = true
    · simp [scriptTokens, hc, List.dropWhile, List.takeWhile]
    · have hc2 : isSpace c = false := by simpa using hc
      rw [scriptTokens]
      simp only [hc2, Bool.false_eq_true, if_false, List.dropWhile, List.takeWhile,
        Bool.not_false]
      rw [ih (cur ++ [c])]
      simp

theorem tokenLoop_eq (fuel : Nat) :
    ∀ (buf s : Str) (argv : List Str), buf.length + 1 ≤ fuel →
      tokenLoop fuel (IStream.ofString buf) s argv = some (argv ++ scriptTokens [] buf) := by
  induction fuel with
  | zero => intro buf s argv h; omega
  | succ fuel ih =>
    intro buf s argv h
    rw [← scriptTokens_skipSpace buf]
    have hskip : (skipSpace buf).length ≤ buf.length := by
      clear h ih
      induction buf with
      | nil => simp [skipSpace]
      | cons c cs ihb =>
        by_cases hc : isSpace c = true
        · simp only [skipSpace, hc, if_true, List.length_cons]; omega
        · simp [skipSpace, hc]
    unfold tokenLoop extractWord
    simp only [IStream.good, IStream.ofString, Bool.not_false, Bool.and_self, if_true]
    cases hsk : skipSpace buf with
    | nil => simp [IStream.eof, scriptTokens]
    | cons c cs =>
      rw [hsk] at hskip
      rw [scriptTokens_word [] (c :: cs)]
      simp only [IStream.eof, List.nil_append]
      have hdrop : ((c :: cs).dropWhile (fun x => !isSpace x)).length ≤ (c :: cs).length :=
        (List.dropWhile_sublist _).length_le
      cases hd : (c :: cs).dropWhile (fun x => !isSpace x) with
      | nil => simp
      | cons sp rest =>
        rw [hd] at hdrop
        have hsp : isSpace sp = true := by
          have := List.head_dropWhile_not (fun x => !isSpace x) (c :: cs) (by rw [hd]; simp)
          simpa [hd] using this
        have hword : (c :: cs).takeWhile (fun x => !isSpace x) ≠ [] := by
          have hcn : isSpace c = false := by
            cases hsc : isSpace c with
            | false => rfl
            | true =>
              exfalso
              have hb : buf ≠ [] := by
                intro e
                rw [e] at hsk
                simp [skipSpace] at hsk
              clear hd hdrop hskip h ih
              induction buf with
              | nil => exact hb rfl
              | cons b bs ihb =>
                by_cases hbs : isSpace b = true
                · simp only [skipSpace, hbs, if_true] at hsk
                  by_cases hbn : bs = []
                  · rw [hbn] at hsk
                    simp [skipSpace] at hsk
                  · exact ihb hsk hbn
                · simp only [skipSpace, hbs, Bool.false_eq_true, if_false] at hsk
                  injection hsk with h1 h2
                  rw [h1] at hbs
                  exact hbs hsc
          simp [List.takeWhile, hcn]
        have hsum : ((c :: cs).takeWhile (fun x => !isSpace x)).length
            + ((c :: cs).dropWhile (fun x => !isSpace x)).length = (c :: cs).length := by
          rw [← List.length_append, List.takeWhile_append_dropWhile]
        have hpos : 0 < ((c :: cs).takeWhile (fun x => !isSpace x)).length :=
          List.length_pos.mpr hword
        rw [hd] at hsum
        simp only [List.isEmpty_cons, Bool.false_eq_true, if_false, hword]
        have hrec := ih (sp :: rest) ((c :: cs).takeWhile (fun x => !isSpace x))
          (argv ++ [(c :: cs).takeWhile (fun x => !isSpace x)])
          (by simp only [List.length_cons] at hsum hskip h ⊢; omega)
        simp only [IStream.ofString] at hrec
        rw [hrec]
        simp [scriptTokens, hsp]

theorem Args_read_script (fs : Str → Option Str) (fuel : Nat) (A : Args) (argv : List Str)
    (contents : Str) (hscript : isScriptForm argv = true)
    (hfile : fs (tokenAt argv 2) = some contents) :
    Args.read fs (fuel + 1) A argv = Args.read fs fuel A (scriptArgv contents) := by
  rw [Args.read]
  simp [hscript, hfile, scriptArgv]

/-- C17 (the code at the failing input): for the script text `-a 1`, without
white space after the last token, the token loop pushes `-a` alone, so the
vector handed to `read` is `<ignore> -a`, while the tokens of the text are
`-a` and `1`. With a line end after `1` both tokens are handed over. -/
theorem scriptArgv_drops_last_token :
    tokenLoop ("-a 1".toList.length + 1)
        (IStream.ofString (stripComments false "-a 1".toList)) [] ["<ignore>".toList]
      = some ["<ignore>".toList, "-a".toList]
    ∧ scriptArgv "-a 1".toList = ["<ignore>".toList, "-a".toList]
    ∧ allTokens [] (stripComments false "-a 1".toList) = ["-a".toList, "1".toList]
    ∧ scriptArgv "-a 1\n".toList = ["<ignore>".toList, "-a".toList, "1".toList] := by
  decide

/-! ## Properties of the plain readers -/

theorem getlineLoop_of_returned {σ : Type} (d : Char) (body : Str → σ → Step σ)
    (buf : Str) (st st1 : σ)
    (h : foldLines body (segments d buf) st = LinesExit.returned st1) :
    ∃ is, getlineLoop d body (buf.length + 1) (IStream.ofString buf) st
        = some (LoopExit.returned is st1) ∧ is.fail = true := by
  have hag := getlineLoop_agrees d body (buf.length + 1) buf st (le_refl _)
  rw [h] at hag
  cases hl : getlineLoop d body (buf.length + 1) (IStream.ofString buf) st with
  | none => rw [hl] at hag; simp [LoopAgrees] at hag
  | some e =>
    rw [hl] at hag
    cases e with
    | finished is st2 => simp [LoopAgrees] at hag
    | returned is st2 =>
      simp only [LoopAgrees] at hag
      exact ⟨is, by rw [hag.1], hag.2⟩
    | undefined => simp [LoopAgrees] at hag

theorem foldLines_plain_ok (f : Int → List Int → List Int) (R : Str → Option Int) :
    ∀ (lines : List Str) (vs : List Int) (s : List Int),
      lines.map R = vs.map some →
      foldLines (fun line s => match R line with
          | none => Step.failed
          | some v => Step.next (f v s)) lines s
        = LinesExit.finished (vs.foldl (fun s v => f v s) s) := by
  intro lines
  induction lines with
  | nil =>
    intro vs s h
    cases vs with
    | nil => rfl
    | cons v vs1 => simp at h
  | cons line rest ih =>
    intro vs s h
    cases vs with
    | nil => simp at h
    | cons v vs1 =>
      simp only [List.map_cons, List.cons.injEq] at h
      simp only [foldLines, h.1, List.foldl_cons]
      exact ih vs1 (f v s) h.2

theorem foldLines_plain_fail (f : Int → List Int → List Int) (R : Str → Option Int) :
    ∀ (pre : List Str) (bad : Str) (post : List Str) (vs : List Int) (s : List Int),
      pre.map R = vs.map some → R bad = none →
      foldLines (fun line s => match R line with
          | none => Step.failed
          | some v => Step.next (f v s)) (pre ++ bad :: post) s
        = LinesExit.returned (vs.foldl (fun s v => f v s) s) := by
  intro pre
  induction pre with
  | nil =>
    intro bad post vs s h hbad
    cases vs with
    | nil => simp [foldLines, hbad]
    | cons v vs1 => simp at h
  | cons line rest ih =>
    intro bad post vs s h hbad
    cases vs with
    | nil => simp at h
    | cons v vs1 =>
      simp only [List.map_cons, List.cons.injEq] at h
      simp only [List.cons_append, foldLines, h.1, List.foldl_cons]
      exact ih bad post vs1 (f v s) h.2 hbad

theorem lines_parse_or_fail (R : Str → Option Int) :
    ∀ (lines : List Str),
      (∃ vs : List Int, lines.map R = vs.map some)
      ∨ (∃ (pre : List Str) (bad : Str) (post : List Str) (vs : List Int),
          lines = pre ++ bad :: post ∧ pre.map R = vs.map some ∧ R bad = none) := by
  intro lines
  induction lines with
  | nil => exact Or.inl ⟨[], rfl⟩
  | cons line rest ih =>
    cases hl : R line with
    | none => exact Or.inr ⟨[], line, rest, [], rfl, rfl, hl⟩
    | some v =>
      rcases ih with ⟨vs, hvs⟩ | ⟨pre, bad, post, vs, h1, h2, h3⟩
      · exact Or.inl ⟨v :: vs, by simp [hl, hvs]⟩
      · exact Or.inr ⟨line :: pre, bad, post, v :: vs, by simp [h1], by simp [hl, h2], h3⟩

theorem SequenceArgReader_ok (d : Char) (R : Str → Option Int) (input : Str)
    (vs : List Int) (h : (segments d input).map R = vs.map some) :
    SequenceArgReader d R (IStream.ofString input) = some (ReadOutcome.done atEof vs) := by
  have hfold := foldLines_plain_ok (fun v s => s ++ [v]) R (segments d input) vs [] h
  rw [foldl_push] at hfold
  have hl := getlineLoop_of_finished d (SequenceArgReader.body R) input [] _ hfold
  unfold SequenceArgReader
  simp only [IStream.ofString] at hl ⊢
  rw [hl]
  simp [IStream.eof, IStream.clearToEof, atEof]

theorem AssociativeArgReader_ok (d : Char) (R : Str → Option Int) (input : Str)
    (vs : List Int) (h : (segments d input).map R = vs.map some) :
    AssociativeArgReader d R (IStream.ofString input)
      = some (ReadOutcome.done atEof (vs.foldl (fun a v => setInsert v a) [])) := by
  have hfold := foldLines_plain_ok (fun v a => setInsert v a) R (segments d input) vs [] h
  have hl := getlineLoop_of_finished d (AssociativeArgReader.body R) input [] _ hfold
  unfold AssociativeArgReader
  simp only [IStream.ofString] at hl ⊢
  rw [hl]
  simp [IStream.eof, IStream.clearToEof, atEof]

theorem SequenceArgReader_fail (d : Char) (R : Str → Option Int) (input : Str)
    (pre : List Str) (bad : Str) (post : List Str) (vs : List Int)
    (hseg : segments d input = pre ++ bad :: post) (hpre : pre.map R = vs.map some)
    (hbad : R bad = none) :
    ∃ is, SequenceArgReader d R (IStream.ofString input) = some (ReadOutcome.done is vs)
      ∧ is.fail = true := by
  have hfold := foldLines_plain_fail (fun v s => s ++ [v]) R pre bad post vs [] hpre hbad
  rw [foldl_push, ← hseg] at hfold
  obtain ⟨is, hl, hfail⟩ := getlineLoop_of_returned d (SequenceArgReader.body R) input [] _ hfold
  refine ⟨is, ?_, hfail⟩
  unfold SequenceArgReader
  simp only [IStream.ofString] at hl ⊢
  rw [hl]
  simp

theorem AssociativeArgReader_fail (d : Char) (R : Str → Option Int) (input : Str)
    (pre : List Str) (bad : Str) (post : List Str) (vs : List Int)
    (hseg : segments d input = pre ++ bad :: post) (hpre : pre.map R = vs.map some)
    (hbad : R bad = none) :
    ∃ is, AssociativeArgReader d R (IStream.ofString input)
        = some (ReadOutcome.done is (vs.foldl (fun a v => setInsert v a) []))
      ∧ is.fail = true := by
  have hfold := foldLines_plain_fail (fun v a => setInsert v a) R pre bad post vs [] hpre hbad
  rw [← hseg] at hfold
  obtain ⟨is, hl, hfail⟩ :=
    getlineLoop_of_returned d (AssociativeArgReader.body R) input [] _ hfold
  refine ⟨is, ?_, hfail⟩
  unfold AssociativeArgReader
  simp only [IStream.ofString] at hl ⊢
  rw [hl]

/-- Counterexample to C18: the non-empty segments of `"1..2"` are `1` and `2`
and both parse, yet `SequenceArgReader` and `AssociativeArgReader` fail: the
empty segment between the delimiters is handed to the element reader too. -/
theorem plain_readers_fail_on_empty_segment :
    segments '.' "1..2".toList = ["1".toList, [], "2".toList]
    ∧ ArgReader_int "1".toList = some 1
    ∧ ArgReader_int "2".toList = some 2
    ∧ SequenceArgReader '.' ArgReader_int (IStream.ofString "1..2".toList)
        = some (ReadOutcome.done
            { buf := "2".toList, state := { eofbit := false, failbit := true } } [1])
    ∧ AssociativeArgReader '.' ArgReader_int (IStream.ofString "1..2".toList)
        = some (ReadOutcome.done
            { buf := "2".toList, state := { eofbit := false, failbit := true } } [1]) := by
  decide

/-- C18 (amended): the plain readers hand EVERY segment that `std::getline`
returns (an empty one included) to the element reader. When all segments
parse, `SequenceArgReader` yields their values in encounter order and
`AssociativeArgReader` the set of them, with the stream at end of input and
not failed; when some segment does not parse the stream is left failed (with
the values of the segments before the first such one); and the read fails
exactly when some segment fails the element reader. -/
theorem plain_readers_spec (Delim : Char) (R : Str → Option Int) (input : Str) :
    (∀ vs : List Int, (segments Delim input).map R = vs.map some →
      SequenceArgReader Delim R (IStream.ofString input) = some (ReadOutcome.done atEof vs)
      ∧ AssociativeArgReader Delim R (IStream.ofString input)
          = some (ReadOutcome.done atEof (vs.foldl (fun a v => setInsert v a) []))
      ∧ atEof.fail = false ∧ atEof.eof = true)
    ∧ (∀ (pre : List Str) (bad : Str) (post : List Str) (vs : List Int),
      segments Delim input = pre ++ bad :: post → pre.map R = vs.map some → R bad = none →
      (∃ is, SequenceArgReader Delim R (IStream.ofString input)
          = some (ReadOutcome.done is vs) ∧ is.fail = true)
      ∧ (∃ is, AssociativeArgReader Delim R (IStream.ofString input)
          = some (ReadOutcome.done is (vs.foldl (fun a v => setInsert v a) []))
        ∧ is.fail = true))
    ∧ ((∃ is s, SequenceArgReader Delim R (IStream.ofString input)
          = some (ReadOutcome.done is s) ∧ is.fail = true)
        ↔ ∃ seg ∈ segments Delim input, R seg = none)
    ∧ ((∃ is a, AssociativeArgReader Delim R (IStream.ofString input)
          = some (ReadOutcome.done is a) ∧ is.fail = true)
        ↔ ∃ seg ∈ segments Delim input, R seg = none) := by
  have hnone : ∀ vs : List Int, (segments Delim input).map R = vs.map some →
      ¬ ∃ seg ∈ segments Delim input, R seg = none := by
    rintro vs hvs ⟨seg, hmem, hseg⟩
    have : R seg ∈ (segments Delim input).map R := List.mem_map.mpr ⟨seg, hmem, rfl⟩
    rw [hvs, hseg] at this
    simp at this
  refine ⟨fun vs h => ⟨SequenceArgReader_ok Delim R input vs h,
      AssociativeArgReader_ok Delim R input vs h, rfl, rfl⟩,
    fun pre bad post vs h1 h2 h3 => ⟨SequenceArgReader_fail Delim R input pre bad post vs h1 h2 h3,
      AssociativeArgReader_fail Delim R input pre bad post vs h1 h2 h3⟩, ?_, ?_⟩
  · constructor
    · rintro ⟨is, s, hrd, hfail⟩
      rcases lines_parse_or_fail R (segments Delim input) with ⟨vs, hvs⟩ | ⟨pre, bad, post, vs, h1, _, h3⟩
      · rw [SequenceArgReader_ok Delim R input vs hvs] at hrd
        simp only [Option.some.injEq, ReadOutcome.done.injEq] at hrd
        rw [← hrd.1] at hfail
        simp [atEof, IStream.fail] at hfail
      · exact ⟨bad, by rw [h1]; simp, h3⟩
    · intro hex
      rcases lines_parse_or_fail R (segments Delim input) with ⟨vs, hvs⟩ | ⟨pre, bad, post, vs, h1, h2, h3⟩
      · exact absurd hex (hnone vs hvs)
      · obtain ⟨is, h4, h5⟩ := SequenceArgReader_fail Delim R input pre bad post vs h1 h2 h3
        exact ⟨is, vs, h4, h5⟩
  · constructor
    · rintro ⟨is, s, hrd, hfail⟩
      rcases lines_parse_or_fail R (segments Delim input) with ⟨vs, hvs⟩ | ⟨pre, bad, post, vs, h1, _, h3⟩
      · rw [AssociativeArgReader_ok Delim R input vs hvs] at hrd
        simp only [Option.some.injEq, ReadOutcome.done.injEq] at hrd
        rw [← hrd.1] at hfail
        simp [atEof, IStream.fail] at hfail
      · exact ⟨bad, by rw [h1]; simp, h3⟩
    · intro hex
      rcases lines_parse_or_fail R (segments Delim input) with ⟨vs, hvs⟩ | ⟨pre, bad, post, vs, h1, h2, h3⟩
      · exact absurd hex (hnone vs hvs)
      · obtain ⟨is, h4, h5⟩ := AssociativeArgReader_fail Delim R input pre bad post vs h1 h2 h3
        exact ⟨is, _, h4, h5⟩

/-- Witness of C18 (amended): `"3.1.3"` read by both plain readers. -/
theorem plain_readers_spec_witness :
    SequenceArgReader '.' ArgReader_int (IStream.ofString "3.1.3".toList)
        = some (ReadOutcome.done atEof [3, 1, 3])
    ∧ AssociativeArgReader '.' ArgReader_int (IStream.ofString "3.1.3".toList)
        = some (ReadOutcome.done atEof [1, 3]) :=
  have h := (plain_readers_spec '.' ArgReader_int "3.1.3".toList).1 [3, 1, 3] (by decide)
  ⟨h.1, h.2.1⟩

/-! ## The set reader against the sequence reader -/

theorem foldl_max_le (usages : List Str) :
    ∀ (m : Nat), m ≤ usages.foldl (fun max_len u => max max_len u.length) m
      ∧ ∀ u ∈ usages, u.length ≤ usages.foldl (fun max_len u => max max_len u.length) m := by
  induction usages with
  | nil => intro m; simp
  | cons u us ih =>
    intro m
    rw [List.foldl_cons]
    obtain ⟨h1, h2⟩ := ih (max m u.length)
    refine ⟨le_trans (le_max_left _ _) h1, ?_⟩
    intro w hw
    rcases List.mem_cons.mp hw with rfl | hw
    · exact le_trans (le_max_right _ _) h1
    · exact h2 w hw

theorem foldl_max_attained (usages : List Str) :
    ∀ (m : Nat), usages.foldl (fun max_len u => max max_len u.length) m = m
      ∨ ∃ u ∈ usages, u.length = usages.foldl (fun max_len u => max max_len u.length) m := by
  induction usages with
  | nil => intro m; simp
  | cons u us ih =>
    intro m
    rw [List.foldl_cons]
    rcases ih (max m u.length) with h | ⟨w, hw, hlen⟩
    · rw [h]
      rcases le_total m u.length with hmu | hmu
      · exact Or.inr ⟨u, by simp, by rw [max_eq_right hmu]⟩
      · exact Or.inl (max_eq_left hmu)
    · exact Or.inr ⟨w, List.mem_cons_of_mem _ hw, hlen⟩

theorem usageLoop_eq (indent max_len : Nat) (args : List AnyArg) :
    Args.usageLoop indent max_len
        (args.map (fun a => (a.toArg.usageEntry, a.toArg.description_)))
      = List.intercalate ['\n'] (args.map (fun a => usageLine indent max_len a.toArg)) := by
  induction args with
  | nil => rfl
  | cons a rest ih =>
    cases rest with
    | nil => simp [Args.usageLoop, usageLine, List.intercalate]
    | cons b rest1 =>
      rw [List.map_cons, Args.usageLoop, ih]
      simp [usageLine, List.intercalate, List.intersperse]

theorem not_mem_usageEntry (a : Arg) (c : Char) (hc : c ≠ ' ')
    (hopts : ∀ o ∈ a.opts_, c ∉ o) (husage : c ∉ a.usage_) : c ∉ a.usageEntry := by
  have hfold : ∀ (opts : List Str) (acc : Str), c ∉ acc → (∀ o ∈ opts, c ∉ o) →
      c ∉ opts.foldl (fun oss opt => oss ++ opt ++ [' ']) acc := by
    intro opts
    induction opts with
    | nil => intro acc h _; exact h
    | cons o os ih =>
      intro acc h ho
      rw [List.foldl_cons]
      apply ih
      · simp only [List.mem_append, List.mem_singleton, not_or]
        exact ⟨⟨h, ho o (by simp)⟩, hc⟩
      · intro o1 ho1
        exact ho o1 (List.mem_cons_of_mem _ ho1)
  unfold Arg.usageEntry
  simp only [List.mem_append, not_or]
  refine ⟨⟨hfold a.opts_ [] (by simp) hopts, husage⟩, ?_⟩
  split
  · simpa using hc
  · simp

/-- C20: `Args::usage(indent)` is the lines of the registered arguments (in
the order `std::sort` leaves them) joined by line ends; the line of an
argument is `indent` blanks, its alias and hint string `u`, `max_len - |u|`
dots where `max_len` is the greatest length of such a string, `"... "`, and
its description. So every description starts at column `indent + max_len + 4`,
and when no alias, hint or description holds a line end, no line does. -/
theorem Args_usage_aligned (indent : Nat) (A : Args) :
    Args.usage indent A
        = List.intercalate ['\n']
            ((Args.sortArgs A.args_).map (fun a =>
              usageLine indent
                (Args.maxLen ((Args.sortArgs A.args_).map (fun a => a.toArg.usageEntry)))
                a.toArg))
    ∧ (Args.sortArgs A.args_).Perm A.args_
    ∧ (∀ a ∈ A.args_,
        a.toArg.usageEntry.length
          ≤ Args.maxLen ((Args.sortArgs A.args_).map (fun a => a.toArg.usageEntry))
        ∧ ∃ dots : Nat,
          usageLine indent
              (Args.maxLen ((Args.sortArgs A.args_).map (fun a => a.toArg.usageEntry)))
              a.toArg
            = (List.replicate indent ' ' ++ a.toArg.usageEntry ++ List.replicate dots '.'
                ++ "... ".toList) ++ a.toArg.description_
          ∧ (List.replicate indent ' ' ++ a.toArg.usageEntry ++ List.replicate dots '.'
                ++ "... ".toList).length
              = indent
                + Args.maxLen ((Args.sortArgs A.args_).map (fun a => a.toArg.usageEntry))
                + 4)
    ∧ (A.args_ = [] ∨ ∃ a ∈ A.args_, a.toArg.usageEntry.length
        = Args.maxLen ((Args.sortArgs A.args_).map (fun a => a.toArg.usageEntry)))
    ∧ ((∀ a ∈ A.args_, (∀ o ∈ a.toArg.opts_, '\n' ∉ o) ∧ '\n' ∉ a.toArg.usage_
          ∧ '\n' ∉ a.toArg.description_) →
        ∀ a ∈ A.args_,
          '\n' ∉ usageLine indent
            (Args.maxLen ((Args.sortArgs A.args_).map (fun a => a.toArg.usageEntry)))
            a.toArg) := by
  have hperm : (Args.sortArgs A.args_).Perm A.args_ := List.perm_insertionSort _ _
  have hle : ∀ a ∈ A.args_, a.toArg.usageEntry.length
      ≤ Args.maxLen ((Args.sortArgs A.args_).map (fun a => a.toArg.usageEntry)) := by
    intro a ha
    apply (foldl_max_le _ 0).2
    exact List.mem_map.mpr ⟨a, hperm.symm.subset ha, rfl⟩
  refine ⟨usageLoop_eq _ _ _, hperm, ?_, ?_, ?_⟩
  · intro a ha
    refine ⟨hle a ha, _, rfl, ?_⟩
    have := hle a ha
    simp only [List.length_append, List.length_replicate]
    have h4 : "... ".toList.length = 4 := rfl
    rw [h4]
    omega
  · rcases foldl_max_attained ((Args.sortArgs A.args_).map (fun a => a.toArg.usageEntry)) 0
      with h | ⟨u, hu, hlen⟩
    · by_cases hA : A.args_ = []
      · exact Or.inl hA
      · right
        obtain ⟨a, ha⟩ := List.exists_mem_of_ne_nil _ hA
        refine ⟨a, ha, ?_⟩
        have := hle a ha
        unfold Args.maxLen at this ⊢
        rw [h] at this ⊢
        omega
    · obtain ⟨a, ha, rfl⟩ := List.mem_map.mp hu
      exact Or.inr ⟨a, hperm.subset ha, hlen⟩
  · intro hno a ha
    obtain ⟨h1, h2, h3⟩ := hno a ha
    have hentry := not_mem_usageEntry a.toArg '\n' (by decide) h1 h2
    unfold usageLine
    simp only [List.mem_append, not_or]
    refine ⟨⟨⟨⟨?_, hentry⟩, ?_⟩, by decide⟩, h3⟩
    · intro hmem
      exact absurd (List.eq_of_mem_replicate hmem) (by decide)
    · intro hmem
      exact absurd (List.eq_of_mem_replicate hmem) (by decide)

/-- Witness of C20: the listing of `-i`, `-h` and `-f` with indent 2. -/
theorem Args_usage_aligned_witness :
    Args.usage 2 { emptyRegistry with
        args_ := [AnyArg.value value_i, AnyArg.flag flag_h, AnyArg.file file_f] }
      = "  -f <path> ... File Arg\n  -h .......... Flag Arg\n  -i <arg> .... Value Arg".toList :=
  ((Args_usage_aligned 2 { emptyRegistry with
      args_ := [AnyArg.value value_i, AnyArg.flag flag_h, AnyArg.file file_f] }).1).trans
    (by decide)

/-! ## Reading twice -/

theorem FlagArg_read_idem (a : FlagArg) (argv : List Str) :
    (a.read argv).1.read argv = a.read argv := by
  unfold FlagArg.read
  simp only [Arg.get_appearances]
  cases h : appearancesFrom a.opts_ 1 argv.tail with
  | nil => simp [h]
  | cons i rest => simp [h]

theorem ValueArg_read_idem {T : Type} (a : ValueArg T) (argv : List Str) :
    (a.read argv).1.read argv = a.read argv := by
  unfold ValueArg.read
  simp only [Arg.get_appearances, Arg.survivable_error]
  cases h : appearancesFrom a.opts_ 1 argv.tail with
  | nil => simp [h]
  | cons i rest =>
    by_cases hc : i = argv.length - 1 ∨ startsWithDash (tokenAt argv (i + 1)) = true
    · simp [h, hc]
    · cases hr : a.reader_ (tokenAt argv (i + 1)) with
      | none => simp [h, hc, hr]
      | some temp => simp [h, hc, hr]

theorem FileArg_read_idem {T : Type} (fs : Str → Option Str) (a : FileArg T)
    (argv : List Str) :
    (a.read fs argv).1.read fs argv = a.read fs argv := by
  unfold FileArg.read FileArg.load
  simp only [Arg.get_appearances, Arg.survivable_error]
  cases h : appearancesFrom a.opts_ 1 argv.tail with
  | nil =>
    cases hp : fs a.path_ with
    | none => simp [h, hp]
    | some contents =>
      cases hr : a.reader_ contents with
      | none => simp [h, hp, hr]
      | some temp => simp [h, hp, hr]
  | cons i rest =>
    by_cases hc : i = argv.length - 1 ∨ startsWithDash (tokenAt argv (i + 1)) = true
    · simp [h, hc]
    · cases hp : fs (tokenAt argv (i + 1)) with
      | none => simp [h, hc, hp]
      | some contents =>
        cases hr : a.reader_ contents with
        | none => simp [h, hc, hp, hr]
        | some temp => simp [h, hc, hp, hr]

theorem AnyArg_read_idem (fs : Str → Option Str) (a : AnyArg) (argv : List Str) :
    AnyArg.read fs (a.read fs argv).1 argv = a.read fs argv := by
  cases a with
  | flag a => simp [AnyArg.read, FlagArg_read_idem]
  | value a => simp [AnyArg.read, ValueArg_read_idem]
  | file a => simp [AnyArg.read, FileArg_read_idem]

theorem readArgs_map_read (fs : Str → Option Str) (argv : List Str) :
    ∀ (args : List AnyArg) (k : Nat) (errors : List Nat) (used : List Bool),
      Args.readArgs fs argv k (args.map (fun a => (a.read fs argv).1)) errors used
        = Args.readArgs fs argv k args errors used := by
  intro args
  induction args with
  | nil => intro k errors used; rfl
  | cons a rest ih =>
    intro k errors used
    simp only [List.map_cons, Args.readArgs, AnyArg_read_idem, ih]

theorem readArgs_errors_append (fs : Str → Option Str) (argv : List Str) :
    ∀ (args : List AnyArg) (k : Nat) (errors : List Nat) (used : List Bool),
      (Args.readArgs fs argv k args errors used).2.1
          = errors ++ (Args.readArgs fs argv k args [] used).2.1
      ∧ (Args.readArgs fs argv k args errors used).2.2
          = (Args.readArgs fs argv k args [] used).2.2 := by
  intro args
  induction args with
  | nil => intro k errors used; simp [Args.readArgs]
  | cons a rest ih =>
    intro k errors used
    simp only [Args.readArgs]
    cases he : (a.read fs argv).1.error with
    | true =>
      simp only [if_true, List.nil_append]
      rw [(ih (k + 1) (errors ++ [k]) _).1, (ih (k + 1) [k] _).1,
        (ih (k + 1) (errors ++ [k]) _).2, (ih (k + 1) [k] _).2]
      simp
    | false =>
      simp only [Bool.false_eq_true, if_false]
      exact ih (k + 1) errors _

theorem readTokens_twice (fs : Str → Option Str) (A : Args) (argv : List Str) :
    ∃ (E : List Nat) (U N : List Str),
      (Args.readTokens fs A argv).errors_ = A.errors_ ++ E
      ∧ (Args.readTokens fs A argv).unrecognized_ = A.unrecognized_ ++ U
      ∧ (Args.readTokens fs A argv).anonymous_ = A.anonymous_ ++ N
      ∧ ∀ (e : List Nat) (u n : List Str),
        Args.readTokens fs { Args.readTokens fs A argv with
            errors_ := e, unrecognized_ := u, anonymous_ := n } argv
          = { args_ := (Args.readTokens fs A argv).args_, errors_ := e ++ E,
              unrecognized_ := u ++ U, anonymous_ := n ++ N } := by
  refine ⟨(Args.readArgs fs argv 0 A.args_ [] (List.replicate argv.length false)).2.1,
    (Args.classify argv
      (Args.readArgs fs argv 0 A.args_ [] (List.replicate argv.length false)).2.2 [] []).1,
    (Args.classify argv
      (Args.readArgs fs argv 0 A.args_ [] (List.replicate argv.length false)).2.2 [] []).2,
    (readArgs_errors_append fs argv A.args_ 0 A.errors_ _).1, ?_, ?_, ?_⟩
  · simp only [Args.readTokens, Args.classify, classify_fold, List.nil_append]
    rw [(readArgs_errors_append fs argv A.args_ 0 A.errors_ _).2]
  · simp only [Args.readTokens, Args.classify, classify_fold, List.nil_append]
    rw [(readArgs_errors_append fs argv A.args_ 0 A.errors_ _).2]
  · intro e u n
    simp only [Args.readTokens, Args.classify, classify_fold, readArgs_args,
      readArgs_map_read, List.nil_append]
    rw [(readArgs_errors_append fs argv A.args_ 0 e _).1,
      (readArgs_errors_append fs argv A.args_ 0 e _).2]

theorem Args_read_again (fs : Str → Option Str) :
    ∀ (fuel : Nat) (A : Args) (argv : List Str) (A1 : Args),
      Args.read fs fuel A argv = some A1 →
      ∃ (E : List Nat) (U N : List Str),
        A1.errors_ = A.errors_ ++ E
        ∧ A1.unrecognized_ = A.unrecognized_ ++ U
        ∧ A1.anonymous_ = A.anonymous_ ++ N
        ∧ ∀ (e : List Nat) (u n : List Str),
          Args.read fs fuel { A1 with errors_ := e, unrecognized_ := u, anonymous_ := n } argv
            = some { args_ := A1.args_, errors_ := e ++ E,
                     unrecognized_ := u ++ U, anonymous_ := n ++ N } := by
  intro fuel
  induction fuel with
  | zero =>
    intro A argv A1 h
    rw [Args.read] at h
    cases hs : isScriptForm argv with
    | true => simp [hs] at h
    | false =>
      simp only [hs, Bool.false_eq_true, if_false, Option.some.injEq] at h
      obtain ⟨E, U, N, h1, h2, h3, h4⟩ := readTokens_twice fs A argv
      rw [← h]
      refine ⟨E, U, N, h1, h2, h3, ?_⟩
      intro e u n
      rw [Args.read]
      simp only [hs, Bool.false_eq_true, if_false]
      rw [h4 e u n]
  | succ fuel ih =>
    intro A argv A1 h
    rw [Args.read] at h
    cases hs : isScriptForm argv with
    | true =>
      simp only [hs, if_true] at h
      cases hf : fs (tokenAt argv 2) with
      | none =>
        simp only [hf, Option.some.injEq] at h
        rw [← h]
        refine ⟨[], [], [], by simp, by simp, by simp, ?_⟩
        intro e u n
        rw [Args.read]
        simp [hs, hf]
      | some contents =>
        simp only [hf] at h
        obtain ⟨E, U, N, h1, h2, h3, h4⟩ := ih A _ A1 h
        refine ⟨E, U, N, h1, h2, h3, ?_⟩
        intro e u n
        rw [Args.read]
        simp only [hs, if_true, hf]
        exact h4 e u n
    | false =>
      simp only [hs, Bool.false_eq_true, if_false, Option.some.injEq] at h
      obtain ⟨E, U, N, h1, h2, h3, h4⟩ := readTokens_twice fs A argv
      rw [← h]
      refine ⟨E, U, N, h1, h2, h3, ?_⟩
      intro e u n
      rw [Args.read]
      simp only [hs, Bool.false_eq_true, if_false]
      rw [h4 e u n]

/-- Counterexample to C11: two reads of `prog --unknownflag positional1` with
an empty registry; after the second call the unrecognized and anonymous
collections hold each entry twice. -/
theorem Args_read_twice_accumulates :
    (Args.read noFiles 0 emptyRegistry
        ["prog".toList, "--unknownflag".toList, "positional1".toList]).map
      (fun A1 => (A1.unrecognized_, A1.anonymous_))
      = some (["--unknownflag".toList], ["positional1".toList])
    ∧ ((Args.read noFiles 0 emptyRegistry
        ["prog".toList, "--unknownflag".toList, "positional1".toList]).bind
      (fun A1 => Args.read noFiles 0 A1
        ["prog".toList, "--unknownflag".toList, "positional1".toList])).map
      (fun A2 => (A2.unrecognized_, A2.anonymous_))
      = some (["--unknownflag".toList, "--unknownflag".toList],
          ["positional1".toList, "positional1".toList]) := by
  decide

/-- C11 (amended): when `Args::read` returns `A1`, a second call with the same
token vector returns, and leaves every registered argument (its value and its
error message) as it was after the first call. The `errors`, `unrecognized`
and `anonymous` collections are not cleared by `read`: each call appends the
same entries, so after the second call each collection is the one after the
first call followed by these entries again; the second call reproduces the
state after the first one exactly when the three collections are put back to
what they were before the first call. -/
theorem Args_read_twice (fs : Str → Option Str) (fuel : Nat) (A : Args) (argv : List Str)
    (A1 : Args) (h : Args.read fs fuel A argv = some A1) :
    ∃ (A2 : Args) (E : List Nat) (U N : List Str),
      Args.read fs fuel A1 argv = some A2
      ∧ A2.args_ = A1.args_
      ∧ A1.errors_ = A.errors_ ++ E ∧ A2.errors_ = A1.errors_ ++ E
      ∧ A1.unrecognized_ = A.unrecognized_ ++ U ∧ A2.unrecognized_ = A1.unrecognized_ ++ U
      ∧ A1.anonymous_ = A.anonymous_ ++ N ∧ A2.anonymous_ = A1.anonymous_ ++ N
      ∧ Args.read fs fuel { A1 with errors_ := A.errors_, unrecognized_ := A.unrecognized_,
                                    anonymous_ := A.anonymous_ } argv = some A1 := by
  obtain ⟨E, U, N, h1, h2, h3, h4⟩ := Args_read_again fs fuel A argv A1 h
  refine ⟨{ args_ := A1.args_, errors_ := A1.errors_ ++ E,
            unrecognized_ := A1.unrecognized_ ++ U, anonymous_ := A1.anonymous_ ++ N },
    E, U, N, h4 A1.errors_ A1.unrecognized_ A1.anonymous_, rfl, h1, rfl, h2, rfl, h3, rfl, ?_⟩
  rw [h4 A.errors_ A.unrecognized_ A.anonymous_, ← h1, ← h2, ← h3]

/-- Witness of C11 (amended): `prog -i 5 extra` read twice with `-i`
registered. -/
theorem Args_read_twice_witness :
    ∃ (A2 : Args),
      Args.read noFiles 0
          (Args.readTokens noFiles registry_i
            ["prog".toList, "-i".toList, "5".toList, "extra".toList])
          ["prog".toList, "-i".toList, "5".toList, "extra".toList] = some A2
      ∧ A2.args_ = (Args.readTokens noFiles registry_i
            ["prog".toList, "-i".toList, "5".toList, "extra".toList]).args_ :=
  have h := Args_read_twice noFiles 0 registry_i
    ["prog".toList, "-i".toList, "5".toList, "extra".toList]
    (Args.readTokens noFiles registry_i
      ["prog".toList, "-i".toList, "5".toList, "extra".toList]) rfl
  h.elim fun A2 hA2 => hA2.elim fun _ hE => hE.elim fun _ hU => hU.elim fun _ hN =>
    ⟨A2, hN.1, hN.2.1⟩

/-! ## Absent alias, the scan, and index safety -/

theorem ValueArg_read_nil {T : Type} (a : ValueArg T) (argv : List Str)
    (happ : (a.toArg.get_appearances argv).appearances_ = []) :
    a.read argv = ({ a with toArg := a.toArg.get_appearances argv }, (0, 0)) := by
  unfold ValueArg.read
  simp only [happ]

/-- C21: when no token at an index `>= 1` equals an alias of a `FlagArg` or of
a `ValueArg`, `read` returns `(0,0)` and leaves the value and the error message
as they were. -/
theorem read_absent_alias {T : Type} (f : FlagArg) (v : ValueArg T) (argv : List Str)
    (hf : ∀ j, 1 ≤ j → j < argv.length → tokenAt argv j ∉ f.opts_)
    (hv : ∀ j, 1 ≤ j → j < argv.length → tokenAt argv j ∉ v.opts_) :
    ((f.read argv).2 = (0, 0) ∧ (f.read argv).1.val_ = f.val_
      ∧ (f.read argv).1.error_ = f.error_)
    ∧ ((v.read argv).2 = (0, 0) ∧ (v.read argv).1.val_ = v.val_
      ∧ (v.read argv).1.error_ = v.error_) := by
  constructor
  · rw [FlagArg_read_nil f argv (get_appearances_nil f.toArg argv hf)]
    exact ⟨rfl, rfl, rfl⟩
  · rw [ValueArg_read_nil v argv (get_appearances_nil v.toArg argv hv)]
    exact ⟨rfl, rfl, rfl⟩

/-- Witness of C21: `value_i`, declared with `default_val(10)`, and `flag_h`
read from `prog x`. -/
theorem read_absent_alias_witness :
    (value_i.read ["prog".toList, "x".toList]).1.val_ = 10
    ∧ (value_i.read ["prog".toList, "x".toList]).2 = (0, 0)
    ∧ (flag_h.read ["prog".toList, "x".toList]).1.val_ = false :=
  have h := read_absent_alias flag_h value_i ["prog".toList, "x".toList]
    (fun j h1 h2 => by
      have hj : j = 1 := by simp at h2; omega
      subst hj
      decide)
    (fun j h1 h2 => by
      have hj : j = 1 := by simp at h2; omega
      subst hj
      decide)
  ⟨h.2.2.1, h.2.1, h.1.2.1⟩

theorem filter_eq_tok_nodup (opts : List Str) (tok : Str) (hnd : opts.Nodup)
    (h : tok ∈ opts) : opts.filter (fun o => decide (o = tok)) = [tok] := by
  induction opts with
  | nil => simp at h
  | cons o os ih =>
    have hnd2 := List.nodup_cons.mp hnd
    by_cases ho : o = tok
    · subst ho
      have : os.filter (fun x => decide (x = o)) = [] :=
        filter_eq_tok_of_not_mem os o hnd2.1
      simp [List.filter_cons, this]
    · have hmem : tok ∈ os := by
        rcases List.mem_cons.mp h with e | e
        · exact absurd e.symm ho
        · exact e
      simp [List.filter_cons, ho, ih hnd2.2 hmem]

theorem appearancesFrom_eq_filter (opts : List Str) (hnd : opts.Nodup) :
    ∀ (toks : List Str) (base : Nat),
      appearancesFrom opts base toks
        = (List.range' base toks.length).filter
            (fun i => decide (toks.getD (i - base) [] ∈ opts)) := by
  intro toks
  induction toks with
  | nil => intro base; simp [appearancesFrom]
  | cons tok rest ih =>
    intro base
    have hrest : (List.range' (base + 1) rest.length).filter
          (fun i => decide ((tok :: rest).getD (i - base) [] ∈ opts))
        = (List.range' (base + 1) rest.length).filter
          (fun i => decide (rest.getD (i - (base + 1)) [] ∈ opts)) := by
      apply List.filter_congr
      intro i hi
      have hi1 : base + 1 ≤ i := (List.mem_range'_1.mp hi).1
      obtain ⟨d, rfl⟩ : ∃ d, i = base + 1 + d := ⟨i - (base + 1), by omega⟩
      have e1 : base + 1 + d - base = d + 1 := by omega
      have e2 : base + 1 + d - (base + 1) = d := by omega
      rw [e1, e2]
      simp
    rw [appearancesFrom, ih (base + 1), List.length_cons, List.range'_succ,
      List.filter_cons, hrest]
    by_cases hmem : tok ∈ opts
    · simp [filter_eq_tok_nodup opts tok hnd hmem, hmem]
    · simp [filter_eq_tok_of_not_mem opts tok hmem, hmem]

theorem range'_filter_sorted (p : Nat → Bool) (base n : Nat) :
    ((List.range' base n).filter p).Sorted (· < ·) := by
  apply List.Pairwise.sublist (List.filter_sublist _)
  exact List.pairwise_lt_range' base n

/-- C22: `Arg::get_appearances`, whatever the appearance list held before,
returns exactly the indices `i` with `1 <= i < N` whose token is one of the
aliases (`opts_` is a set: its members are pairwise different), in strictly
ascending order; index 0 is not in the list. -/
theorem get_appearances_scan (a : Arg) (argv : List Str) (prev : List Nat)
    (hset : a.opts_.Nodup) :
    (a.get_appearances argv).appearances_
        = (List.range' 1 (argv.length - 1)).filter
            (fun i => decide (tokenAt argv i ∈ a.opts_))
    ∧ (Arg.get_appearances { a with appearances_ := prev } argv).appearances_
        = (a.get_appearances argv).appearances_
    ∧ (∀ i, i ∈ (a.get_appearances argv).appearances_ ↔
        1 ≤ i ∧ i < argv.length ∧ tokenAt argv i ∈ a.opts_)
    ∧ (a.get_appearances argv).appearances_.Sorted (· < ·)
    ∧ (a.get_appearances argv).appearances_.Nodup
    ∧ 0 ∉ (a.get_appearances argv).appearances_ := by
  have heq : (a.get_appearances argv).appearances_
      = (List.range' 1 (argv.length - 1)).filter
          (fun i => decide (tokenAt argv i ∈ a.opts_)) := by
    simp only [Arg.get_appearances]
    rw [appearancesFrom_eq_filter a.opts_ hset, List.length_tail]
    apply List.filter_congr
    intro i hi
    have hi1 : 1 ≤ i := (List.mem_range'_1.mp hi).1
    obtain ⟨d, rfl⟩ : ∃ d, i = d + 1 := ⟨i - 1, by omega⟩
    rw [Nat.add_sub_cancel, tokenAt_succ_tail]
  have hmem : ∀ i, i ∈ (a.get_appearances argv).appearances_ ↔
      1 ≤ i ∧ i < argv.length ∧ tokenAt argv i ∈ a.opts_ := by
    intro i
    rw [heq]
    simp only [List.mem_filter, List.mem_range'_1, decide_eq_true_eq]
    constructor
    · rintro ⟨⟨h1, h2⟩, h3⟩
      exact ⟨h1, by omega, h3⟩
    · rintro ⟨h1, h2, h3⟩
      exact ⟨⟨h1, by omega⟩, h3⟩
  have hsorted : (a.get_appearances argv).appearances_.Sorted (· < ·) := by
    rw [heq]
    exact range'_filter_sorted _ _ _
  refine ⟨heq, rfl, hmem, hsorted, hsorted.nodup, ?_⟩
  intro h0
  have := ((hmem 0).mp h0).1
  omega

/-- Witness of C22: the scan of `prog -i 5 -i 7` for `-i`. -/
theorem get_appearances_scan_witness :
    (value_i.toArg.get_appearances
      ["prog".toList, "-i".toList, "5".toList, "-i".toList, "7".toList]).appearances_
      = [1, 3] :=
  ((get_appearances_scan value_i.toArg
      ["prog".toList, "-i".toList, "5".toList, "-i".toList, "7".toList] [] (by decide)).1).trans
    (by decide)

theorem mem_appearancesFrom (opts : List Str) :
    ∀ (toks : List Str) (base i : Nat), i ∈ appearancesFrom opts base toks →
      base ≤ i ∧ i < base + toks.length := by
  intro toks
  induction toks with
  | nil => intro base i h; simp [appearancesFrom] at h
  | cons tok rest ih =>
    intro base i h
    rw [appearancesFrom, List.mem_append] at h
    rcases h with h | h
    · obtain ⟨_, _, rfl⟩ := List.mem_map.mp h
      simp
    · have := ih (base + 1) i h
      simp only [List.length_cons]
      omega

theorem mem_get_appearances (a : Arg) (argv : List Str) (i : Nat)
    (h : i ∈ (a.get_appearances argv).appearances_) : 1 ≤ i ∧ i < argv.length := by
  have := mem_appearancesFrom a.opts_ argv.tail 1 i h
  rw [List.length_tail] at this
  omega

theorem FileArg_load_pair {T : Type} (fs : Str → Option Str) (a : FileArg T)
    (res : Nat × Nat) : (FileArg.load fs a res).2 = res := by
  unfold FileArg.load
  cases hp : fs a.path_ with
  | none => rfl
  | some contents =>
    cases hr : a.reader_ contents with
    | none => simp [hr]
    | some temp => simp [hr]

/-- C29: for a token vector of length `N >= 1`, both components of the pair
returned by the `read` of a `FlagArg`, `ValueArg` or `FileArg` are below `N`
(the pair is `(0,0)`, `(i,i)` or, only when `i < N-1`, `(i,i+1)`, with `i` an
appearance), so the writes `used[res.first]`, `used[res.second]` of
`Args::read` fall inside the table of length `N`. -/
theorem AnyArg_read_in_bounds (fs : Str → Option Str) (a : AnyArg) (argv : List Str)
    (hN : 1 ≤ argv.length) :
    (a.read fs argv).2.1 < argv.length
    ∧ (a.read fs argv).2.2 < argv.length
    ∧ ((a.read fs argv).2 = (0, 0)
      ∨ (1 ≤ (a.read fs argv).2.1
        ∧ ((a.read fs argv).2.2 = (a.read fs argv).2.1
          ∨ ((a.read fs argv).2.2 = (a.read fs argv).2.1 + 1
            ∧ (a.read fs argv).2.1 < argv.length - 1))))
    ∧ (List.replicate argv.length false).length = argv.length
    ∧ ∀ A : Args, (Args.used fs A argv).length = argv.length := by
  have hused : ∀ A : Args, (Args.used fs A argv).length = argv.length := by
    intro A
    simp [Args.used, readArgs_used_length]
  have key : (a.read fs argv).2 = (0, 0)
      ∨ ∃ i, 1 ≤ i ∧ i < argv.length
        ∧ ((a.read fs argv).2 = (i, i)
          ∨ ((a.read fs argv).2 = (i, i + 1) ∧ i < argv.length - 1)) := by
    cases a with
    | flag f =>
      cases happ : (f.toArg.get_appearances argv).appearances_ with
      | nil =>
        left
        simp [AnyArg.read, FlagArg_read_nil f argv happ]
      | cons i rest =>
        right
        have hi := mem_get_appearances f.toArg argv i (by rw [happ]; simp)
        exact ⟨i, hi.1, hi.2, Or.inl (by simp [AnyArg.read, FlagArg_read_cons f argv i rest happ])⟩
    | value v =>
      cases happ : (v.toArg.get_appearances argv).appearances_ with
      | nil =>
        left
        simp [AnyArg.read, ValueArg_read_nil v argv happ]
      | cons i rest =>
        right
        have hi := mem_get_appearances v.toArg argv i (by rw [happ]; simp)
        refine ⟨i, hi.1, hi.2, ?_⟩
        simp only [AnyArg.read, ValueArg_read_cases v argv i rest happ]
        by_cases hc : i = argv.length - 1 ∨ startsWithDash (tokenAt argv (i + 1)) = true
        · left
          rw [if_pos hc]
        · right
          rw [if_neg hc]
          have hlt : i < argv.length - 1 := by
            have : i ≠ argv.length - 1 := fun e => hc (Or.inl e)
            omega
          cases v.reader_ (tokenAt argv (i + 1)) with
          | none => exact ⟨rfl, hlt⟩
          | some temp => exact ⟨rfl, hlt⟩
    | file f =>
      cases happ : (f.toArg.get_appearances argv).appearances_ with
      | nil =>
        left
        simp [AnyArg.read, FileArg_read_nil fs f argv happ, FileArg_load_pair]
      | cons i rest =>
        right
        have hi := mem_get_appearances f.toArg argv i (by rw [happ]; simp)
        refine ⟨i, hi.1, hi.2, ?_⟩
        have hrd : f.read fs argv =
            if i = argv.length - 1 ∨ startsWithDash (tokenAt argv (i + 1)) = true then
              ({ f with toArg := (f.toArg.get_appearances argv).survivable_error f.file_error_ },
                (i, i))
            else
              FileArg.load fs { f with toArg := f.toArg.get_appearances argv,
                                       path_ := tokenAt argv (i + 1) } (i, i + 1) := by
          unfold FileArg.read
          simp only [happ]
        simp only [AnyArg.read, hrd]
        by_cases hc : i = argv.length - 1 ∨ startsWithDash (tokenAt argv (i + 1)) = true
        · left
          rw [if_pos hc]
        · right
          rw [if_neg hc, FileArg_load_pair]
          have : i ≠ argv.length - 1 := fun e => hc (Or.inl e)
          exact ⟨rfl, by omega⟩
  refine ⟨?_, ?_, ?_, by simp, hused⟩
  · rcases key with h | ⟨i, h1, h2, h | ⟨h, h3⟩⟩ <;> rw [h] <;> simp <;> omega
  · rcases key with h | ⟨i, h1, h2, h | ⟨h, h3⟩⟩ <;> rw [h] <;> simp <;> omega
  · rcases key with h | ⟨i, h1, h2, h | ⟨h, h3⟩⟩
    · exact Or.inl h
    · right
      rw [h]
      exact ⟨h1, Or.inl rfl⟩
    · right
      rw [h]
      exact ⟨h1, Or.inr ⟨rfl, h3⟩⟩

/-- Witness of C29: `value_i` read from `prog -i 5`. -/
theorem AnyArg_read_in_bounds_witness :
    ((AnyArg.value value_i).read noFiles ["prog".toList, "-i".toList, "5".toList]).2.1 < 3
    ∧ ((AnyArg.value value_i).read noFiles ["prog".toList, "-i".toList, "5".toList]).2.2 < 3 :=
  have h := AnyArg_read_in_bounds noFiles (AnyArg.value value_i)
    ["prog".toList, "-i".toList, "5".toList] (by decide)
  ⟨h.1, h.2.1⟩

/-- C25 (the code at the failing inputs): on `"."` and on `".."` the loop of
`SequenceArgRangeReader` ends with the marker set and an empty accumulator, and
the reader takes `s.back()` of the empty vector: undefined behaviour. The
associative reader, which keeps `last_insert`, returns on the same inputs. -/
theorem SequenceArgRangeReader_back_of_empty :
    SequenceArgRangeReader 1 5 '.' ArgReader_int (IStream.ofString ".".toList)
        = some ReadOutcome.undefined
    ∧ SequenceArgRangeReader 1 5 '.' ArgReader_int (IStream.ofString "..".toList)
        = some ReadOutcome.undefined
    ∧ AssociativeArgRangeReader 1 5 '.' ArgReader_int (IStream.ofString ".".toList)
        = some (ReadOutcome.done atEof [2, 3, 4]) := by
  decide

/-! ## The range aware readers on inputs without empty segment -/

theorem foldLines_range_ok (Min : Int) (R : Str → Option Int) :
    ∀ (lines : List Str) (vs : List Int) (s : List Int),
      (∀ l ∈ lines, l ≠ []) → lines.map R = vs.map some →
      foldLines (SequenceArgRangeReader.body Min R) lines (s, false)
        = LinesExit.finished (s ++ vs, false) := by
  intro lines
  induction lines with
  | nil =>
    intro vs s _ h
    cases vs with
    | nil => simp [foldLines]
    | cons v vs1 => simp at h
  | cons line rest ih =>
    intro vs s hne h
    cases vs with
    | nil => simp at h
    | cons v vs1 =>
      simp only [List.map_cons, List.cons.injEq] at h
      have hl : line ≠ [] := hne line (by simp)
      rw [foldLines, SequenceArgRangeReader_body_plain Min R line s v hl h.1]
      simp only []
      rw [ih vs1 (s ++ [v]) (fun l hl1 => hne l (List.mem_cons_of_mem _ hl1)) h.2]
      simp

theorem foldLines_range_fail (Min : Int) (R : Str → Option Int) :
    ∀ (pre : List Str) (bad : Str) (post : List Str) (vs : List Int) (s : List Int),
      (∀ l ∈ pre, l ≠ []) → bad ≠ [] → pre.map R = vs.map some → R bad = none →
      foldLines (SequenceArgRangeReader.body Min R) (pre ++ bad :: post) (s, false)
        = LinesExit.returned (s ++ vs, false) := by
  intro pre
  induction pre with
  | nil =>
    intro bad post vs s _ hb h hbad
    cases vs with
    | nil => simp [foldLines, SequenceArgRangeReader.body, hb, hbad]
    | cons v vs1 => simp at h
  | cons line rest ih =>
    intro bad post vs s hne hb h hbad
    cases vs with
    | nil => simp at h
    | cons v vs1 =>
      simp only [List.map_cons, List.cons.injEq] at h
      have hl : line ≠ [] := hne line (by simp)
      rw [List.cons_append, foldLines, SequenceArgRangeReader_body_plain Min R line s v hl h.1]
      simp only []
      rw [ih bad post vs1 (s ++ [v]) (fun l hl1 => hne l (List.mem_cons_of_mem _ hl1)) hb
        h.2 hbad]
      simp

theorem foldLines_assoc_range_ok (Min : Int) (R : Str → Option Int) :
    ∀ (lines : List Str) (vs : List Int) (a : List Int) (l : Int),
      (∀ ln ∈ lines, ln ≠ []) → lines.map R = vs.map some →
      ∃ l1, foldLines (AssociativeArgRangeReader.body Min R) lines
          { a := a, last_insert := l, range := false }
        = LinesExit.finished
            { a := vs.foldl (fun a v => setInsert v a) a, last_insert := l1, range := false } := by
  intro lines
  induction lines with
  | nil =>
    intro vs a l _ h
    cases vs with
    | nil => exact ⟨l, rfl⟩
    | cons v vs1 => simp at h
  | cons line rest ih =>
    intro vs a l hne h
    cases vs with
    | nil => simp at h
    | cons v vs1 =>
      simp only [List.map_cons, List.cons.injEq] at h
      have hl : line ≠ [] := hne line (by simp)
      obtain ⟨l1, h1⟩ := ih vs1 (setInsert v a) v
        (fun ln hl1 => hne ln (List.mem_cons_of_mem _ hl1)) h.2
      refine ⟨l1, ?_⟩
      rw [foldLines]
      simp only [AssociativeArgRangeReader.body, hl, if_false, h.1, Bool.false_eq_true,
        List.foldl_cons]
      exact h1

theorem foldLines_assoc_range_fail (Min : Int) (R : Str → Option Int) :
    ∀ (pre : List Str) (bad : Str) (post : List Str) (vs : List Int) (a : List Int) (l : Int),
      (∀ ln ∈ pre, ln ≠ []) → bad ≠ [] → pre.map R = vs.map some → R bad = none →
      ∃ l1, foldLines (AssociativeArgRangeReader.body Min R) (pre ++ bad :: post)
          { a := a, last_insert := l, range := false }
        = LinesExit.returned
            { a := vs.foldl (fun a v => setInsert v a) a, last_insert := l1, range := false } := by
  intro pre
  induction pre with
  | nil =>
    intro bad post vs a l _ hb h hbad
    cases vs with
    | nil => exact ⟨l, by simp [foldLines, AssociativeArgRangeReader.body, hb, hbad]⟩
    | cons v vs1 => simp at h
  | cons line rest ih =>
    intro bad post vs a l hne hb h hbad
    cases vs with
    | nil => simp at h
    | cons v vs1 =>
      simp only [List.map_cons, List.cons.injEq] at h
      have hl : line ≠ [] := hne line (by simp)
      obtain ⟨l1, h1⟩ := ih bad post vs1 (setInsert v a) v
        (fun ln hl1 => hne ln (List.mem_cons_of_mem _ hl1)) hb h.2 hbad
      refine ⟨l1, ?_⟩
      rw [List.cons_append, foldLines]
      simp only [AssociativeArgRangeReader.body, hl, if_false, h.1, Bool.false_eq_true,
        List.foldl_cons]
      exact h1

theorem SequenceArgRangeReader_ok_of_nonempty (Min Max : Int) (d : Char)
    (R : Str → Option Int) (input : Str) (vs : List Int)
    (hne : ∀ seg ∈ segments d input, seg ≠ [])
    (h : (segments d input).map R = vs.map some) :
    SequenceArgRangeReader Min Max d R (IStream.ofString input)
      = some (ReadOutcome.done atEof vs) := by
  have hfold := foldLines_range_ok Min R (segments d input) vs [] hne h
  rw [List.nil_append] at hfold
  rw [SequenceArgRangeReader_of_lines Min Max d R input _ hfold,
    SequenceArgRangeReader_finish_plain]

theorem SequenceArgRangeReader_fail_of_nonempty (Min Max : Int) (d : Char)
    (R : Str → Option Int) (input : Str)
    (pre : List Str) (bad : Str) (post : List Str) (vs : List Int)
    (hne : ∀ seg ∈ segments d input, seg ≠ [])
    (hseg : segments d input = pre ++ bad :: post) (hpre : pre.map R = vs.map some)
    (hbad : R bad = none) :
    ∃ is, SequenceArgRangeReader Min Max d R (IStream.ofString input)
        = some (ReadOutcome.done is vs) ∧ is.fail = true := by
  have hfold := foldLines_range_fail Min R pre bad post vs []
    (fun l hl => hne l (by rw [hseg]; simp [hl])) (hne bad (by rw [hseg]; simp)) hpre hbad
  rw [List.nil_append, ← hseg] at hfold
  obtain ⟨is, hl, hfail⟩ :=
    getlineLoop_of_returned d (SequenceArgRangeReader.body Min R) input _ _ hfold
  refine ⟨is, ?_, hfail⟩
  unfold SequenceArgRangeReader
  simp only [IStream.ofString] at hl ⊢
  rw [hl]

theorem AssociativeArgRangeReader_ok_of_nonempty (Min Max : Int) (d : Char)
    (R : Str → Option Int) (input : Str) (vs : List Int)
    (hne : ∀ seg ∈ segments d input, seg ≠ [])
    (h : (segments d input).map R = vs.map some) :
    AssociativeArgRangeReader Min Max d R (IStream.ofString input)
      = some (ReadOutcome.done atEof (vs.foldl (fun a v => setInsert v a) [])) := by
  obtain ⟨l1, hfold⟩ := foldLines_assoc_range_ok Min R (segments d input) vs [] Min hne h
  rw [AssociativeArgRangeReader_of_lines Min Max d R input _ hfold]
  simp [AssociativeArgRangeReader.finish, IStream.eof, IStream.clearToEof, atEof]

theorem AssociativeArgRangeReader_fail_of_nonempty (Min Max : Int) (d : Char)
    (R : Str → Option Int) (input : Str)
    (pre : List Str) (bad : Str) (post : List Str) (vs : List Int)
    (hne : ∀ seg ∈ segments d input, seg ≠ [])
    (hseg : segments d input = pre ++ bad :: post) (hpre : pre.map R = vs.map some)
    (hbad : R bad = none) :
    ∃ is, AssociativeArgRangeReader Min Max d R (IStream.ofString input)
        = some (ReadOutcome.done is (vs.foldl (fun a v => setInsert v a) []))
      ∧ is.fail = true := by
  obtain ⟨l1, hfold⟩ := foldLines_assoc_range_fail Min R pre bad post vs [] Min
    (fun l hl => hne l (by rw [hseg]; simp [hl])) (hne bad (by rw [hseg]; simp)) hpre hbad
  rw [← hseg] at hfold
  obtain ⟨is, hl, hfail⟩ :=
    getlineLoop_of_returned d (AssociativeArgRangeReader.body Min R) input _ _ hfold
  refine ⟨is, ?_, hfail⟩
  unfold AssociativeArgRangeReader
  simp only [IStream.ofString] at hl ⊢
  rw [hl]

/-- C27: on an input none of whose segments is empty, `SequenceArgRangeReader`
returns the same sequence and the same failure status as `SequenceArgReader`,
and `AssociativeArgRangeReader` the same set and failure status as
`AssociativeArgReader`, for every `Min` and `Max`. -/
theorem range_readers_refine_plain (Min Max : Int) (Delim : Char) (R : Str → Option Int)
    (input : Str) (hne : ∀ seg ∈ segments Delim input, seg ≠ []) :
    (∃ (is1 is2 : IStream) (s : List Int),
      SequenceArgRangeReader Min Max Delim R (IStream.ofString input)
          = some (ReadOutcome.done is1 s)
      ∧ SequenceArgReader Delim R (IStream.ofString input) = some (ReadOutcome.done is2 s)
      ∧ is1.fail = is2.fail)
    ∧ (∃ (is1 is2 : IStream) (a : List Int),
      AssociativeArgRangeReader Min Max Delim R (IStream.ofString input)
          = some (ReadOutcome.done is1 a)
      ∧ AssociativeArgReader Delim R (IStream.ofString input) = some (ReadOutcome.done is2 a)
      ∧ is1.fail = is2.fail) := by
  rcases lines_parse_or_fail R (segments Delim input) with
    ⟨vs, hvs⟩ | ⟨pre, bad, post, vs, h1, h2, h3⟩
  · exact ⟨⟨atEof, atEof, vs,
        SequenceArgRangeReader_ok_of_nonempty Min Max Delim R input vs hne hvs,
        SequenceArgReader_ok Delim R input vs hvs, rfl⟩,
      ⟨atEof, atEof, _,
        AssociativeArgRangeReader_ok_of_nonempty Min Max Delim R input vs hne hvs,
        AssociativeArgReader_ok Delim R input vs hvs, rfl⟩⟩
  · obtain ⟨i1, r1, f1⟩ :=
      SequenceArgRangeReader_fail_of_nonempty Min Max Delim R input pre bad post vs hne h1 h2 h3
    obtain ⟨i2, r2, f2⟩ := SequenceArgReader_fail Delim R input pre bad post vs h1 h2 h3
    obtain ⟨i3, r3, f3⟩ :=
      AssociativeArgRangeReader_fail_of_nonempty Min Max Delim R input pre bad post vs hne
        h1 h2 h3
    obtain ⟨i4, r4, f4⟩ := AssociativeArgReader_fail Delim R input pre bad post vs h1 h2 h3
    exact ⟨⟨i1, i2, vs, r1, r2, by rw [f1, f2]⟩, ⟨i3, i4, _, r3, r4, by rw [f3, f4]⟩⟩

/-- Witness of C27: `"3.1.3"` and the failing `"3.x"`. -/
theorem range_readers_refine_plain_witness :
    (∃ (is1 is2 : IStream) (s : List Int),
      SequenceArgRangeReader 0 9 '.' ArgReader_int (IStream.ofString "3.x".toList)
          = some (ReadOutcome.done is1 s)
      ∧ SequenceArgReader '.' ArgReader_int (IStream.ofString "3.x".toList)
          = some (ReadOutcome.done is2 s)
      ∧ is1.fail = is2.fail)
    ∧ SequenceArgRangeReader 0 9 '.' ArgReader_int (IStream.ofString "3.1.3".toList)
        = some (ReadOutcome.done atEof [3, 1, 3])
    ∧ SequenceArgReader '.' ArgReader_int (IStream.ofString "3.1.3".toList)
        = some (ReadOutcome.done atEof [3, 1, 3]) :=
  ⟨(range_readers_refine_plain 0 9 '.' ArgReader_int "3.x".toList (by decide)).1,
    by decide, by decide⟩

/-! ## Writing a sequence and reading it back -/

theorem digitChar_spec (d : Nat) (h : d < 10) :
    (Nat.digitChar d).isDigit = true ∧ digitVal (Nat.digitChar d) = d := by
  interval_cases d <;> exact ⟨by decide, by decide⟩

theorem isDigit_facts (c : Char) (h : c.isDigit = true) :
    isSpace c = false ∧ c ≠ '-' ∧ c ≠ '+' ∧ c ≠ '.' := by
  refine ⟨?_, ?_, ?_, ?_⟩
  · cases hs : isSpace c with
    | false => rfl
    | true =>
      exfalso
      simp only [isSpace, Bool.or_eq_true, decide_eq_true_eq] at hs
      rcases hs with ((((e | e) | e) | e) | e) | e <;> subst e <;> revert h <;> decide
  · intro e; subst e; revert h; decide
  · intro e; subst e; revert h; decide
  · intro e; subst e; revert h; decide

theorem digitsValue_snoc (ds : Str) (c : Char) :
    digitsValue (ds ++ [c]) = 10 * digitsValue ds + digitVal c := by
  simp [digitsValue, List.foldl_append]

theorem natDecimal_spec :
    ∀ (fuel n : Nat), n < fuel →
      natDecimal fuel n ≠ []
      ∧ (∀ c ∈ natDecimal fuel n, c.isDigit = true)
      ∧ digitsValue (natDecimal fuel n) = n := by
  intro fuel
  induction fuel with
  | zero => intro n h; omega
  | succ fuel ih =>
    intro n h
    unfold natDecimal
    by_cases hn : n < 10
    · simp only [hn, if_true]
      refine ⟨by simp, ?_, ?_⟩
      · intro c hc
        rw [List.mem_singleton.mp hc]
        exact (digitChar_spec n hn).1
      · simp [digitsValue, (digitChar_spec n hn).2]
    · simp only [hn, if_false]
      obtain ⟨h1, h2, h3⟩ := ih (n / 10) (by omega)
      refine ⟨by simp, ?_, ?_⟩
      · intro c hc
        rcases List.mem_append.mp hc with hc | hc
        · exact h2 c hc
        · rw [List.mem_singleton.mp hc]
          exact (digitChar_spec (n % 10) (Nat.mod_lt _ (by decide))).1
      · rw [digitsValue_snoc, h3, (digitChar_spec (n % 10) (Nat.mod_lt _ (by decide))).2]
        omega

theorem takeDigits_all (ds : Str) (h : ∀ c ∈ ds, c.isDigit = true) : takeDigits ds = ds := by
  induction ds with
  | nil => rfl
  | cons c cs ih =>
    have hc := h c (by simp)
    simp [takeDigits, hc, ih (fun x hx => h x (List.mem_cons_of_mem _ hx))]

theorem ArgReader_int_of_digits (ds : Str) (hne : ds ≠ []) (h : ∀ c ∈ ds, c.isDigit = true)
    (hmax : (digitsValue ds : Int) ≤ 2147483647) :
    ArgReader_int ds = some (digitsValue ds : Int) := by
  cases ds with
  | nil => exact absurd rfl hne
  | cons c cs =>
    obtain ⟨hsp, hminus, hplus, _⟩ := isDigit_facts c (h c (by simp))
    have htake := takeDigits_all (c :: cs) h
    have hlow : (-2147483648 : Int) ≤ (digitsValue (c :: cs) : Int) := by
      have : (0 : Int) ≤ (digitsValue (c :: cs) : Int) := Int.natCast_nonneg _
      omega
    simp [ArgReader_int, skipSpace, hsp, hminus, hplus, htake, hmax, hlow]

theorem ArgReader_int_of_minus_digits (ds : Str) (hne : ds ≠ [])
    (h : ∀ c ∈ ds, c.isDigit = true)
    (hmin : (-2147483648 : Int) ≤ -(digitsValue ds : Int)) :
    ArgReader_int ('-' :: ds) = some (-(digitsValue ds : Int)) := by
  have htake := takeDigits_all ds h
  have hhigh : -(digitsValue ds : Int) ≤ 2147483647 := by
    have : (0 : Int) ≤ (digitsValue ds : Int) := Int.natCast_nonneg _
    omega
  have hsp : isSpace '-' = false := by decide
  simp [ArgReader_int, skipSpace, hsp, htake, hne, hmin, hhigh]

theorem ArgWriter_int_spec (t : Int) :
    ArgWriter_int t ≠ [] ∧ '.' ∉ ArgWriter_int t
    ∧ (-2147483648 ≤ t → t ≤ 2147483647 → ArgReader_int (ArgWriter_int t) = some t) := by
  unfold ArgWriter_int
  by_cases ht : t < 0
  · simp only [ht, if_true]
    obtain ⟨h1, h2, h3⟩ := natDecimal_spec ((-t).toNat + 1) (-t).toNat (by omega)
    refine ⟨by simp, ?_, ?_⟩
    · intro hmem
      rcases List.mem_cons.mp hmem with e | e
      · exact absurd e (by decide)
      · exact (isDigit_facts '.' (h2 '.' e)).2.2.2 rfl
    · intro hlo hhi
      have hval : -(digitsValue (natDecimal ((-t).toNat + 1) (-t).toNat) : Int) = t := by
        rw [h3]
        omega
      rw [ArgReader_int_of_minus_digits _ h1 h2 (by rw [hval]; exact hlo), hval]
  · simp only [ht, if_false]
    obtain ⟨h1, h2, h3⟩ := natDecimal_spec (t.toNat + 1) t.toNat (by omega)
    refine ⟨h1, ?_, ?_⟩
    · intro hmem
      exact (isDigit_facts '.' (h2 '.' hmem)).2.2.2 rfl
    · intro hlo hhi
      have hval : (digitsValue (natDecimal (t.toNat + 1) t.toNat) : Int) = t := by
        rw [h3]
        omega
      rw [ArgReader_int_of_digits _ h1 h2 (by rw [hval]; exact hhi), hval]

theorem foldl_write (d : Char) (W : Int → Str) (rest : List Int) :
    ∀ (os : Str),
      rest.foldl (fun os v => os ++ [d] ++ W v) os
        = os ++ (rest.map (fun v => d :: W v)).flatten := by
  induction rest with
  | nil => intro os; simp
  | cons v vs ih =>
    intro os
    rw [List.foldl_cons, ih]
    simp

theorem SequenceArgWriter_eq_intercalate (d : Char) (W : Int → Str) (s : List Int) :
    SequenceArgWriter d W s = List.intercalate [d] (s.map W) := by
  cases s with
  | nil => rfl
  | cons x rest =>
    rw [SequenceArgWriter, foldl_write]
    induction rest generalizing x with
    | nil => simp [List.intercalate]
    | cons y ys ih =>
      have := ih y
      simp only [List.intercalate, List.map_cons, List.intersperse, List.flatten_cons,
        List.append_assoc, List.singleton_append, List.cons_append, List.nil_append] at this ⊢
      rw [this]

theorem segments_written (d : Char) (W : Int → Str)
    (hW : ∀ v, W v ≠ [] ∧ d ∉ W v) :
    ∀ (rest : List Int) (x : Int),
      segments d (W x ++ (rest.map (fun v => d :: W v)).flatten) = W x :: rest.map W := by
  intro rest
  induction rest with
  | nil =>
    intro x
    simp [segments_single d (W x) (hW x).2 (hW x).1]
  | cons y ys ih =>
    intro x
    rw [List.map_cons, List.flatten_cons, List.cons_append,
      segments_append_delim d (W x) _ (hW x).2, ih y]
    rfl

theorem segments_SequenceArgWriter (d : Char) (W : Int → Str)
    (hW : ∀ v, W v ≠ [] ∧ d ∉ W v) (s : List Int) :
    segments d (SequenceArgWriter d W s) = s.map W := by
  cases s with
  | nil => rfl
  | cons x rest =>
    rw [SequenceArgWriter, foldl_write, segments_written d W hW]
    rfl

/-- C28: for every list `s` of `int` values (empty list and negative values
included) the text written by `SequenceArgWriter` with delimiter `.` is the
decimal forms of the elements joined by the delimiter; read back by
`SequenceArgReader`, and by `SequenceArgRangeReader` for any `Min`, `Max`, it
yields exactly `s`, the stream at end of input and not failed. -/
theorem SequenceArgWriter_round_trip (Min Max : Int) (s : List Int)
    (hint : ∀ x ∈ s, -2147483648 ≤ x ∧ x ≤ 2147483647) :
    SequenceArgWriter '.' ArgWriter_int s = List.intercalate ['.'] (s.map ArgWriter_int)
    ∧ (∀ x, ArgWriter_int x ≠ [] ∧ '.' ∉ ArgWriter_int x)
    ∧ SequenceArgReader '.' ArgReader_int
        (IStream.ofString (SequenceArgWriter '.' ArgWriter_int s))
      = some (ReadOutcome.done atEof s)
    ∧ SequenceArgRangeReader Min Max '.' ArgReader_int
        (IStream.ofString (SequenceArgWriter '.' ArgWriter_int s))
      = some (ReadOutcome.done atEof s)
    ∧ atEof.fail = false := by
  have hW : ∀ v, ArgWriter_int v ≠ [] ∧ '.' ∉ ArgWriter_int v :=
    fun v => ⟨(ArgWriter_int_spec v).1, (ArgWriter_int_spec v).2.1⟩
  have hseg := segments_SequenceArgWriter '.' ArgWriter_int hW s
  have hparse : (segments '.' (SequenceArgWriter '.' ArgWriter_int s)).map ArgReader_int
      = s.map some := by
    rw [hseg, List.map_map]
    apply List.map_congr_left
    intro x hx
    exact (ArgWriter_int_spec x).2.2 (hint x hx).1 (hint x hx).2
  have hne : ∀ seg ∈ segments '.' (SequenceArgWriter '.' ArgWriter_int s), seg ≠ [] := by
    intro seg hmem
    rw [hseg] at hmem
    obtain ⟨x, _, rfl⟩ := List.mem_map.mp hmem
    exact (hW x).1
  exact ⟨SequenceArgWriter_eq_intercalate '.' ArgWriter_int s, hW,
    SequenceArgReader_ok '.' ArgReader_int _ s hparse,
    SequenceArgRangeReader_ok_of_nonempty Min Max '.' ArgReader_int _ s hne hparse, rfl⟩

/-- Witness of C28: `[3, -12, 0, 100]` is written as `3.-12.0.100`. -/
theorem SequenceArgWriter_round_trip_witness :
    SequenceArgWriter '.' ArgWriter_int [3, -12, 0, 100] = "3.-12.0.100".toList
    ∧ SequenceArgReader '.' ArgReader_int
        (IStream.ofString (SequenceArgWriter '.' ArgWriter_int [3, -12, 0, 100]))
      = some (ReadOutcome.done atEof [3, -12, 0, 100])
    ∧ SequenceArgReader '.' ArgReader_int
        (IStream.ofString (SequenceArgWriter '.' ArgWriter_int []))
      = some (ReadOutcome.done atEof []) :=
  ⟨by decide,
    (SequenceArgWriter_round_trip 0 9 [3, -12, 0, 100] (by decide)).2.2.1,
    (SequenceArgWriter_round_trip 0 9 [] (by simp)).2.2.1⟩

/-! ## Ordered output of the range fill -/

theorem sorted_le_last (s : List Int) (l : Int) (hs : s.Sorted (· < ·))
    (hl : s.getLast? = some l) : ∀ x ∈ s, x ≤ l := by
  obtain ⟨ys, rfl⟩ := List.getLast?_eq_some_iff.mp hl
  intro x hx
  rcases List.mem_append.mp hx with h | h
  · exact le_of_lt ((List.pairwise_append.mp hs).2.2 x h l (by simp))
  · rw [List.mem_singleton.mp h]

theorem sorted_head_le (vs : List Int) (v1 : Int) (hs : vs.Sorted (· < ·))
    (h1 : vs.head? = some v1) : ∀ v ∈ vs, v1 ≤ v := by
  cases vs with
  | nil => simp at h1
  | cons y ys =>
    simp only [List.head?_cons, Option.some.injEq] at h1
    subst h1
    intro v hv
    rcases List.mem_cons.mp hv with e | e
    · rw [e]
    · exact le_of_lt (List.rel_of_sorted_cons hs v e)

theorem sorted_fill (s : List Int) (l v : Int) (hs : s.Sorted (· < ·))
    (hl : s.getLast? = some l) (hv : ∀ x ∈ s, x < v) :
    (s ++ upTo (l + 1) v ++ [v]).Sorted (· < ·) := by
  have hle := sorted_le_last s l hs hl
  unfold List.Sorted
  rw [List.pairwise_append, List.pairwise_append]
  refine ⟨⟨hs, upTo_sorted _ _, ?_⟩, List.pairwise_singleton _ _, ?_⟩
  · intro a ha b hb
    have := (mem_upTo.mp hb).1
    have := hle a ha
    omega
  · intro a ha b hb
    rw [List.mem_singleton.mp hb]
    rcases List.mem_append.mp ha with h | h
    · exact hv a h
    · exact (mem_upTo.mp h).2

theorem range_fold_sorted (Min lo hi : Int) (R : Str → Option Int) :
    ∀ (lines : List Str) (vs : List Int) (s : List Int) (r : Bool),
      (lines.filter (fun seg => decide (seg ≠ []))).map R = vs.map some →
      vs.Sorted (· < ·) → s.Sorted (· < ·) →
      (∀ x ∈ s, ∀ v ∈ vs, x < v) →
      (∀ x ∈ s, lo ≤ x ∧ x ≤ hi) →
      (∀ v ∈ vs, lo ≤ v ∧ v ≤ hi) →
      lo ≤ Min →
      (s = [] → (r = true ∨ lines.head? = some []) → ∀ v ∈ vs, Min < v) →
      ∃ (s1 : List Int) (r1 : Bool),
        foldLines (SequenceArgRangeReader.body Min R) lines (s, r)
          = LinesExit.finished (s1, r1)
        ∧ s1.Sorted (· < ·)
        ∧ (∀ x ∈ s1, lo ≤ x ∧ x ≤ hi)
        ∧ (∀ x ∈ s, x ∈ s1)
        ∧ (∀ v ∈ vs, v ∈ s1) := by
  intro lines
  induction lines with
  | nil =>
    intro vs s r hparse _ hs _ hb _ _ _
    cases vs with
    | nil => exact ⟨s, r, rfl, hs, hb, fun x hx => hx, by simp⟩
    | cons v vs1 => simp at hparse
  | cons line rest ih =>
    intro vs s r hparse hvs hs hlt hb hvb hlo hseed
    by_cases hline : line = []
    · subst hline
      have hparse1 : (rest.filter (fun seg => decide (seg ≠ []))).map R = vs.map some := by
        simpa [List.filter_cons] using hparse
      obtain ⟨s1, r1, h1, h2, h3, h4, h5⟩ := ih vs s true hparse1 hvs hs hlt hb hvb hlo
        (fun hs0 _ => hseed hs0 (Or.inr rfl))
      refine ⟨s1, r1, ?_, h2, h3, h4, h5⟩
      rw [foldLines, SequenceArgRangeReader_body_empty]
      exact h1
    · have hkeep : (line :: rest).filter (fun seg => decide (seg ≠ []))
          = line :: rest.filter (fun seg => decide (seg ≠ [])) := by
        simp [List.filter_cons, hline]
      rw [hkeep] at hparse
      cases vs with
      | nil => simp at hparse
      | cons v vs1 =>
        simp only [List.map_cons, List.cons.injEq] at hparse
        have hvs1 : vs1.Sorted (· < ·) := List.Sorted.of_cons hvs
        have hvlt : ∀ w ∈ vs1, v < w := fun w hw => List.rel_of_sorted_cons hvs w hw
        have hsv : ∀ x ∈ s, x < v := fun x hx => hlt x hx v (by simp)
        have hvb1 : ∀ w ∈ vs1, lo ≤ w ∧ w ≤ hi :=
          fun w hw => hvb w (List.mem_cons_of_mem _ hw)
        have hvbv := hvb v (by simp)
        -- the state after the body, with its invariants
        have hstep : ∃ s2 : List Int,
            SequenceArgRangeReader.body Min R line (s, r) = Step.next (s2, false)
            ∧ s2.Sorted (· < ·) ∧ (∀ x ∈ s2, x ≤ v) ∧ (∀ x ∈ s2, lo ≤ x ∧ x ≤ hi)
            ∧ (∀ x ∈ s, x ∈ s2) ∧ v ∈ s2 := by
          cases r with
          | false =>
            refine ⟨s ++ [v], SequenceArgRangeReader_body_plain Min R line s v hline hparse.1,
              ?_, ?_, ?_, fun x hx => by simp [hx], by simp⟩
            · unfold List.Sorted
              rw [List.pairwise_append]
              refine ⟨hs, List.pairwise_singleton _ _, ?_⟩
              intro a ha b hb1
              rw [List.mem_singleton.mp hb1]
              exact hsv a ha
            · intro x hx
              rcases List.mem_append.mp hx with h | h
              · exact le_of_lt (hsv x h)
              · rw [List.mem_singleton.mp h]
            · intro x hx
              rcases List.mem_append.mp hx with h | h
              · exact hb x h
              · rw [List.mem_singleton.mp h]
                exact hvbv
          | true =>
            cases hs0 : s with
            | nil =>
              have hmin : Min < v := hseed hs0 (Or.inl rfl) v (by simp)
              have hbody := SequenceArgRangeReader_body_seed Min R line v hline hparse.1
                (Or.inl hmin)
              have hclosed := upTo_closed hmin
              refine ⟨upTo Min (v + 1), ?_, upTo_sorted _ _, ?_, ?_, by simp, ?_⟩
              · rw [hbody, hclosed]
                rfl
              · intro x hx
                have := (mem_upTo.mp hx).2
                omega
              · intro x hx
                have := mem_upTo.mp hx
                omega
              · exact mem_upTo.mpr ⟨le_of_lt hmin, by omega⟩
            | cons y ys =>
              rw [← hs0]
              have hne : s ≠ [] := by rw [hs0]; simp
              obtain ⟨l, hl⟩ : ∃ l, s.getLast? = some l :=
                ⟨s.getLast hne, List.getLast?_eq_getLast s hne⟩
              have hlmem : l ∈ s := List.mem_of_mem_getLast? (by rw [hl]; simp)
              refine ⟨s ++ upTo (l + 1) v ++ [v],
                SequenceArgRangeReader_body_fill Min R line s l v hline hparse.1 hl
                  (Or.inl (hsv l hlmem)),
                sorted_fill s l v hs hl hsv, ?_, ?_, fun x hx => by simp [hx], by simp⟩
              · intro x hx
                rcases List.mem_append.mp hx with h | h
                · rcases List.mem_append.mp h with h | h
                  · exact le_of_lt (hsv x h)
                  · exact le_of_lt (mem_upTo.mp h).2
                · rw [List.mem_singleton.mp h]
              · intro x hx
                rcases List.mem_append.mp hx with h | h
                · rcases List.mem_append.mp h with h | h
                  · exact hb x h
                  · have := mem_upTo.mp h
                    have := (hb l hlmem).1
                    omega
                · rw [List.mem_singleton.mp h]
                  exact hvbv
        obtain ⟨s2, hbody, hs2, hle2, hb2, hsub2, hv2⟩ := hstep
        have hne2 : s2 ≠ [] := fun e => by rw [e] at hv2; simp at hv2
        obtain ⟨s1, r1, h1, h2, h3, h4, h5⟩ := ih vs1 s2 false hparse.2 hvs1 hs2
          (fun x hx w hw => lt_of_le_of_lt (hle2 x hx) (hvlt w hw)) hb2 hvb1 hlo
          (fun e _ => absurd e hne2)
        refine ⟨s1, r1, ?_, h2, h3, fun x hx => h4 x (hsub2 x hx), ?_⟩
        · rw [foldLines, hbody]
          exact h1
        · intro w hw
          rcases List.mem_cons.mp hw with e | e
          · rw [e]
            exact h4 v hv2
          · exact h5 w e

/-- C26: when the non-empty segments of the input parse to a strictly
ascending list `v1 < ... < vk` (`k >= 1`), and `Min < v1` in case the input
begins with an empty segment, `SequenceArgRangeReader` returns, not failed,
a strictly ascending (hence duplicate free) sequence that contains every `vi`
and only values between `min(Min, v1)` and `max(vk, Max-1)`. -/
theorem range_fill_strictly_ascending (Min Max : Int) (Delim : Char)
    (R : Str → Option Int) (input : Str) (vs : List Int) (v1 vk : Int)
    (hparse : ((segments Delim input).filter (fun seg => decide (seg ≠ []))).map R
      = vs.map some)
    (hsorted : vs.Sorted (· < ·))
    (hfirst : vs.head? = some v1) (hlast : vs.getLast? = some vk)
    (hlead : (segments Delim input).head? = some [] → Min < v1) :
    ∃ s : List Int,
      SequenceArgRangeReader Min Max Delim R (IStream.ofString input)
          = some (ReadOutcome.done atEof s)
      ∧ atEof.fail = false
      ∧ s.Sorted (· < ·)
      ∧ s.Nodup
      ∧ (∀ v ∈ vs, v ∈ s)
      ∧ ∀ x ∈ s, min Min v1 ≤ x ∧ x ≤ max vk (Max - 1) := by
  have hge := sorted_head_le vs v1 hsorted hfirst
  have hle := sorted_le_last vs vk hsorted hlast
  have hv1 : v1 ∈ vs := List.mem_of_mem_head? (by rw [hfirst]; simp)
  obtain ⟨s1, r1, hfold, hs1, hb1, _, hmem1⟩ :=
    range_fold_sorted Min (min Min v1) (max vk (Max - 1)) R (segments Delim input) vs []
      false hparse hsorted (by simp) (by simp) (by simp)
      (fun v hv => ⟨le_trans (min_le_right _ _) (hge v hv),
        le_trans (hle v hv) (le_max_left _ _)⟩)
      (min_le_left _ _)
      (fun _ h v hv => by
        rcases h with h | h
        · exact absurd h (by simp)
        · exact lt_of_lt_of_le (hlead h) (hge v hv))
  have hne : s1 ≠ [] := fun e => by
    have := hmem1 v1 hv1
    rw [e] at this
    simp at this
  obtain ⟨l, hl⟩ : ∃ l, s1.getLast? = some l :=
    ⟨s1.getLast hne, List.getLast?_eq_getLast s1 hne⟩
  have hlmem : l ∈ s1 := List.mem_of_mem_getLast? (by rw [hl]; simp)
  rw [SequenceArgRangeReader_of_lines Min Max Delim R input _ hfold]
  cases r1 with
  | false =>
    exact ⟨s1, by rw [SequenceArgRangeReader_finish_plain Max s1], rfl, hs1, hs1.nodup,
      hmem1, hb1⟩
  | true =>
    by_cases hmax : l ≥ Max
    · exact ⟨s1, by
        simp [SequenceArgRangeReader.finish, IStream.eof, IStream.clearToEof, IStream.setEof,
          atEof, hl, hmax], rfl, hs1, hs1.nodup, hmem1, hb1⟩
    · have hsorted2 : (s1 ++ upTo (l + 1) Max).Sorted (· < ·) := by
        unfold List.Sorted
        rw [List.pairwise_append]
        refine ⟨hs1, upTo_sorted _ _, ?_⟩
        intro a ha b hb
        have := sorted_le_last s1 l hs1 hl a ha
        have := (mem_upTo.mp hb).1
        omega
      refine ⟨s1 ++ upTo (l + 1) Max, by
        simp [SequenceArgRangeReader.finish, IStream.eof, IStream.clearToEof, atEof, hl,
          hmax, pushRange_eq], rfl, hsorted2, hsorted2.nodup,
        fun v hv => List.mem_append_left _ (hmem1 v hv), ?_⟩
      intro x hx
      rcases List.mem_append.mp hx with h | h
      · exact hb1 x h
      · have hx1 := mem_upTo.mp h
        have hl1 := (hb1 l hlmem).1
        constructor
        · omega
        · exact le_trans (by omega) (le_max_right vk (Max - 1))

/-- Witness of C26: `".3.5..8.."` with `Min` 1 and `Max` 11. -/
theorem range_fill_strictly_ascending_witness :
    ∃ s : List Int,
      SequenceArgRangeReader 1 11 '.' ArgReader_int (IStream.ofString ".3.5..8..".toList)
          = some (ReadOutcome.done atEof s)
      ∧ atEof.fail = false
      ∧ s.Sorted (· < ·)
      ∧ s.Nodup
      ∧ (∀ v ∈ [3, 5, 8], v ∈ s)
      ∧ ∀ x ∈ s, min 1 3 ≤ x ∧ x ≤ max 8 (11 - 1) :=
  range_fill_strictly_ascending 1 11 '.' ArgReader_int ".3.5..8..".toList [3, 5, 8] 3 8
    (by decide) (by decide) (by decide) (by decide) (fun _ => by decide)

/-! ## The comment stripping loop -/

theorem drop_eq_cons_of_getElem? (text : Str) (i : Nat) (c : Char)
    (h : text[i]? = some c) : text.drop i = c :: text.drop (i + 1) := by
  obtain ⟨hi, hc⟩ := List.getElem?_eq_some.mp h
  rw [List.drop_eq_getElem_cons hi, hc]

theorem stripWhile_spec (text : Str) :
    ∀ (fuel i : Nat), i ≤ text.length → text.length - i < fuel →
      ∃ j, stripWhile text text.length fuel i = some j
        ∧ i ≤ j ∧ j ≤ text.length ∧ (i < text.length → i < j)
        ∧ stripComments true (text.drop i) = stripComments false (text.drop j) := by
  intro fuel
  induction fuel with
  | zero => intro i _ h; omega
  | succ fuel ih =>
    intro i hi hfuel
    unfold stripWhile
    by_cases hlt : i < text.length
    · simp only [hlt, if_true]
      have hget : text[i]? = some text[i] := List.getElem?_eq_getElem hlt
      have hdrop := drop_eq_cons_of_getElem? text i _ hget
      rw [hget]
      simp only []
      by_cases hc : text[i] = '\n'
      · refine ⟨i + 1, by simp [hc], by omega, by omega, fun _ => by omega, ?_⟩
        rw [hdrop, hc]
        simp [stripComments]
      · obtain ⟨j, h1, h2, h3, _, h5⟩ := ih (i + 1) (by omega) (by omega)
        refine ⟨j, by simp [hc, h1], by omega, h3, fun _ => by omega, ?_⟩
        rw [hdrop, ← h5]
        simp [stripComments, hc]
    · have hi2 : i = text.length := by omega
      refine ⟨i, by simp [hlt], le_refl _, hi, fun h => absurd h hlt, ?_⟩
      rw [hi2]
      simp [stripComments]

theorem stripFor_spec (text : Str) :
    ∀ (fuel i : Nat) (out : Str), i ≤ text.length → text.length - i < fuel →
      stripFor text text.length fuel i out
        = some (out ++ stripComments false (text.drop i)) := by
  intro fuel
  induction fuel with
  | zero => intro i out _ h; omega
  | succ fuel ih =>
    intro i out hi hfuel
    unfold stripFor
    by_cases hlt : i < text.length
    · simp only [hlt, if_true]
      have hget : text[i]? = some text[i] := List.getElem?_eq_getElem hlt
      have hdrop := drop_eq_cons_of_getElem? text i _ hget
      rw [hget]
      simp only []
      by_cases hc : text[i] = '#'
      · obtain ⟨j, h1, h2, h3, h4, h5⟩ :=
          stripWhile_spec text (text.length + 1) i hi (by omega)
        have hj := h4 hlt
        have hj0 : j ≠ 0 := by omega
        have hj1 : j - 1 + 1 = j := by omega
        simp only [hc, if_true, h1, hj0, if_false, hj1]
        rw [ih j (out ++ ['\n']) h3 (by omega), hdrop, ← h5, hdrop, hc]
        simp [stripComments]
      · simp only [hc, if_false]
        rw [ih (i + 1) (out ++ [text[i]]) (by omega) (by omega), hdrop]
        simp [stripComments, hc]
    · have hi2 : i = text.length := by omega
      simp only [hlt, if_false]
      rw [hi2]
      simp [stripComments]

theorem not_mem_stripComments (text : Str) :
    ∀ (b : Bool), '#' ∉ stripComments b text := by
  induction text with
  | nil => intro b; cases b <;> simp [stripComments]
  | cons c cs ih =>
    intro b
    cases b with
    | false =>
      by_cases hc : c = '#'
      · simp only [stripComments, hc, if_true, List.mem_cons, not_or]
        exact ⟨by decide, ih true⟩
      · simp only [stripComments, hc, if_false, List.mem_cons, not_or]
        exact ⟨fun e => hc e.symm, ih false⟩
    | true =>
      by_cases hc : c = '\n'
      · simp only [stripComments, hc, if_true]
        exact ih false
      · simp only [stripComments, hc, if_false]
        exact ih true

theorem stripComments_outside (pre rest : Str) (h : '#' ∉ pre) :
    stripComments false (pre ++ rest) = pre ++ stripComments false rest := by
  induction pre with
  | nil => rfl
  | cons c cs ih =>
    have hc : c ≠ '#' := fun e => h (by simp [e])
    have hcs : '#' ∉ cs := fun e => h (by simp [e])
    simp [stripComments, hc, ih hcs]

theorem stripComments_inside (comment rest : Str) (h : '\n' ∉ comment) :
    stripComments true (comment ++ '\n' :: rest) = stripComments false rest
    ∧ stripComments true comment = [] := by
  induction comment with
  | nil => simp [stripComments]
  | cons c cs ih =>
    have hc : c ≠ '\n' := fun e => h (by simp [e])
    have hcs : '\n' ∉ cs := fun e => h (by simp [e])
    simp [stripComments, hc, ih hcs]

/-- C24: the comment stripping loop, run on indices with every read and the
`--i` checked, ends without a fault for every text, and its output is the
text in which characters before a `'#'` are copied, a span from a `'#'`
through the next line end is replaced by one line end, and a span from a `'#'`
to the end of a text without further line end is replaced by one line end. The
output holds no `'#'`. -/
theorem stripLoop_spec (text : Str) :
    stripLoop text = some (stripComments false text)
    ∧ '#' ∉ stripComments false text
    ∧ (∀ pre rest : Str, '#' ∉ pre →
        stripComments false (pre ++ rest) = pre ++ stripComments false rest)
    ∧ (∀ comment rest : Str, '\n' ∉ comment →
        stripComments false ('#' :: comment ++ '\n' :: rest)
          = '\n' :: stripComments false rest)
    ∧ (∀ comment : Str, '\n' ∉ comment → stripComments false ('#' :: comment) = ['\n'])
    ∧ (∀ plain : Str, '#' ∉ plain → stripComments false plain = plain) := by
  refine ⟨?_, not_mem_stripComments text false, stripComments_outside, ?_, ?_, ?_⟩
  · have := stripFor_spec text (text.length + 1) 0 [] (Nat.zero_le _) (by omega)
    simpa [stripLoop] using this
  · intro comment rest h
    have := (stripComments_inside comment rest h).1
    rw [List.cons_append, stripComments, if_pos rfl, this]
  · intro comment h
    have := (stripComments_inside comment [] h).2
    rw [stripComments, if_pos rfl, this]
  · intro plain h
    have := stripComments_outside plain [] h
    simpa [stripComments] using this

/-- Witness of C24: a text with a comment ended by a line end and one that
runs to the end of the text. -/
theorem stripLoop_spec_witness :
    stripLoop "-a 1 # one\n-b # two".toList = some "-a 1 \n-b \n".toList :=
  ((stripLoop_spec "-a 1 # one\n-b # two".toList).1).trans (by decide)

/-! ## The extended variant of `Args::read` -/

theorem markAppearances_getD (l : List Nat) :
    ∀ (used : List Bool) (j : Nat),
      ((CommandLine.markAppearances used l).getD j false = true ↔
        used.getD j false = true ∨ (j ∈ l ∧ j < used.length))
      ∧ (CommandLine.markAppearances used l).length = used.length := by
  induction l with
  | nil => intro used j; simp [CommandLine.markAppearances]
  | cons i rest ih =>
    intro used j
    have h := ih (used.set i true) j
    simp only [CommandLine.markAppearances, List.foldl_cons] at h ⊢
    rw [h.1, h.2, getD_set_true, List.length_set, List.mem_cons]
    refine ⟨?_, rfl⟩
    constructor
    · rintro ((h1 | ⟨h1, h2⟩) | ⟨h1, h2⟩)
      · exact Or.inl h1
      · exact Or.inr ⟨Or.inl h1, by omega⟩
      · exact Or.inr ⟨Or.inr h1, h2⟩
    · rintro (h1 | ⟨h1 | h1, h2⟩)
      · exact Or.inl (Or.inl h1)
      · exact Or.inl (Or.inr ⟨h1, by omega⟩)
      · exact Or.inr ⟨h1, h2⟩

theorem markRange_getD (used : List Bool) (first second j : Nat) :
    ((CommandLine.markRange used first second).getD j false = true ↔
      used.getD j false = true ∨ ((first ≤ j ∧ j ≤ second) ∧ j < used.length))
    ∧ (CommandLine.markRange used first second).length = used.length := by
  have h := markAppearances_getD (List.range' first (second + 1 - first)) used j
  simp only [CommandLine.markAppearances] at h
  simp only [CommandLine.markRange]
  rw [h.1, h.2, List.mem_range'_1]
  refine ⟨?_, rfl⟩
  constructor
  · rintro (h1 | ⟨⟨h1, h2⟩, h3⟩)
    · exact Or.inl h1
    · exact Or.inr ⟨⟨h1, by omega⟩, h3⟩
  · rintro (h1 | ⟨⟨h1, h2⟩, h3⟩)
    · exact Or.inl h1
    · exact Or.inr ⟨⟨h1, by omega⟩, h3⟩

theorem positionsFrom_map {α β : Type} (p : β → Bool) (f : α → β) :
    ∀ (l : List α) (k : Nat),
      positionsFrom p k (l.map f) = positionsFrom (fun a => p (f a)) k l := by
  intro l
  induction l with
  | nil => intro k; rfl
  | cons a rest ih => intro k; simp [positionsFrom, ih]

theorem mem_positionsFrom {α : Type} (p : α → Bool) :
    ∀ (l : List α) (k i : Nat),
      i ∈ positionsFrom p k l ↔ k ≤ i ∧ ∃ a, l[i - k]? = some a ∧ p a = true := by
  intro l
  induction l with
  | nil => intro k i; simp [positionsFrom]
  | cons a rest ih =>
    intro k i
    have hrest : i ∈ positionsFrom p (k + 1) rest ↔
        k + 1 ≤ i ∧ ∃ b, (a :: rest)[i - k]? = some b ∧ p b = true := by
      rw [ih (k + 1) i]
      constructor
      · rintro ⟨h1, b, h2, h3⟩
        refine ⟨h1, b, ?_, h3⟩
        have e : i - k = (i - (k + 1)) + 1 := by omega
        rw [e, List.getElem?_cons_succ]
        exact h2
      · rintro ⟨h1, b, h2, h3⟩
        refine ⟨h1, b, ?_, h3⟩
        have e : i - k = (i - (k + 1)) + 1 := by omega
        rw [e, List.getElem?_cons_succ] at h2
        exact h2
    unfold positionsFrom
    by_cases hp : p a = true
    · simp only [hp, if_true, List.mem_cons, hrest]
      constructor
      · rintro (h | ⟨h1, h2⟩)
        · subst h
          exact ⟨le_refl _, a, by simp, hp⟩
        · exact ⟨by omega, h2⟩
      · rintro ⟨h1, b, h2, h3⟩
        by_cases hik : i = k
        · exact Or.inl hik
        · exact Or.inr ⟨by omega, b, h2, h3⟩
    · simp only [hp, Bool.false_eq_true, if_false, hrest]
      constructor
      · rintro ⟨h1, h2⟩
        exact ⟨by omega, h2⟩
      · rintro ⟨h1, b, h2, h3⟩
        by_cases hik : i = k
        · subst hik
          simp only [Nat.sub_self, List.getElem?_cons_zero, Option.some.injEq] at h2
          subst h2
          exact absurd h3 hp
        · exact ⟨by omega, b, h2, h3⟩

theorem CommandLine_readArgs_spec {α : Type} (ops : CommandLine.ArgInterface α)
    (argv : List Str) :
    ∀ (args : List α) (k : Nat) (parse : CommandLine.Parse) (used : List Bool),
      (CommandLine.readArgs ops argv k args parse used).1
          = args.map (fun a => (ops.read a argv).1)
      ∧ (CommandLine.readArgs ops argv k args parse used).2.1.duplicates
          = parse.duplicates
            ++ positionsFrom (fun a => ops.duplicated (ops.read a argv).1) k args
      ∧ (CommandLine.readArgs ops argv k args parse used).2.1.errors
          = parse.errors ++ positionsFrom (fun a => !ops.good (ops.read a argv).1) k args
      ∧ (CommandLine.readArgs ops argv k args parse used).2.1.unrecognized
          = parse.unrecognized
      ∧ (CommandLine.readArgs ops argv k args parse used).2.1.anonymous = parse.anonymous
      ∧ (CommandLine.readArgs ops argv k args parse used).2.2.length = used.length
      ∧ ∀ j, (CommandLine.readArgs ops argv k args parse used).2.2.getD j false = true ↔
          used.getD j false = true
          ∨ (j < used.length ∧ ∃ a ∈ args,
              ((ops.read a argv).2.1 ≤ j ∧ j ≤ (ops.read a argv).2.2)
              ∨ j ∈ ops.appearances (ops.read a argv).1) := by
  intro args
  induction args with
  | nil => intro k parse used; simp [CommandLine.readArgs, positionsFrom]
  | cons a rest ih =>
    intro k parse used
    have hP : ∃ (P : CommandLine.Parse) (U : List Bool),
        CommandLine.readArgs ops argv k (a :: rest) parse used
          = ((ops.read a argv).1 :: (CommandLine.readArgs ops argv (k + 1) rest P U).1,
              (CommandLine.readArgs ops argv (k + 1) rest P U).2.1,
              (CommandLine.readArgs ops argv (k + 1) rest P U).2.2)
        ∧ P.duplicates = parse.duplicates
            ++ (if ops.duplicated (ops.read a argv).1 = true then [k] else [])
        ∧ P.errors = parse.errors
            ++ (if (!ops.good (ops.read a argv).1) = true then [k] else [])
        ∧ P.unrecognized = parse.unrecognized
        ∧ P.anonymous = parse.anonymous
        ∧ U = CommandLine.markAppearances
            (CommandLine.markRange used (ops.read a argv).2.1 (ops.read a argv).2.2)
            (ops.appearances (ops.read a argv).1) := by
      refine ⟨{ errors := parse.errors
                  ++ (if (!ops.good (ops.read a argv).1) = true then [k] else []),
                duplicates := parse.duplicates
                  ++ (if ops.duplicated (ops.read a argv).1 = true then [k] else []),
                unrecognized := parse.unrecognized,
                anonymous := parse.anonymous },
        CommandLine.markAppearances
            (CommandLine.markRange used (ops.read a argv).2.1 (ops.read a argv).2.2)
            (ops.appearances (ops.read a argv).1), ?_, rfl, rfl, rfl, rfl, rfl⟩
      cases hd : ops.duplicated (ops.read a argv).1 <;>
        cases hg : ops.good (ops.read a argv).1 <;>
        simp [CommandLine.readArgs, hd, hg]
    obtain ⟨P, U, e, hPd, hPe, hPu, hPa, hU⟩ := hP
    obtain ⟨h1, h2, h3, h4, h5, h6, h7⟩ := ih (k + 1) P U
    rw [e]
    simp only
    refine ⟨by rw [h1]; rfl, ?_, ?_, ?_, ?_, ?_, ?_⟩
    · rw [h2, hPd]
      cases hd : ops.duplicated (ops.read a argv).1 <;> simp [positionsFrom, hd]
    · rw [h3, hPe]
      cases hg : ops.good (ops.read a argv).1 <;> simp [positionsFrom, hg]
    · rw [h4, hPu]
    · rw [h5, hPa]
    · rw [h6, hU, (markAppearances_getD _ _ 0).2, (markRange_getD _ _ _ 0).2]
    · intro j
      rw [h7 j, hU, (markAppearances_getD _ _ j).1, (markAppearances_getD _ _ j).2,
        (markRange_getD _ _ _ j).1, (markRange_getD _ _ _ j).2]
      simp only [List.mem_cons, exists_eq_or_imp]
      constructor
      · rintro (((h | ⟨h, hl⟩) | ⟨h, hl⟩) | ⟨hl, h⟩)
        · exact Or.inl h
        · exact Or.inr ⟨hl, Or.inl (Or.inl h)⟩
        · exact Or.inr ⟨hl, Or.inl (Or.inr h)⟩
        · exact Or.inr ⟨hl, Or.inr h⟩
      · rintro (h | ⟨hl, (h | h) | h⟩)
        · exact Or.inl (Or.inl (Or.inl h))
        · exact Or.inl (Or.inl (Or.inr ⟨h, hl⟩))
        · exact Or.inl (Or.inr ⟨h, hl⟩)
        · exact Or.inr ⟨hl, h⟩

/-- C23. Extended variant of `Args::read(argc, argv)`, for every registry,
every token vector and whatever the four collections held before, where the
arguments report indices inside the token vector: every argument is read once;
an index is marked used exactly when it lies in the consumed range
[first, second] of an argument or in the appearance list of one; unrecognized
and anonymous are the tokens at the indices 1..N-1 that are not marked, in
ascending order, those starting with '-' unrecognized and the others
anonymous; duplicates and errors hold exactly the positions of the arguments
that report duplicated(), resp. not good(), after the read, in registry order;
and the result does not depend on the earlier contents of the collections. -/
theorem CommandLine_read_spec {α : Type} (ops : CommandLine.ArgInterface α)
    (args : List α) (parse : CommandLine.Parse) (argv : List Str)
    (hb : ∀ a ∈ args,
      (∀ i, (ops.read a argv).2.1 ≤ i → i ≤ (ops.read a argv).2.2 → i < argv.length)
      ∧ ∀ i ∈ ops.appearances (ops.read a argv).1, i < argv.length) :
    (CommandLine.read ops args parse argv).1 = args.map (fun a => (ops.read a argv).1)
    ∧ (∀ i, (CommandLine.usedTable ops args argv).getD i false = true ↔
        ∃ a ∈ args, ((ops.read a argv).2.1 ≤ i ∧ i ≤ (ops.read a argv).2.2)
          ∨ i ∈ ops.appearances (ops.read a argv).1)
    ∧ (CommandLine.read ops args parse argv).2.unrecognized
        = ((List.range' 1 (argv.length - 1)).filter
            (fun i => !(CommandLine.usedTable ops args argv).getD i false
              && startsWithDash (tokenAt argv i))).map (tokenAt argv)
    ∧ (CommandLine.read ops args parse argv).2.anonymous
        = ((List.range' 1 (argv.length - 1)).filter
            (fun i => !(CommandLine.usedTable ops args argv).getD i false
              && !startsWithDash (tokenAt argv i))).map (tokenAt argv)
    ∧ (CommandLine.read ops args parse argv).2.duplicates
        = positionsFrom ops.duplicated 0 (CommandLine.read ops args parse argv).1
    ∧ (CommandLine.read ops args parse argv).2.errors
        = positionsFrom (fun a => !ops.good a) 0 (CommandLine.read ops args parse argv).1
    ∧ (∀ k, k ∈ (CommandLine.read ops args parse argv).2.duplicates ↔
        ∃ a, (CommandLine.read ops args parse argv).1[k]? = some a ∧ ops.duplicated a = true)
    ∧ (∀ k, k ∈ (CommandLine.read ops args parse argv).2.errors ↔
        ∃ a, (CommandLine.read ops args parse argv).1[k]? = some a ∧ ops.good a = false)
    ∧ ∀ earlier : CommandLine.Parse,
        CommandLine.read ops args earlier argv = CommandLine.read ops args parse argv := by
  obtain ⟨h1, h2, h3, -, -, -, h7⟩ := CommandLine_readArgs_spec ops argv args 0
    { errors := [], duplicates := [], unrecognized := [], anonymous := [] }
    (List.replicate argv.length false)
  have hd : (CommandLine.read ops args parse argv).2.duplicates
      = positionsFrom ops.duplicated 0 (CommandLine.read ops args parse argv).1 := by
    simp only [CommandLine.read]
    rw [h1, h2, positionsFrom_map]
    rfl
  have he : (CommandLine.read ops args parse argv).2.errors
      = positionsFrom (fun a => !ops.good a) 0 (CommandLine.read ops args parse argv).1 := by
    simp only [CommandLine.read]
    rw [h1, h3, positionsFrom_map]
    rfl
  refine ⟨h1, ?_, ?_, ?_, hd, he, ?_, ?_, fun _ => rfl⟩
  · intro i
    unfold CommandLine.usedTable
    rw [h7 i, getD_replicate_false, List.length_replicate]
    constructor
    · rintro (h | ⟨-, h⟩)
      · exact absurd h (by simp)
      · exact h
    · rintro ⟨a, ha, h⟩
      refine Or.inr ⟨?_, a, ha, h⟩
      rcases h with h | h
      · exact (hb a ha).1 i h.1 h.2
      · exact (hb a ha).2 i h
  · simp only [CommandLine.read, CommandLine.usedTable, Args.classify, classify_fold,
      List.nil_append]
  · simp only [CommandLine.read, CommandLine.usedTable, Args.classify, classify_fold,
      List.nil_append]
  · intro k
    rw [hd, mem_positionsFrom]
    simp
  · intro k
    rw [he, mem_positionsFrom]
    simp

theorem CommandLine_read_spec_witness :
    (CommandLine.read flagInterface [flag_h]
        { errors := [7], duplicates := [8], unrecognized := ["-old".toList],
          anonymous := ["old".toList] }
        ["prog".toList, "-h".toList, "-x".toList, "-h".toList, "file".toList]).2
      = { errors := [], duplicates := [0], unrecognized := ["-x".toList],
          anonymous := ["file".toList] } :=
  (congrArg Prod.snd
    ((CommandLine_read_spec flagInterface [flag_h]
      { errors := [], duplicates := [], unrecognized := [], anonymous := [] }
      ["prog".toList, "-h".toList, "-x".toList, "-h".toList, "file".toList]
      (fun a ha => by
        rw [List.mem_singleton] at ha
        subst ha
        exact ⟨fun i _ h2 => Nat.lt_of_le_of_lt h2 (by decide), by decide⟩)).2.2.2.2.2.2.2.2
      { errors := [7], duplicates := [8], unrecognized := ["-old".toList],
        anonymous := ["old".toList] })).trans (by decide)

end cpputil
